import Mathlib

/-!
# bytefmt: a shallow embedding of `src/bytefmt.go`

The Go package formats an unsigned 64-bit byte count as a scaled number
followed by a unit name.  This file embeds the package in Lean and proves
properties of the embedding.

Conventions of the embedding

* A `uint64` is a natural number; the code only compares it with constants and
  converts it to `float64`, so no wrap-around occurs.  Theorems stated for
  every natural number hold in particular for every `uint64`.
* A finite `float64` is the rational number it denotes.  The two primitive
  floating-point operations of the package, the conversion `float64(x)` of an
  integer and the division `x / y`, are the exact results rounded to the
  nearest binary64 value, ties to even (`f64round`).
* A Go slice of strings is a `List String`; the nil slice is `[]`.
* A method with a pointer receiver that mutates it returns the new receiver
  together with its result.
* An index expression that can fail at run time returns an `Option`.
* The calls of package `fmt` are modelled from its documented behaviour; a
  format string is the record of the flags, width, precision and verb it spells.
-/

namespace Bytefmt

/-! ## Constants and the data model (`bytefmt.go`, lines 14-35) -/

/-- The constant `Byte uint64 = 1 << (10 * iota)` with `iota = 0`. -/
def Byte : Nat := 1 <<< (10 * 0)

/-- The constant `Kilobyte` (`iota = 1`). -/
def Kilobyte : Nat := 1 <<< (10 * 1)

/-- The constant `Megabyte` (`iota = 2`). -/
def Megabyte : Nat := 1 <<< (10 * 2)

/-- The constant `Gigabyte` (`iota = 3`). -/
def Gigabyte : Nat := 1 <<< (10 * 3)

/-- The constant `Terabyte` (`iota = 4`). -/
def Terabyte : Nat := 1 <<< (10 * 4)

/-- The constant `Petabyte` (`iota = 5`). -/
def Petabyte : Nat := 1 <<< (10 * 5)

/-- The constant `Exabyte` (`iota = 6`). -/
def Exabyte : Nat := 1 <<< (10 * 6)

/-- The struct `Bytes`: the raw count and the table of unit names. -/
structure Bytes where
  /-- The exported field `Value uint64`. -/
  Value : Nat
  /-- The unexported field `names []string`. -/
  names : List String
  deriving DecidableEq, Repr

/-- The package-level variable `names`, the default table of unit names. -/
def names : List String := ["B", "K", "M", "G", "T", "P", "E"]

/-- The method `(b *Bytes) Names(n ...string) []string`: the receiver after the
call and the returned slice. -/
def Bytes.Names (b : Bytes) (n : List String) : Bytes × List String :=
  if n.length = 0 then
    let b1 : Bytes := if b.names.length = 0 then ⟨b.Value, Bytefmt.names⟩ else b
    (b1, b1.names)
  else
    let b1 : Bytes := ⟨b.Value, n⟩
    let b2 : Bytes :=
      if b1.names.length < Bytefmt.names.length then
        ⟨b1.Value, b1.names ++ Bytefmt.names.drop b1.names.length⟩
      else b1
    (b2, b2.names)

/-- The constructor `New(v uint64, n ...string) Bytes`. -/
def New (v : Nat) (n : List String) : Bytes :=
  (Bytes.Names ⟨v, []⟩ n).1

/-! ## The model of binary64 arithmetic -/

/-- The quotient `n / d` rounded to the nearest natural number, ties to even. -/
def roundHalfEven (n d : Nat) : Nat :=
  let q := n / d
  let r := n % d
  if 2 * r < d then q
  else if d < 2 * r then q + 1
  else if q % 2 = 0 then q
  else q + 1

/-- The binary exponent of the positive fraction `n / d`: the integer `e` with
`2 ^ e ≤ n / d < 2 ^ (e + 1)`. -/
def binExp (n d : Nat) : Int :=
  (Nat.log2 n : Int) - (Nat.log2 d : Int)
    - (if n * 2 ^ Nat.log2 d < d * 2 ^ Nat.log2 n then 1 else 0)

/-- The exponent of the unit in the last place of the binary64 values around the
positive fraction `n / d`: 52 below the binary exponent, which is at least the
smallest normal exponent -1022. -/
def ulpExp (n d : Nat) : Int :=
  max (binExp n d) (-1022) - 52

/-- Rounding of a rational number to the nearest binary64 value, ties to even
(IEEE 754 `roundTiesToEven`, 53 significant bits, gradual underflow).  Overflow
to infinity is not modelled: every value of the package is at most `2 ^ 64`. -/
def f64round (x : ℚ) : ℚ :=
  if x = 0 then 0
  else
    let n := x.num.natAbs
    let d := x.den
    let s := ulpExp n d
    let m :=
      if 0 ≤ s then roundHalfEven n (d * 2 ^ s.toNat)
      else roundHalfEven (n * 2 ^ (-s).toNat) d
    (if x < 0 then -1 else 1) * (m : ℚ) * (2 : ℚ) ^ s

/-- The Go conversion `float64(x)` of an unsigned integer. -/
def f64ofUint (x : Nat) : ℚ := f64round (x : ℚ)

/-- The Go division `x / y` of two `float64` values, for `y` not zero. -/
def f64div (x y : ℚ) : ℚ := f64round (x / y)

/-! ## The scaled value and the unit name (`bytefmt.go`, lines 150-195) -/

/-- The method `kilobytes`. -/
def Bytes.kilobytes (b : Bytes) : ℚ := f64div (f64ofUint b.Value) (f64ofUint Kilobyte)

/-- The method `megabytes`. -/
def Bytes.megabytes (b : Bytes) : ℚ := f64div (f64ofUint b.Value) (f64ofUint Megabyte)

/-- The method `gigabytes`. -/
def Bytes.gigabytes (b : Bytes) : ℚ := f64div (f64ofUint b.Value) (f64ofUint Gigabyte)

/-- The method `terabytes`. -/
def Bytes.terabytes (b : Bytes) : ℚ := f64div (f64ofUint b.Value) (f64ofUint Terabyte)

/-- The method `petabytes`. -/
def Bytes.petabytes (b : Bytes) : ℚ := f64div (f64ofUint b.Value) (f64ofUint Petabyte)

/-- The method `exabytes`. -/
def Bytes.exabytes (b : Bytes) : ℚ := f64div (f64ofUint b.Value) (f64ofUint Exabyte)

/-- The method `float64`: the count in the largest unit it reaches. -/
def Bytes.float64 (b : Bytes) : ℚ :=
  if b.Value ≥ Exabyte then b.exabytes
  else if b.Value ≥ Petabyte then b.petabytes
  else if b.Value ≥ Terabyte then b.terabytes
  else if b.Value ≥ Gigabyte then b.gigabytes
  else if b.Value ≥ Megabyte then b.megabytes
  else if b.Value ≥ Kilobyte then b.kilobytes
  else f64ofUint b.Value

/-- The method `name`: the entry of the receiver's table for the largest unit
the count reaches; `none` when the index is out of range (a run-time panic). -/
def Bytes.name (b : Bytes) : Option String :=
  if b.Value ≥ Exabyte then b.names[6]?
  else if b.Value ≥ Petabyte then b.names[5]?
  else if b.Value ≥ Terabyte then b.names[4]?
  else if b.Value ≥ Gigabyte then b.names[3]?
  else if b.Value ≥ Megabyte then b.names[2]?
  else if b.Value ≥ Kilobyte then b.names[1]?
  else b.names[0]?

/-! ## The exported accessors (`export_test.go`) -/

/-- The method `Kilobytes`. -/
def Bytes.Kilobytes (b : Bytes) : ℚ := b.kilobytes

/-- The method `Megabytes`. -/
def Bytes.Megabytes (b : Bytes) : ℚ := b.megabytes

/-- The method `Gigabytes`. -/
def Bytes.Gigabytes (b : Bytes) : ℚ := b.gigabytes

/-- The method `Terabytes`. -/
def Bytes.Terabytes (b : Bytes) : ℚ := b.terabytes

/-- The method `Petabytes`. -/
def Bytes.Petabytes (b : Bytes) : ℚ := b.petabytes

/-- The method `Exabytes`. -/
def Bytes.Exabytes (b : Bytes) : ℚ := b.exabytes

/-- The six accessors `Kilobytes` .. `Exabytes` listed by the power `k` of 1024
of their unit (`k = 1` for `Kilobytes`, .., `k = 6` for `Exabytes`); there is no
accessor for another `k`. -/
def Bytes.scaleAccessor (b : Bytes) : Nat → Option ℚ
  | 1 => some b.Kilobytes
  | 2 => some b.Megabytes
  | 3 => some b.Gigabytes
  | 4 => some b.Terabytes
  | 5 => some b.Petabytes
  | 6 => some b.Exabytes
  | _ => none

/-! ## The model of `fmt.Sprintf("%v", f)` for a `float64` -/

/-- The rationals that round to the positive binary64 value `x`: the lower
bound, the upper bound, and whether the bounds themselves round to `x` (they do
when the significand of `x` is even).  Below a power of two the neighbouring
value is half as far away as above it. -/
def f64interval (x : ℚ) : ℚ × ℚ × Bool :=
  let s := ulpExp x.num.natAbs x.den
  let ulp : ℚ := (2 : ℚ) ^ s
  let mant : ℚ := x / ulp
  let upper := x + ulp / 2
  let lower := if mant = 2 ^ 52 ∧ -1074 < s then x - ulp / 4 else x - ulp / 2
  (lower, upper, decide (mant.num % 2 = 0))

/-- Whether the decimal `c` reads back as the binary64 value whose interval is
`iv`. -/
def admissible (iv : ℚ × ℚ × Bool) (c : ℚ) : Bool :=
  if iv.2.2 then decide (iv.1 ≤ c ∧ c ≤ iv.2.1) else decide (iv.1 < c ∧ c < iv.2.1)

/-- The multiple of `10 ^ p` that reads back as `x`, if there is one: the
nearest to `x` when it is admissible (ties to even), otherwise the one on the
other side of `x`. -/
def shortestAt (x : ℚ) (iv : ℚ × ℚ × Bool) (p : Int) : Option Nat :=
  let step : ℚ := (10 : ℚ) ^ p
  let lo : Nat := (Rat.floor (x / step)).toNat
  let frac : ℚ := x / step - lo
  let up : Bool := decide (1 / 2 < frac ∨ (frac = 1 / 2 ∧ lo % 2 = 1))
  let okLo := admissible iv ((lo : ℚ) * step)
  let okHi := admissible iv (((lo + 1 : Nat) : ℚ) * step)
  if up then
    if okHi then some (lo + 1) else if okLo then some lo else none
  else
    if okLo then some lo else if okHi then some (lo + 1) else none

/-- The search for the shortest decimal that reads back as `x`: the first
exponent `p`, going down, at which a multiple of `10 ^ p` is admissible, with
that multiple divided by `10 ^ p`. -/
def shortestLoop (x : ℚ) (iv : ℚ × ℚ × Bool) : Nat → Int → Nat × Int
  | 0, p => ((Rat.floor (x / (10 : ℚ) ^ p)).toNat, p)
  | fuel + 1, p =>
    match shortestAt x iv p with
    | some D => (D, p)
    | none => shortestLoop x iv fuel (p - 1)

/-- The shortest decimal digits that identify the non-negative binary64 value
`x`, and the position of the decimal point relative to the first digit
(`strconv`, shortest mode): the value is `0.d₁d₂… × 10 ^ dp`.  Zero has no
digits. -/
def shortestDecimal (x : ℚ) : List Char × Int :=
  if x = 0 then ([], 0)
  else
    let iv := f64interval x
    let p0 : Nat := (Nat.toDigits 10 (Rat.floor iv.2.1).toNat).length
    let r := shortestLoop x iv (p0 + 400) p0
    let ds := Nat.toDigits 10 r.1
    (ds, (ds.length : Int) + r.2)

/-- The function `fmtF` of `strconv`: the digits in positional notation with
`prec` digits after the decimal point. -/
def fmtF (ds : List Char) (dp : Int) (prec : Nat) : List Char :=
  let intPart : List Char :=
    if 0 < dp then ds.take dp.toNat ++ List.replicate (dp.toNat - ds.length) '0'
    else ['0']
  let fracPart : List Char :=
    if 0 < prec then
      '.' :: (List.range prec).map (fun i =>
        let j : Int := dp + i
        if 0 ≤ j ∧ j < ds.length then ds.getD j.toNat '0' else '0')
    else []
  intPart ++ fracPart

/-- The function `fmtE` of `strconv`: the digits in scientific notation with
`prec` digits after the decimal point and an exponent of at least two digits. -/
def fmtE (ds : List Char) (dp : Int) (prec : Nat) : List Char :=
  let first : Char := ds.getD 0 '0'
  let more : List Char :=
    if 0 < prec then
      '.' :: ((ds.drop 1).take prec ++ List.replicate (prec - (ds.length - 1)) '0')
    else []
  let exp : Int := if ds.length = 0 then 0 else dp - 1
  let sign : Char := if exp < 0 then '-' else '+'
  let e : Nat := exp.natAbs
  let expDigits : List Char := if e < 10 then '0' :: Nat.toDigits 10 e else Nat.toDigits 10 e
  first :: more ++ 'e' :: sign :: expDigits

/-- The rendering of a `float64` by the verb `%v` without flags, which is
`strconv.FormatFloat(x, 'g', -1, 64)`: the shortest digits that identify the
value, in scientific notation when the decimal exponent is below -4 or at
least 6, otherwise in positional notation. -/
def fmtFloatV (x : ℚ) : String :=
  let d := shortestDecimal (|x|)
  let ds := d.1
  let dp := d.2
  let exp := dp - 1
  let body : List Char :=
    if exp < -4 ∨ 6 ≤ exp then fmtE ds dp (ds.length - 1)
    else fmtF ds dp (ds.length - dp).toNat
  String.mk ((if x < 0 then ['-'] else []) ++ body)

/-! ## The default rendering (`bytefmt.go`, lines 51-79) -/

/-- The call `fmt.Sprintf("%v%s", f, s)` of a `float64` and a string: the two
renderings one after the other. -/
def sprintfVS (f : ℚ) (s : String) : String :=
  fmtFloatV f ++ s

/-- The method `String`: the scaled value and the index of its unit are chosen
by a ladder of its own, and the unit name is read from the package-level
table `names`. -/
protected def Bytes.String (b : Bytes) : String :=
  let fi : ℚ × Fin 7 :=
    if b.Value ≥ Exabyte then (b.float64, 6)
    else if b.Value ≥ Petabyte then (b.float64, 5)
    else if b.Value ≥ Terabyte then (b.float64, 4)
    else if b.Value ≥ Gigabyte then (b.float64, 3)
    else if b.Value ≥ Megabyte then (b.float64, 2)
    else if b.Value ≥ Kilobyte then (b.float64, 1)
    else (b.float64, 0)
  sprintfVS fi.1 (Bytefmt.names.get fi.2)

/-! ## The model of package `fmt` (the calls of `Format`)

`Format` receives its directive through a `fmt.State` and a verb, builds three
format strings from them and calls `fmt.Sprintf` with each.  A format string
with one directive is represented by the record of what it spells: its flags,
its width, its precision and its verb.  The numbers in it are printed by
`strconv.Itoa` and read back by `fmt`; the refusal by `fmt` of a number above
its limit (beyond a million) is not modelled. -/

/-- The verbs of the model: the five verbs of the specification and `e`.
`Format` receives its verb as a rune; the other runes are outside the model. -/
inductive Verb
  | v
  | s
  | q
  | f
  | d
  | e
  deriving DecidableEq, Repr

/-- The interface `fmt.State` as package `fmt` hands it to `Format`: the flags
`Flag` reports, the width and the precision, each absent or a natural number
(`fmt` turns a negative width into the flag `-`). -/
structure State where
  /-- `Flag('+')`. -/
  plus : Bool
  /-- `Flag('#')`. -/
  sharp : Bool
  /-- `Flag(' ')`. -/
  space : Bool
  /-- `Flag('-')`. -/
  minus : Bool
  /-- `Flag('0')`. -/
  zero : Bool
  /-- `Width()`: `none` when its second result is false. -/
  width : Option Nat
  /-- `Precision()`: `none` when its second result is false. -/
  prec : Option Nat
  deriving DecidableEq, Repr

/-- A format string for the value: `%`, then `+` and `#` when set, then `.` and
the precision when set, then the verb (the variable `vf`). -/
structure ValueFormat where
  /-- The flag `+`. -/
  plus : Bool
  /-- The flag `#`. -/
  sharp : Bool
  /-- The precision after the point. -/
  prec : Option Nat
  /-- The verb. -/
  verb : Verb
  deriving DecidableEq, Repr

/-- A format string for a string: `%`, then `-` or `0` when set, then the
width when set, then `s` (the variables `uf` and `pf`). -/
structure StringFormat where
  /-- The flag `-`. -/
  minus : Bool
  /-- The flag `0`. -/
  zero : Bool
  /-- The width. -/
  width : Option Nat
  deriving DecidableEq, Repr

/-- The decimal digits of a natural number (`strconv.Itoa`). -/
def decDigits (n : Nat) : List Char := Nat.toDigits 10 n

/-- The digits without their trailing zeros. -/
def trimZeros (ds : List Char) : List Char :=
  (ds.reverse.dropWhile (fun ch => ch = '0')).reverse

/-- The search, for `0 < x < 1`, of the least `k` from `k` on with
`1 ≤ x * 10 ^ k`. -/
def decExpLoop (x : ℚ) : Nat → Nat → Nat
  | 0, k => k
  | fuel + 1, k => if 1 ≤ x * (10 : ℚ) ^ k then k else decExpLoop x fuel (k + 1)

/-- The decimal exponent of the positive rational `x`: the integer `e` with
`10 ^ e ≤ x < 10 ^ (e + 1)`. -/
def decExp (x : ℚ) : Int :=
  if 1 ≤ x then ((decDigits (Rat.floor x).toNat).length : Int) - 1
  else -((decExpLoop x 400 1 : Nat) : Int)

/-- The non-negative `x` correctly rounded (ties to even) to `digits`
significant decimal digits, trailing zeros removed, with the position of the
decimal point (`strconv`, a fixed number of digits). -/
def roundedDecimal (x : ℚ) (digits : Nat) : List Char × Int :=
  if x = 0 then ([], 0)
  else
    let shift : Int := decExp x - digits + 1
    let y : ℚ := x / (10 : ℚ) ^ shift
    let ds := decDigits (roundHalfEven y.num.natAbs y.den)
    (trimZeros ds, (ds.length : Int) + shift)

/-- The non-negative `x` correctly rounded (ties to even) to `prec` digits after
the decimal point, with the position of the decimal point (`strconv`, verb
`f`). -/
def fixedDecimal (x : ℚ) (prec : Nat) : List Char × Int :=
  let y : ℚ := x * (10 : ℚ) ^ prec
  let n := roundHalfEven y.num.natAbs y.den
  if n = 0 then ([], 0)
  else (decDigits n, ((decDigits n).length : Int) - prec)

/-- The sign `fmt` prints before the digits of a number: `-` for a negative
number, `+` for another number under the flag `+`. -/
def signChars (neg plus : Bool) : List Char :=
  if neg then ['-'] else if plus then ['+'] else []

/-- The call `strconv.FormatFloat(x, 'g', p, 64)` for `x ≥ 0`: at most `p`
significant digits (one when `p = 0`), in scientific notation when the decimal
exponent is below -4 or not below the number of digits asked for. -/
def formatG (x : ℚ) (p : Nat) : List Char :=
  let p1 : Nat := if p = 0 then 1 else p
  let d := roundedDecimal x p1
  let nd : Nat := d.1.length
  let eprec : Int := if nd < p1 ∧ d.2 ≤ nd then nd else p1
  let exp : Int := d.2 - 1
  if exp < -4 ∨ eprec ≤ exp then fmtE d.1 d.2 (min p1 nd - 1)
  else fmtF d.1 d.2 ((nd : Int) - d.2).toNat

/-- The call `strconv.FormatFloat(x, 'f', p, 64)` for `x ≥ 0`. -/
def formatF (x : ℚ) (p : Nat) : List Char :=
  let d := fixedDecimal x p
  fmtF d.1 d.2 p

/-- The call `strconv.FormatFloat(x, 'e', p, 64)` for `x ≥ 0`; under the flag
`#` of `fmt` a decimal point is printed also when `p = 0`. -/
def formatE (x : ℚ) (p : Nat) (sharp : Bool) : List Char :=
  let d := roundedDecimal x (p + 1)
  let body := fmtE d.1 d.2 p
  if sharp ∧ p = 0 then body.take 1 ++ '.' :: body.drop 1 else body

/-- The rendering of a `float64` by `fmt.Sprintf` with the one directive `vf`.
The verb `v` prints the shortest digits, or at most as many significant digits
as the precision, and no sign for a positive number, whatever the flags; the
verbs `f` and `e` print 6 digits after the point unless a precision is given,
`+` before a number that is not negative under the flag `+`, and under the
flag `#` a decimal point also when no digit follows.  `none` for a verb `Format`
never passes with a `float64`. -/
def sprintfFloat (vf : ValueFormat) (x : ℚ) : Option String :=
  match vf.verb with
  | Verb.v =>
    match vf.prec with
    | none => some (fmtFloatV x)
    | some p => some (String.mk (signChars (decide (x < 0)) false ++ formatG (|x|) p))
  | Verb.f =>
    let p := vf.prec.getD 6
    let body := formatF (|x|) p
    some (String.mk (signChars (decide (x < 0)) vf.plus
      ++ (if vf.sharp ∧ p = 0 then body ++ ['.'] else body)))
  | Verb.e =>
    let p := vf.prec.getD 6
    some (String.mk (signChars (decide (x < 0)) vf.plus ++ formatE (|x|) p vf.sharp))
  | _ => none

/-- The digits `fmt` prints for an integer of absolute value `n` under the verb
`d`: at least as many as the precision, with zeros in front, and none at all
for the integer 0 with the precision 0. -/
def integerDigits (prec : Option Nat) (n : Nat) : List Char :=
  match prec with
  | none => decDigits n
  | some p =>
    if p = 0 ∧ n = 0 then []
    else List.replicate (p - (decDigits n).length) '0' ++ decDigits n

/-- The rendering of an `int64` by `fmt.Sprintf` with the one directive `vf`:
for the verb `d` the sign and the digits (the flag `#` changes nothing, and
nothing at all is printed for 0 with the precision 0).  `none` for a verb
`Format` never passes with an `int64`. -/
def sprintfInt (vf : ValueFormat) (n : Int) : Option String :=
  match vf.verb with
  | Verb.d =>
    if vf.prec = some 0 ∧ n = 0 then some ""
    else some (String.mk (signChars (decide (n < 0)) vf.plus ++ integerDigits vf.prec n.natAbs))
  | _ => none

/-- The rendering of a string by `fmt.Sprintf` with a format `%s` that has a
width and the flag `-` or `0` (`padString`): the string is padded to the width,
counted in characters, on the left with spaces, on the left with zeros under
the flag `0`, or on the right with spaces under the flag `-`; a string of the
width or longer is printed as it is. -/
def sprintfS (sf : StringFormat) (s : String) : String :=
  match sf.width with
  | none => s
  | some w =>
    let pad : List Char :=
      List.replicate (w - s.length) (if sf.zero ∧ ¬ sf.minus then '0' else ' ')
    if sf.minus then String.mk (s.data ++ pad) else String.mk (pad ++ s.data)

/-- The first `prec` characters of a string, and the whole string without a
precision (`truncateString`). -/
def truncateString (prec : Option Nat) (s : String) : String :=
  match prec with
  | none => s
  | some p => String.mk (s.data.take p)

/-- The lower-case hexadecimal digits of `n`, at least `width` of them. -/
def hexDigits (width n : Nat) : List Char :=
  let ds := Nat.toDigits 16 n
  List.replicate (width - ds.length) '0' ++ ds

/-- The function `strconv.IsPrint`: decided for the runes up to U+00FF, and read
from the table `isPrint` of the Unicode version in use for the others. -/
def isPrintRune (isPrint : Char → Bool) (r : Char) : Bool :=
  if r.toNat ≤ 0xFF then
    decide ((0x20 ≤ r.toNat ∧ r.toNat ≤ 0x7E) ∨ (0xA1 ≤ r.toNat ∧ r.toNat ≠ 0xAD))
  else isPrint r

/-- One rune inside a double-quoted Go string literal (`appendEscapedRune`): the
quote and the backslash after a backslash, a printable rune as it is (only
below U+0080 when `ascii` is set), the others escaped. -/
def escapeRune (isPrint : Char → Bool) (ascii : Bool) (r : Char) : List Char :=
  let bs : Char := Char.ofNat 92
  if r.toNat = 34 ∨ r.toNat = 92 then [bs, r]
  else if (if ascii then decide (r.toNat < 0x80) && isPrintRune isPrint r
      else isPrintRune isPrint r) then [r]
  else if r.toNat = 7 then [bs, 'a']
  else if r.toNat = 8 then [bs, 'b']
  else if r.toNat = 12 then [bs, 'f']
  else if r.toNat = 10 then [bs, 'n']
  else if r.toNat = 13 then [bs, 'r']
  else if r.toNat = 9 then [bs, 't']
  else if r.toNat = 11 then [bs, 'v']
  else if r.toNat < 0x20 ∨ r.toNat = 0x7F then bs :: 'x' :: hexDigits 2 r.toNat
  else if r.toNat < 0x10000 then bs :: 'u' :: hexDigits 4 r.toNat
  else bs :: 'U' :: hexDigits 8 r.toNat

/-- The functions `strconv.Quote` and, with `ascii`, `strconv.QuoteToASCII`. -/
def quote (isPrint : Char → Bool) (ascii : Bool) (s : String) : String :=
  String.mk (Char.ofNat 34 :: (s.data.flatMap (escapeRune isPrint ascii)) ++ [Char.ofNat 34])

/-- The function `strconv.CanBackquote`: no control character other than the
tab, no backquote, no U+007F and no U+FEFF. -/
def canBackquote (s : String) : Bool :=
  s.data.all (fun r =>
    !(decide (r.toNat < 0x20 ∧ r.toNat ≠ 9) || decide (r.toNat = 96)
      || decide (r.toNat = 0x7F) || decide (r.toNat = 0xFEFF)))

/-- The rendering of a string by `fmt.Sprintf` with the one directive `vf`: the
string is first cut to the precision; the verb `s` prints it, the verb `q`
prints it quoted: between backquotes under the flag `#` when it can be, else
between double quotes, escaped, with only ASCII under the flag `+`.  `none` for
a verb `Format` never passes with a string. -/
def sprintfString (isPrint : Char → Bool) (vf : ValueFormat) (s : String) : Option String :=
  match vf.verb with
  | Verb.s => some (truncateString vf.prec s)
  | Verb.q =>
    let t := truncateString vf.prec s
    if vf.sharp ∧ canBackquote t then
      some (String.mk (Char.ofNat 96 :: t.data ++ [Char.ofNat 96]))
    else some (quote isPrint vf.plus t)
  | _ => none

/-- The function `math.Round`: the nearest integer, a tie away from zero. -/
def mathRound (x : ℚ) : ℚ :=
  if 0 ≤ x then (Rat.floor (x + 1 / 2) : ℚ) else -(Rat.floor (-x + 1 / 2) : ℚ)

/-- The conversion `int64(x)` of a `float64`: the integer part, for a value in
the range of `int64`. -/
def toInt64 (x : ℚ) : Int :=
  if 0 ≤ x then Rat.floor x else -Rat.floor (-x)

/-! ## The method `Format` (`bytefmt.go`, lines 89-148) -/

/-- The format string `vf` which `Format` builds for the value. -/
def valueFormat (f : State) (c : Verb) : ValueFormat :=
  ⟨f.plus, f.sharp, f.prec, c⟩

/-- The format string `uf` which `Format` builds for the unit name, of `uw`
characters: under the flag space its width is `uw + 1`, or `uw + w` when the
width `w` is set; otherwise it has no width. -/
def unitFormat (f : State) (uw : Nat) : StringFormat :=
  if f.space then
    match f.width with
    | none => ⟨false, false, some (uw + 1)⟩
    | some w => ⟨false, false, some (uw + w)⟩
  else ⟨false, false, none⟩

/-- The format string `pf` which `Format` builds for the padding, `none` when it
stays empty: without the flag space and with the width `w` set, `%`, then `-`
under the flag `-`, else `0` under the flag `0`, then `w` and `s`. -/
def padFormat (f : State) : Option StringFormat :=
  if f.space then none
  else
    match f.width with
    | none => none
    | some w => some ⟨f.minus, !f.minus && f.zero, some w⟩

/-- The statement `if pf != "" { s = fmt.Sprintf(pf, s) }`. -/
def applyPad (pf : Option StringFormat) (s : String) : String :=
  match pf with
  | none => s
  | some sf => sprintfS sf s

/-- The method `Format`: the string it writes to the state, `none` when `name`
fails.  `isPrint` is the table of printable runes above U+00FF, which only the
verb `q` consults. -/
def Bytes.Format (isPrint : Char → Bool) (b : Bytes) (f : State) (c : Verb) : Option String :=
  match b.name with
  | none => none
  | some u =>
    let uw : Nat := u.length
    let vf := valueFormat f c
    let uf := unitFormat f uw
    let pf := padFormat f
    if c = Verb.s ∨ c = Verb.q then
      let v : String := fmtFloatV b.float64
      let s : String := v ++ sprintfS uf u
      sprintfString isPrint vf (applyPad pf s)
    else
      let v : Option String :=
        if c = Verb.d then sprintfInt vf (toInt64 (mathRound b.float64))
        else sprintfFloat vf b.float64
      match v with
      | none => none
      | some t => some (applyPad pf (t ++ sprintfS uf u))

/-! ## Notions of the specification -/

/-- The tier of a raw count in the words of the specification: the largest
index `i` of 0..6 with `1024 ^ i ≤ v`, and 0 when there is none. -/
def tierOf (v : Nat) : Nat :=
  Nat.findGreatest (fun i => 1024 ^ i ≤ v) 6

/-- The values of type `Bytes` that a client of the package can hold.  The field
`names` is unexported, so a client starts from a literal that sets at most
`Value`, or from `New`, and changes the table only through `Names`. -/
inductive Bytes.Reachable : Bytes → Prop
  | literal (v : Nat) : Bytes.Reachable ⟨v, []⟩
  | new (v : Nat) (n : List String) : Bytes.Reachable (New v n)
  | names (b : Bytes) (n : List String) : Bytes.Reachable b → Bytes.Reachable (b.Names n).1

/-- The state of a directive without a flag, a width or a precision. -/
def State.plain : State :=
  ⟨false, false, false, false, false, none, none⟩

/-- The value part of a rendering by `Format`: what the format string `vf`
prints for the value alone, and for the verbs `s` and `q` the `%v` rendering of
the scaled value, before the unit name is added. -/
def Bytes.valueText (b : Bytes) (f : State) (c : Verb) : Option String :=
  if c = Verb.s ∨ c = Verb.q then some (fmtFloatV b.float64)
  else if c = Verb.d then sprintfInt (valueFormat f c) (toInt64 (mathRound b.float64))
  else sprintfFloat (valueFormat f c) b.float64

/-- The characters that occur in the rendering of a number: the digits, the
decimal point, the letter `e` of the exponent and the signs. -/
def numberChar (r : Char) : Prop :=
  (48 ≤ r.toNat ∧ r.toNat ≤ 57) ∨ r.toNat = 46 ∨ r.toNat = 101 ∨ r.toNat = 43 ∨ r.toNat = 45

instance (r : Char) : Decidable (numberChar r) := by
  unfold numberChar
  infer_instance

/-! ## Exactness of the binary64 operations on the values of the package -/

theorem roundHalfEven_mul (k d : Nat) (hd : 0 < d) : roundHalfEven (k * d) d = k := by
  unfold roundHalfEven
  simp [Nat.mul_div_cancel _ hd, hd]

theorem binExp_spec (n d : Nat) (hn : 0 < n) (hd : 0 < d) :
    (2 : ℚ) ^ binExp n d ≤ (n : ℚ) / d ∧ (n : ℚ) / d < (2 : ℚ) ^ (binExp n d + 1) := by
  have hn0 : n ≠ 0 := Nat.pos_iff_ne_zero.mp hn
  have hd0 : d ≠ 0 := Nat.pos_iff_ne_zero.mp hd
  have ha1 : 2 ^ Nat.log2 n ≤ n := Nat.log2_self_le hn0
  have ha2 : n < 2 ^ (Nat.log2 n + 1) := Nat.lt_log2_self
  have hb1 : 2 ^ Nat.log2 d ≤ d := Nat.log2_self_le hd0
  have hb2 : d < 2 ^ (Nat.log2 d + 1) := Nat.lt_log2_self
  have hdq : (0 : ℚ) < d := by exact_mod_cast hd
  have h2 : (0 : ℚ) < 2 := by norm_num
  unfold binExp
  split_ifs with h
  · constructor
    · rw [le_div_iff₀ hdq]
      have e1 : (2 : ℚ) ^ ((Nat.log2 n : ℤ) - (Nat.log2 d : ℤ) - 1) * 2 ^ (Nat.log2 d + 1) = 2 ^ Nat.log2 n := by
        rw [← zpow_natCast, ← zpow_add₀ (ne_of_gt h2), ← zpow_natCast]
        congr 1
        push_cast
        ring
      have hb2q : (d : ℚ) ≤ 2 ^ (Nat.log2 d + 1) := by exact_mod_cast hb2.le
      have ha1q : (2 : ℚ) ^ Nat.log2 n ≤ n := by exact_mod_cast ha1
      calc (2 : ℚ) ^ ((Nat.log2 n : ℤ) - (Nat.log2 d : ℤ) - 1) * d
          ≤ (2 : ℚ) ^ ((Nat.log2 n : ℤ) - (Nat.log2 d : ℤ) - 1) * 2 ^ (Nat.log2 d + 1) := by
            apply mul_le_mul_of_nonneg_left hb2q (le_of_lt (zpow_pos h2 _))
        _ = 2 ^ Nat.log2 n := e1
        _ ≤ n := ha1q
    · rw [div_lt_iff₀ hdq]
      have hq : (n : ℚ) * 2 ^ Nat.log2 d < d * 2 ^ Nat.log2 n := by exact_mod_cast h
      have e1 : (2 : ℚ) ^ ((Nat.log2 n : ℤ) - (Nat.log2 d : ℤ) - 1 + 1) * 2 ^ Nat.log2 d = 2 ^ Nat.log2 n := by
        rw [← zpow_natCast, ← zpow_add₀ (ne_of_gt h2), ← zpow_natCast]
        congr 1
        ring
      have hp : (0 : ℚ) < 2 ^ Nat.log2 d := pow_pos h2 _
      have : (n : ℚ) * 2 ^ Nat.log2 d < (2 : ℚ) ^ ((Nat.log2 n : ℤ) - (Nat.log2 d : ℤ) - 1 + 1) * d * 2 ^ Nat.log2 d := by
        calc (n : ℚ) * 2 ^ Nat.log2 d < d * 2 ^ Nat.log2 n := hq
          _ = (2 : ℚ) ^ ((Nat.log2 n : ℤ) - (Nat.log2 d : ℤ) - 1 + 1) * d * 2 ^ Nat.log2 d := by
            rw [← e1]; ring
      exact lt_of_mul_lt_mul_right this (le_of_lt hp)
  · constructor
    · rw [le_div_iff₀ hdq]
      have hq : (d : ℚ) * 2 ^ Nat.log2 n ≤ n * 2 ^ Nat.log2 d := by
        have := Nat.le_of_not_lt h
        exact_mod_cast this
      have e1 : (2 : ℚ) ^ ((Nat.log2 n : ℤ) - (Nat.log2 d : ℤ) - 0) * 2 ^ Nat.log2 d = 2 ^ Nat.log2 n := by
        rw [← zpow_natCast, ← zpow_add₀ (ne_of_gt h2), ← zpow_natCast]
        congr 1
        ring
      have hp : (0 : ℚ) < 2 ^ Nat.log2 d := pow_pos h2 _
      have : (2 : ℚ) ^ ((Nat.log2 n : ℤ) - (Nat.log2 d : ℤ) - 0) * d * 2 ^ Nat.log2 d ≤ (n : ℚ) * 2 ^ Nat.log2 d := by
        calc (2 : ℚ) ^ ((Nat.log2 n : ℤ) - (Nat.log2 d : ℤ) - 0) * d * 2 ^ Nat.log2 d
            = d * 2 ^ Nat.log2 n := by rw [← e1]; ring
          _ ≤ n * 2 ^ Nat.log2 d := hq
      exact le_of_mul_le_mul_right this hp
    · rw [div_lt_iff₀ hdq]
      have e1 : (2 : ℚ) ^ ((Nat.log2 n : ℤ) - (Nat.log2 d : ℤ) - 0 + 1) * 2 ^ Nat.log2 d = 2 ^ (Nat.log2 n + 1) := by
        rw [← zpow_natCast, ← zpow_add₀ (ne_of_gt h2), ← zpow_natCast]
        congr 1
        push_cast
        ring
      have hb1q : (2 : ℚ) ^ Nat.log2 d ≤ d := by exact_mod_cast hb1
      have ha2q : (n : ℚ) < 2 ^ (Nat.log2 n + 1) := by exact_mod_cast ha2
      calc (n : ℚ) < 2 ^ (Nat.log2 n + 1) := ha2q
        _ = (2 : ℚ) ^ ((Nat.log2 n : ℤ) - (Nat.log2 d : ℤ) - 0 + 1) * 2 ^ Nat.log2 d := e1.symm
        _ ≤ (2 : ℚ) ^ ((Nat.log2 n : ℤ) - (Nat.log2 d : ℤ) - 0 + 1) * d := by
            apply mul_le_mul_of_nonneg_left hb1q (le_of_lt (zpow_pos h2 _))

theorem binExp_unique (n d : Nat) (hn : 0 < n) (hd : 0 < d) (e : ℤ)
    (h1 : (2 : ℚ) ^ e ≤ (n : ℚ) / d) (h2 : (n : ℚ) / d < (2 : ℚ) ^ (e + 1)) :
    binExp n d = e := by
  obtain ⟨s1, s2⟩ := binExp_spec n d hn hd
  have one_lt : (1 : ℚ) < 2 := by norm_num
  have a : binExp n d < e + 1 := (zpow_lt_zpow_iff_right₀ one_lt).mp (lt_of_le_of_lt s1 h2)
  have b : e < binExp n d + 1 := (zpow_lt_zpow_iff_right₀ one_lt).mp (lt_of_le_of_lt h1 s2)
  omega


theorem roundScaled_exact (n d : Nat) (hd : 0 < d) (s : ℤ) (K : ℕ)
    (h : (n : ℚ) / d = K * (2 : ℚ) ^ s) :
    (if 0 ≤ s then roundHalfEven n (d * 2 ^ s.toNat)
      else roundHalfEven (n * 2 ^ (-s).toNat) d) = K := by
  have hdq : (0 : ℚ) < d := by exact_mod_cast hd
  have h2 : (2 : ℚ) ≠ 0 := by norm_num
  rw [div_eq_iff (ne_of_gt hdq)] at h
  split_ifs with hs
  · have hs2 : s = (s.toNat : ℤ) := (Int.toNat_of_nonneg hs).symm
    have e : n = K * (d * 2 ^ s.toNat) := by
      have : (n : ℚ) = ((K * (d * 2 ^ s.toNat) : ℕ) : ℚ) := by
        rw [h, hs2, zpow_natCast]
        simp only [Int.toNat_ofNat]
        push_cast
        ring
      exact_mod_cast this
    rw [e]
    exact roundHalfEven_mul _ _ (Nat.mul_pos hd (pow_pos (by norm_num) _))
  · have hs1 : 0 ≤ -s := by omega
    have hs2 : -s = ((-s).toNat : ℤ) := (Int.toNat_of_nonneg hs1).symm
    have e : n * 2 ^ (-s).toNat = K * d := by
      have : ((n * 2 ^ (-s).toNat : ℕ) : ℚ) = ((K * d : ℕ) : ℚ) := by
        push_cast
        rw [h, ← zpow_natCast, ← hs2, zpow_neg]
        field_simp
        ring
      exact_mod_cast this
    rw [e]
    exact roundHalfEven_mul _ _ hd

theorem f64round_dyadic (m : ℕ) (e : ℤ) (hm : m < 2 ^ 53) (he : -1074 ≤ e) :
    f64round ((m : ℚ) * (2 : ℚ) ^ e) = (m : ℚ) * (2 : ℚ) ^ e := by
  rcases Nat.eq_zero_or_pos m with rfl | hmpos
  · simp [f64round]
  have h2 : (0 : ℚ) < 2 := by norm_num
  have hmq : (0 : ℚ) < m := by exact_mod_cast hmpos
  have hx : (0 : ℚ) < (m : ℚ) * (2 : ℚ) ^ e := mul_pos hmq (zpow_pos h2 _)
  set x : ℚ := (m : ℚ) * (2 : ℚ) ^ e with hxdef
  have hnum : 0 < x.num := Rat.num_pos.mpr hx
  have hd : 0 < x.den := x.den_pos
  have hn : 0 < x.num.natAbs := Int.natAbs_pos.mpr (ne_of_gt hnum)
  have hfrac : ((x.num.natAbs : ℕ) : ℚ) / (x.den : ℚ) = x := by
    have : ((x.num.natAbs : ℕ) : ℤ) = x.num := Int.natAbs_of_nonneg (le_of_lt hnum)
    have h3 : ((x.num.natAbs : ℕ) : ℚ) = (x.num : ℚ) := by
      rw [← Int.cast_natCast, this]
    rw [h3]
    exact Rat.num_div_den x
  -- the binary exponent
  have hm0 : m ≠ 0 := Nat.pos_iff_ne_zero.mp hmpos
  have hj1 : 2 ^ Nat.log2 m ≤ m := Nat.log2_self_le hm0
  have hj2 : m < 2 ^ (Nat.log2 m + 1) := Nat.lt_log2_self
  have hj : Nat.log2 m < 53 := (Nat.log2_lt hm0).mpr hm
  have hbin : binExp x.num.natAbs x.den = (Nat.log2 m : ℤ) + e := by
    apply binExp_unique _ _ hn hd
    · rw [hfrac, hxdef, zpow_add₀ (ne_of_gt h2), zpow_natCast]
      apply mul_le_mul_of_nonneg_right _ (le_of_lt (zpow_pos h2 _))
      exact_mod_cast hj1
    · rw [hfrac, hxdef, show (Nat.log2 m : ℤ) + e + 1 = ((Nat.log2 m + 1 : ℕ) : ℤ) + e by push_cast; ring,
        zpow_add₀ (ne_of_gt h2), zpow_natCast]
      apply mul_lt_mul_of_pos_right _ (zpow_pos h2 _)
      exact_mod_cast hj2
  have hs : ulpExp x.num.natAbs x.den = max ((Nat.log2 m : ℤ) + e) (-1022) - 52 := by
    unfold ulpExp; rw [hbin]
  set s : ℤ := max ((Nat.log2 m : ℤ) + e) (-1022) - 52 with hsdef
  have ht : 0 ≤ e - s := by
    rw [hsdef]
    rcases le_total ((Nat.log2 m : ℤ) + e) (-1022) with h | h
    · rw [max_eq_right h]; omega
    · rw [max_eq_left h]; omega
  have hK : x = ((m * 2 ^ (e - s).toNat : ℕ) : ℚ) * (2 : ℚ) ^ s := by
    push_cast
    rw [mul_assoc, ← zpow_natCast, Int.toNat_of_nonneg ht, ← zpow_add₀ (ne_of_gt h2)]
    rw [hxdef]
    congr 2
    ring
  have hround := roundScaled_exact x.num.natAbs x.den hd s (m * 2 ^ (e - s).toNat) (hfrac.trans hK)
  unfold f64round
  rw [if_neg (ne_of_gt hx)]
  simp only
  rw [hs, hround, if_neg (not_lt.mpr (le_of_lt hx)), one_mul]
  exact hK.symm


theorem roundHalfEven_le (n d : Nat) : roundHalfEven n d ≤ n / d + 1 := by
  unfold roundHalfEven
  simp only
  split_ifs <;> omega

theorem f64ofUint_eq (v : Nat) :
    f64ofUint v =
      ((roundHalfEven v (2 ^ (Nat.log2 v - 52)) * 2 ^ (Nat.log2 v - 52) : ℕ) : ℚ) := by
  rcases Nat.eq_zero_or_pos v with rfl | hv
  · simp [f64ofUint, f64round, roundHalfEven]
  have hv0 : v ≠ 0 := Nat.pos_iff_ne_zero.mp hv
  have h2 : (0 : ℚ) < 2 := by norm_num
  have hvq : (0 : ℚ) < (v : ℚ) := by exact_mod_cast hv
  have hbin : binExp v 1 = (Nat.log2 v : ℤ) := by
    apply binExp_unique _ _ hv Nat.one_pos
    · rw [Nat.cast_one, div_one, zpow_natCast]
      exact_mod_cast Nat.log2_self_le hv0
    · rw [Nat.cast_one, div_one,
        show (Nat.log2 v : ℤ) + 1 = ((Nat.log2 v + 1 : ℕ) : ℤ) by push_cast; ring, zpow_natCast]
      exact_mod_cast (Nat.lt_log2_self : v < 2 ^ (Nat.log2 v + 1))
  have hs : ulpExp v 1 = (Nat.log2 v : ℤ) - 52 := by
    unfold ulpExp
    rw [hbin, max_eq_left (by omega)]
  unfold f64ofUint f64round
  rw [if_neg (ne_of_gt hvq)]
  simp only [Rat.num_natCast, Int.natAbs_ofNat, Rat.den_natCast]
  rw [hs, if_neg (not_lt.mpr (le_of_lt hvq)), one_mul]
  split_ifs with h
  · have e1 : ((Nat.log2 v : ℤ) - 52).toNat = Nat.log2 v - 52 := by omega
    have e2 : (Nat.log2 v : ℤ) - 52 = ((Nat.log2 v - 52 : ℕ) : ℤ) := by omega
    rw [e1, one_mul, e2, zpow_natCast]
    push_cast
    ring
  · have e1 : Nat.log2 v - 52 = 0 := by omega
    have hneg : 0 ≤ -((Nat.log2 v : ℤ) - 52) := by omega
    rw [e1, pow_zero, mul_one]
    have r1 := roundHalfEven_mul (v * 2 ^ (-((Nat.log2 v : ℤ) - 52)).toNat) 1 Nat.one_pos
    have r2 := roundHalfEven_mul v 1 Nat.one_pos
    rw [mul_one] at r1 r2
    rw [r1, r2]
    push_cast
    rw [mul_assoc, ← zpow_natCast, Int.toNat_of_nonneg hneg, ← zpow_add₀ (ne_of_gt h2)]
    simp

theorem f64ofUint_exact (v : Nat) (hv : v < 2 ^ 53) : f64ofUint v = (v : ℚ) := by
  have := f64round_dyadic v 0 hv (by norm_num)
  simpa [f64ofUint] using this

theorem f64ofUint_rep (v : Nat) :
    ∃ (m : ℕ) (e : ℤ), m < 2 ^ 53 ∧ 0 ≤ e ∧ f64ofUint v = (m : ℚ) * (2 : ℚ) ^ e := by
  rcases Nat.lt_or_ge v (2 ^ 53) with h | h
  · exact ⟨v, 0, h, le_refl _, by rw [f64ofUint_exact v h]; simp⟩
  · have hv0 : v ≠ 0 := by
      intro h0; rw [h0] at h; norm_num at h
    have hl : 53 ≤ Nat.log2 v := (Nat.le_log2 hv0).mpr h
    have hlt : v < 2 ^ (Nat.log2 v + 1) := Nat.lt_log2_self
    have hM : roundHalfEven v (2 ^ (Nat.log2 v - 52)) ≤ 2 ^ 53 := by
      have h1 := roundHalfEven_le v (2 ^ (Nat.log2 v - 52))
      have h3 : v / 2 ^ (Nat.log2 v - 52) < 2 ^ 53 := by
        rw [Nat.div_lt_iff_lt_mul (pow_pos (by norm_num) _), ← pow_add]
        have : 53 + (Nat.log2 v - 52) = Nat.log2 v + 1 := by omega
        rw [this]; exact hlt
      omega
    rcases Nat.lt_or_ge (roundHalfEven v (2 ^ (Nat.log2 v - 52))) (2 ^ 53) with hlt2 | hge
    · refine ⟨roundHalfEven v (2 ^ (Nat.log2 v - 52)), ((Nat.log2 v - 52 : ℕ) : ℤ), hlt2,
        Int.natCast_nonneg _, ?_⟩
      rw [f64ofUint_eq, zpow_natCast]
      push_cast
      ring
    · have hEq : roundHalfEven v (2 ^ (Nat.log2 v - 52)) = 2 ^ 53 := le_antisymm hM hge
      refine ⟨2 ^ 52, ((Nat.log2 v - 52 + 1 : ℕ) : ℤ), by norm_num, Int.natCast_nonneg _, ?_⟩
      rw [f64ofUint_eq, hEq, zpow_natCast]
      push_cast
      ring

theorem f64ofUint_pow2 (k : Nat) : f64ofUint (2 ^ k) = (2 : ℚ) ^ k := by
  have := f64round_dyadic 1 (k : ℤ) (by norm_num) (by omega)
  simpa [f64ofUint, zpow_natCast] using this

theorem f64div_pow2 (v k : Nat) (hk : k ≤ 1074) :
    f64div (f64ofUint v) (f64ofUint (2 ^ k)) = f64ofUint v / (2 : ℚ) ^ k := by
  obtain ⟨m, e, hm, he, hrep⟩ := f64ofUint_rep v
  have h2 : (2 : ℚ) ≠ 0 := by norm_num
  have hq : f64ofUint v / (2 : ℚ) ^ k = (m : ℚ) * (2 : ℚ) ^ (e - (k : ℤ)) := by
    rw [hrep, zpow_sub₀ h2, zpow_natCast]
    ring
  unfold f64div
  rw [f64ofUint_pow2, hq]
  exact f64round_dyadic m (e - k) hm (by omega)


/-! ## The tier ladder -/

theorem thresholds_eq :
    Byte = 1024 ^ 0 ∧ Kilobyte = 1024 ^ 1 ∧ Megabyte = 1024 ^ 2 ∧ Gigabyte = 1024 ^ 3 ∧
      Terabyte = 1024 ^ 4 ∧ Petabyte = 1024 ^ 5 ∧ Exabyte = 1024 ^ 6 := by
  decide

theorem tierOf_eq_of_bounds (v i : Nat) (hi : i ≤ 6) (hlo : i = 0 ∨ 1024 ^ i ≤ v)
    (hhi : i = 6 ∨ v < 1024 ^ (i + 1)) : tierOf v = i := by
  unfold tierOf
  rw [Nat.findGreatest_eq_iff]
  refine ⟨hi, ?_, ?_⟩
  · intro h0
    rcases hlo with h | h
    · exact absurd h h0
    · exact h
  · intro n hn hn6 hP
    rcases hhi with h | h
    · omega
    · have h1 : 1024 ^ (i + 1) ≤ 1024 ^ n := Nat.pow_le_pow_right (by norm_num) hn
      have h2 : 1024 ^ (i + 1) ≤ v := le_trans h1 hP
      omega

theorem tierOf_le (v : Nat) : tierOf v ≤ 6 :=
  Nat.findGreatest_le 6

theorem tierOf_spec (v : Nat) :
    (tierOf v = 0 ∨ 1024 ^ tierOf v ≤ v) ∧ ∀ j, j ≤ 6 → 1024 ^ j ≤ v → j ≤ tierOf v := by
  constructor
  · rcases Nat.eq_zero_or_pos (tierOf v) with h | h
    · exact Or.inl h
    · right
      have h0 : tierOf v ≠ 0 := Nat.pos_iff_ne_zero.mp h
      exact @Nat.findGreatest_of_ne_zero (tierOf v) (fun i => 1024 ^ i ≤ v) _ 6 rfl h0
  · intro j hj hP
    exact Nat.le_findGreatest hj hP

/-- The ladder of comparisons shared by `float64`, `name` and `String` selects
the branch of index `tierOf v`. -/
theorem ladder_eq {α : Type} (v : Nat) (f : Nat → α) :
    (if v ≥ Exabyte then f 6
      else if v ≥ Petabyte then f 5
      else if v ≥ Terabyte then f 4
      else if v ≥ Gigabyte then f 3
      else if v ≥ Megabyte then f 2
      else if v ≥ Kilobyte then f 1
      else f 0) = f (tierOf v) := by
  have hc := thresholds_eq
  obtain ⟨-, h1, h2, h3, h4, h5, h6⟩ := hc
  rw [h1, h2, h3, h4, h5, h6]
  split_ifs with a6 a5 a4 a3 a2 a1
  · rw [tierOf_eq_of_bounds v 6 (by norm_num) (Or.inr a6) (Or.inl rfl)]
  · rw [tierOf_eq_of_bounds v 5 (by norm_num) (Or.inr a5) (Or.inr (by omega))]
  · rw [tierOf_eq_of_bounds v 4 (by norm_num) (Or.inr a4) (Or.inr (by omega))]
  · rw [tierOf_eq_of_bounds v 3 (by norm_num) (Or.inr a3) (Or.inr (by omega))]
  · rw [tierOf_eq_of_bounds v 2 (by norm_num) (Or.inr a2) (Or.inr (by omega))]
  · rw [tierOf_eq_of_bounds v 1 (by norm_num) (Or.inr a1) (Or.inr (by omega))]
  · rw [tierOf_eq_of_bounds v 0 (by norm_num) (Or.inl rfl) (Or.inr (by omega))]

theorem f64div_tier (v i : Nat) (hi : i ≤ 6) :
    f64div (f64ofUint v) (f64ofUint (1024 ^ i)) = f64ofUint v / (1024 : ℚ) ^ i := by
  have e : (1024 : ℕ) ^ i = 2 ^ (10 * i) := by
    rw [pow_mul]; norm_num
  have e2 : (1024 : ℚ) ^ i = 2 ^ (10 * i) := by
    rw [pow_mul]; norm_num
  rw [e, e2]
  exact f64div_pow2 v (10 * i) (by omega)

theorem float64_eq_tier (b : Bytes) :
    b.float64 = f64div (f64ofUint b.Value) (f64ofUint (1024 ^ tierOf b.Value)) := by
  have key := ladder_eq b.Value
    (fun i => f64div (f64ofUint b.Value) (f64ofUint (1024 ^ i)))
  simp only at key
  rw [← key]
  unfold Bytes.float64 Bytes.exabytes Bytes.petabytes Bytes.terabytes Bytes.gigabytes
    Bytes.megabytes Bytes.kilobytes
  obtain ⟨-, h1, h2, h3, h4, h5, h6⟩ := thresholds_eq
  have h0 : f64div (f64ofUint b.Value) (f64ofUint (1024 ^ 0)) = f64ofUint b.Value := by
    rw [f64div_tier _ 0 (by norm_num)]; simp
  rw [h0, h1, h2, h3, h4, h5, h6]

theorem name_eq_tier (b : Bytes) : b.name = b.names[tierOf b.Value]? := by
  have key := ladder_eq b.Value (fun i => b.names[i]?)
  simp only at key
  rw [← key]
  rfl

theorem string_eq_tier (b : Bytes) :
    b.String = fmtFloatV b.float64 ++ Bytefmt.names.getD (tierOf b.Value) "" := by
  have key := ladder_eq b.Value (fun i => fmtFloatV b.float64 ++ Bytefmt.names.getD i "")
  simp only at key
  rw [← key]
  unfold Bytes.String sprintfVS
  split_ifs <;> rfl


/-! ## The name table -/

theorem names_length : Bytefmt.names.length = 7 := rfl

theorem Names_nonempty (b : Bytes) (given : List String) (h : given ≠ []) :
    b.Names given =
      (⟨b.Value, given ++ Bytefmt.names.drop given.length⟩,
        given ++ Bytefmt.names.drop given.length) := by
  have hl : given.length ≠ 0 := fun h0 => h (List.length_eq_zero.mp h0)
  unfold Bytes.Names
  rw [if_neg hl]
  simp only
  split_ifs with h7
  · rfl
  · have : Bytefmt.names.drop given.length = [] :=
      List.drop_eq_nil_of_le (Nat.le_of_not_lt h7)
    rw [this, List.append_nil]

theorem Names_empty (b : Bytes) :
    b.Names [] = if b.names = [] then (⟨b.Value, Bytefmt.names⟩, Bytefmt.names) else (b, b.names) := by
  unfold Bytes.Names
  simp only [List.length_nil, if_true]
  by_cases h : b.names = []
  · simp [h]
  · have hl : b.names.length ≠ 0 := fun h0 => h (List.length_eq_zero.mp h0)
    simp [h, hl]

theorem backfill_length (given : List String) :
    (given ++ Bytefmt.names.drop given.length).length = max given.length 7 := by
  rw [List.length_append, List.length_drop, names_length]
  omega

theorem New_names (v : Nat) (n : List String) :
    New v n = ⟨v, if n = [] then Bytefmt.names else n ++ Bytefmt.names.drop n.length⟩ := by
  unfold New
  by_cases h : n = []
  · subst h
    rw [Names_empty]
    simp
  · rw [Names_nonempty _ _ h]
    simp [h]

theorem New_names_length (v : Nat) (n : List String) : 7 ≤ (New v n).names.length := by
  rw [New_names]
  by_cases h : n = []
  · simp [h, names_length]
  · simp only [h, if_false]
    rw [backfill_length]
    exact le_max_right _ _

theorem Reachable_names (b : Bytes) (hb : b.Reachable) : b.names = [] ∨ 7 ≤ b.names.length := by
  induction hb with
  | literal v => exact Or.inl rfl
  | new v n => exact Or.inr (New_names_length v n)
  | names c n _ ih =>
    right
    by_cases h : n = []
    · subst h
      rw [Names_empty]
      by_cases hc : c.names = []
      · simp [hc, names_length]
      · rcases ih with h0 | h7
        · exact absurd h0 hc
        · simpa [hc] using h7
    · rw [Names_nonempty _ _ h]
      simp only
      rw [backfill_length]
      exact le_max_right _ _


theorem New_Value (v : Nat) (n : List String) : (New v n).Value = v := by
  rw [New_names]

theorem float64_of_lt (b : Bytes) (h : b.Value < 2 ^ 53) :
    b.float64 = (b.Value : ℚ) / (1024 : ℚ) ^ tierOf b.Value := by
  rw [float64_eq_tier, f64div_tier _ _ (tierOf_le _), f64ofUint_exact _ h]

theorem string_eval (b : Bytes) (q : ℚ) (i : Nat) (hq : b.float64 = q)
    (hi : tierOf b.Value = i) : b.String = fmtFloatV q ++ Bytefmt.names.getD i "" := by
  rw [string_eq_tier, hq, hi]

/-! ## The claims -/

/-- C1: for every raw count and every name table of at least 7 entries, `float64`
divides the converted count by `1024 ^ i` and `name` returns the entry of index
`i` of the table, for one and the same `i = tierOf v`: the greatest index of 0..6
with `1024 ^ i ≤ v`, and 0 when `v < 1024`.  The thresholds `Byte` .. `Exabyte`
are `1024 ^ 0` .. `1024 ^ 6`. -/
theorem C1_tier_selection (b : Bytes) (h : 7 ≤ b.names.length) :
    tierOf b.Value ≤ 6 ∧
    (tierOf b.Value = 0 ∨ 1024 ^ tierOf b.Value ≤ b.Value) ∧
    (∀ j, j ≤ 6 → 1024 ^ j ≤ b.Value → j ≤ tierOf b.Value) ∧
    (b.Value < 1024 → tierOf b.Value = 0) ∧
    b.float64 = f64div (f64ofUint b.Value) (f64ofUint (1024 ^ tierOf b.Value)) ∧
    b.float64 = f64ofUint b.Value / (1024 : ℚ) ^ tierOf b.Value ∧
    b.name = b.names[tierOf b.Value]? ∧
    (∃ u, b.name = some u) ∧
    [Byte, Kilobyte, Megabyte, Gigabyte, Terabyte, Petabyte, Exabyte]
      = (List.range 7).map (fun i => 1024 ^ i) := by
  have hle := tierOf_le b.Value
  have hspec := tierOf_spec b.Value
  refine ⟨hle, hspec.1, hspec.2, ?_, float64_eq_tier b, ?_, name_eq_tier b, ?_, by decide⟩
  · intro hv
    exact tierOf_eq_of_bounds _ 0 (by norm_num) (Or.inl rfl) (Or.inr (by simpa using hv))
  · rw [float64_eq_tier, f64div_tier _ _ hle]
  · have hi : tierOf b.Value < b.names.length := by omega
    exact ⟨b.names[tierOf b.Value], by rw [name_eq_tier, List.getElem?_eq_getElem hi]⟩

/-- C1, at the count 1124 with the table B, Kilobyte, M, G, T, P, E: the tier is
1, the unit name is Kilobyte and the scaled value is 1124 / 1024. -/
theorem C1_tier_selection_witness :
    7 ≤ (New 1124 ["B", "Kilobyte"]).names.length ∧
    (New 1124 ["B", "Kilobyte"]).name = some "Kilobyte" ∧
    (New 1124 ["B", "Kilobyte"]).float64 = 281 / 256 := by
  have h7 : 7 ≤ (New 1124 ["B", "Kilobyte"]).names.length := by decide
  have h := C1_tier_selection (New 1124 ["B", "Kilobyte"]) h7
  have hv : (New 1124 ["B", "Kilobyte"]).Value = 1124 := rfl
  have ht : tierOf 1124 = 1 := by decide
  rw [hv, ht] at h
  obtain ⟨-, -, -, -, -, hf, hn, -, -⟩ := h
  refine ⟨h7, ?_, ?_⟩
  · rw [hn]; rfl
  · rw [hf, f64ofUint_exact 1124 (by norm_num)]
    norm_num

/-- C2: for every raw count `v`, `New(v).String()` is the `%v` rendering of the
scaled value returned by `float64`, which is the converted count divided by
`1024 ^ tierOf v`, immediately followed by the default unit name of index
`tierOf v`; the counts 0, 1, 1024 and 1128 give 0B, 1B, 1K and 1.1015625K. -/
theorem C2_string_default (v : Nat) :
    (∃ u, Bytefmt.names[tierOf v]? = some u ∧
      (New v []).String = fmtFloatV ((New v []).float64) ++ u) ∧
    (New v []).float64 = f64ofUint v / (1024 : ℚ) ^ tierOf v ∧
    (New 0 []).String = "0B" ∧ (New 1 []).String = "1B" ∧
    (New 1024 []).String = "1K" ∧ (New 1128 []).String = "1.1015625K" := by
  have hle := tierOf_le v
  have hv : (New v []).Value = v := rfl
  refine ⟨?_, ?_, ?_, ?_, ?_, ?_⟩
  · have hi : tierOf v < Bytefmt.names.length := by rw [names_length]; omega
    refine ⟨Bytefmt.names[tierOf v], List.getElem?_eq_getElem hi, ?_⟩
    rw [string_eq_tier, hv, List.getD_eq_getElem _ _ hi]
  · rw [float64_eq_tier, hv, f64div_tier _ _ hle]
  · rw [string_eval (New 0 []) 0 0 (by rw [float64_of_lt _ (by decide)]; norm_num [New_Value])
      (by decide)]
    decide!
  · rw [string_eval (New 1 []) 1 0
      (by rw [float64_of_lt _ (by decide)]; norm_num [New_Value, show tierOf 1 = 0 by decide])
      (by decide)]
    decide!
  · rw [string_eval (New 1024 []) 1 1
      (by rw [float64_of_lt _ (by decide)]; norm_num [New_Value, show tierOf 1024 = 1 by decide])
      (by decide)]
    decide!
  · rw [string_eval (New 1128 []) (141 / 128) 1
      (by rw [float64_of_lt _ (by decide)]; norm_num [New_Value, show tierOf 1128 = 1 by decide])
      (by decide)]
    decide!

/-- C3 (the code at the failing input): with the names B and Kilobyte given at
construction, `String()` of the count 1024 is 1K, read from the package-level
table, although the receiver's own unit name for the count, the one `name`
returns and `Format` prints, is Kilobyte. -/
theorem C3_string_reads_default_table :
    (New 1024 ["B", "Kilobyte"]).String = "1K" ∧
    (New 1024 ["B", "Kilobyte"]).name = some "Kilobyte" ∧
    (New 1024 ["B", "Kilobyte"]).names = ["B", "Kilobyte", "M", "G", "T", "P", "E"] := by
  refine ⟨?_, by decide, by decide⟩
  rw [string_eval (New 1024 ["B", "Kilobyte"]) 1 1
    (by rw [float64_of_lt _ (by decide)]; norm_num [New_Value, show tierOf 1024 = 1 by decide])
    (by decide)]
  decide!

/-- C4: for every receiver and every non-empty list `given`, `Names(given...)`
stores in the receiver the list it returns, whose entry `i` is `given[i]` for
`i < len(given)` and the default name of index `i` for `len(given) ≤ i ≤ 6`; it
is `given` followed by the defaults from index `len(given)` on, so `given`
itself when it has 7 entries or more. -/
theorem C4_names_backfill (b : Bytes) (given : List String) (h : given ≠ []) :
    (b.Names given).1.names = (b.Names given).2 ∧
    (b.Names given).2 = given ++ Bytefmt.names.drop given.length ∧
    (∀ i, i < given.length → (b.Names given).2[i]? = given[i]?) ∧
    (∀ i, given.length ≤ i → i ≤ 6 → (b.Names given).2[i]? = Bytefmt.names[i]?) ∧
    (b.Names given).2.length = max given.length 7 ∧
    (7 ≤ given.length → (b.Names given).2 = given) ∧
    (b.Names ["B", "Kilobyte"]).2 = ["B", "Kilobyte", "M", "G", "T", "P", "E"] ∧
    (b.Names ["B", "K", "M", "G", "T", "P", "E", "Zettabyte"]).2
      = ["B", "K", "M", "G", "T", "P", "E", "Zettabyte"] := by
  rw [Names_nonempty b given h]
  refine ⟨rfl, rfl, ?_, ?_, backfill_length given, ?_, ?_, ?_⟩
  · intro i hi
    exact List.getElem?_append_left hi
  · intro i hi _
    simp only
    rw [List.getElem?_append_right hi, List.getElem?_drop]
    congr 1
    omega
  · intro h7
    simp only
    rw [List.drop_eq_nil_of_le (by rw [names_length]; exact h7), List.append_nil]
  · rw [Names_nonempty b _ (by simp)]; rfl
  · rw [Names_nonempty b _ (by simp)]; rfl

/-- C4, at a receiver holding the one-entry table X and the list B, Kilobyte. -/
theorem C4_names_backfill_witness :
    (["B", "Kilobyte"] : List String) ≠ [] ∧
    ((⟨7, ["X"]⟩ : Bytes).Names ["B", "Kilobyte"]).1.names
      = ["B", "Kilobyte", "M", "G", "T", "P", "E"] ∧
    ((⟨7, ["X"]⟩ : Bytes).Names ["B", "Kilobyte"]).2
      = ["B", "Kilobyte", "M", "G", "T", "P", "E"] := by
  have hne : (["B", "Kilobyte"] : List String) ≠ [] := by simp
  have h := C4_names_backfill ⟨7, ["X"]⟩ ["B", "Kilobyte"] hne
  obtain ⟨h1, h2, -⟩ := h
  refine ⟨hne, ?_, ?_⟩
  · rw [h1, h2]; rfl
  · rw [h2]; rfl

/-- C5: for every raw count `v` and every list `n`, `New(v, n...)` has
`Value = v`, and its `Names()` is the table a fresh `Bytes` gets from
`Names(n...)`: the default table B, K, M, G, T, P, E when `n` is empty, otherwise
`n` backfilled from the defaults. -/
theorem C5_new (v w : Nat) (n : List String) :
    (New v n).Value = v ∧
    ((New v n).Names []).2 = ((⟨w, []⟩ : Bytes).Names n).2 ∧
    ((New v n).Names []).2
      = (if n = [] then Bytefmt.names else n ++ Bytefmt.names.drop n.length) ∧
    ((New v []).Names []).2 = ["B", "K", "M", "G", "T", "P", "E"] := by
  have hval : (New v n).Value = v := by rw [New_names]
  have h7 := New_names_length v n
  have hne : (New v n).names ≠ [] := by
    intro h0; rw [h0] at h7; simp at h7
  have h1 : ((New v n).Names []).2 = (New v n).names := by
    rw [Names_empty]; simp [hne]
  have h2 : (New v n).names = (if n = [] then Bytefmt.names else n ++ Bytefmt.names.drop n.length) := by
    rw [New_names]
  refine ⟨hval, ?_, ?_, ?_⟩
  · rw [h1, h2]
    by_cases h : n = []
    · subst h; rw [Names_empty]; simp
    · rw [Names_nonempty _ _ h]; simp [h]
  · rw [h1, h2]
  · rfl

/-- C6: for a `Bytes` whose name table was never set, `Names()` without
arguments returns the 7-entry default table B, K, M, G, T, P, E and leaves it
stored in the receiver. -/
theorem C6_names_default (v : Nat) :
    ((⟨v, []⟩ : Bytes).Names []).2 = ["B", "K", "M", "G", "T", "P", "E"] ∧
    ((⟨v, []⟩ : Bytes).Names []).1 = ⟨v, ["B", "K", "M", "G", "T", "P", "E"]⟩ ∧
    ((⟨v, []⟩ : Bytes).Names []).2.length = 7 := by
  refine ⟨rfl, rfl, rfl⟩

/-- C7: for every receiver whose name table is not empty, `Names()` without
arguments returns that table and leaves the receiver as it was; and after any
call `Names(given...)` on any receiver, `Names()` returns the list that call
returned and changes nothing. -/
theorem C7_names_get (b : Bytes) (h : b.names ≠ []) :
    b.Names [] = (b, b.names) ∧
    ∀ (c : Bytes) (given : List String),
      (c.Names given).1.Names [] = ((c.Names given).1, (c.Names given).2) := by
  constructor
  · rw [Names_empty]; simp [h]
  · intro c given
    by_cases hg : given = []
    · subst hg
      rw [Names_empty c]
      by_cases hc : c.names = []
      · simp only [hc, if_true]
        rfl
      · simp only [hc, if_false]
        rw [Names_empty]; simp [hc]
    · rw [Names_nonempty _ _ hg]
      simp only
      rw [Names_empty]
      have : given ++ Bytefmt.names.drop given.length ≠ [] := by
        intro h0
        exact hg (List.append_eq_nil.mp h0).1
      simp [this]

/-- C7, at the receiver built by `New(5, "B", "Kilobyte")`. -/
theorem C7_names_get_witness :
    (New 5 ["B", "Kilobyte"]).names ≠ [] ∧
    (New 5 ["B", "Kilobyte"]).Names []
      = (New 5 ["B", "Kilobyte"], ["B", "Kilobyte", "M", "G", "T", "P", "E"]) := by
  have hne : (New 5 ["B", "Kilobyte"]).names ≠ [] := by decide
  exact ⟨hne, (C7_names_get (New 5 ["B", "Kilobyte"]) hne).1⟩


/-- C8: every `Bytes` returned by `New` holds a name table of at least 7
entries, and so does every receiver a client can hold after any call of
`Names`, with or without arguments; after `Names(given...)` with a non-empty
list the length of the table is `max(len(given), 7)`, whatever the receiver. -/
theorem C8_table_length :
    (∀ (v : Nat) (n : List String), 7 ≤ (New v n).names.length) ∧
    (∀ b : Bytes, b.Reachable → ∀ n : List String, 7 ≤ (b.Names n).1.names.length) ∧
    (∀ (b : Bytes) (n : List String), n ≠ [] →
      (b.Names n).1.names.length = max n.length 7) := by
  refine ⟨New_names_length, ?_, ?_⟩
  · intro b hb n
    rcases Reachable_names _ (Bytes.Reachable.names b n hb) with h | h
    · exfalso
      by_cases hn : n = []
      · subst hn
        rw [Names_empty] at h
        by_cases hc : b.names = []
        · simp [hc] at h
          exact absurd h (by decide)
        · simp [hc] at h
      · rw [Names_nonempty _ _ hn] at h
        exact hn (List.append_eq_nil.mp h).1
    · exact h
  · intro b n hn
    rw [Names_nonempty _ _ hn]
    exact backfill_length n

/-- C8, at a literal that sets only `Value`, after `Names()`, and at the value
of `New(3, "a")` after `Names("x", "y")`. -/
theorem C8_table_length_witness :
    ((⟨3, []⟩ : Bytes).Names []).1.names.length = 7 ∧
    7 ≤ ((New 3 ["a"]).Names []).1.names.length ∧
    ((New 3 ["a"]).Names ["x", "y"]).1.names.length = max 2 7 := by
  refine ⟨rfl, ?_, ?_⟩
  · exact C8_table_length.2.1 (New 3 ["a"]) (Bytes.Reachable.new 3 ["a"]) []
  · exact C8_table_length.2.2 (New 3 ["a"]) ["x", "y"] (by simp)

/-- C9: for every raw count `v` and every `k` of 1..6, the `k`-th scale accessor
(`Kilobytes` .. `Exabytes`) returns `float64(v) / float64(1024 ^ k)`, whatever
the magnitude of `v`; the division is exact, and for `v < 2 ^ 53` the result
times `1024 ^ k` is `v`.  `Kilobytes` of 42 is 0.041015625, `Kilobytes` of 1024
is 1 and `Megabytes` of 1048576 is 1. -/
theorem C9_scale_accessors (b : Bytes) (k : Nat) (h1 : 1 ≤ k) (h6 : k ≤ 6) :
    b.scaleAccessor k = some (f64div (f64ofUint b.Value) (f64ofUint (1024 ^ k))) ∧
    b.scaleAccessor k = some (f64ofUint b.Value / (1024 : ℚ) ^ k) ∧
    (b.Value < 2 ^ 53 →
      ∃ r, b.scaleAccessor k = some r ∧ r * (1024 : ℚ) ^ k = (b.Value : ℚ)) ∧
    (⟨42, []⟩ : Bytes).scaleAccessor 1 = some 0.041015625 ∧
    (⟨1024, []⟩ : Bytes).scaleAccessor 1 = some 1 ∧
    (⟨1048576, []⟩ : Bytes).scaleAccessor 2 = some 1 := by
  obtain ⟨-, c1, c2, c3, c4, c5, c6⟩ := thresholds_eq
  have hcode : b.scaleAccessor k = some (f64div (f64ofUint b.Value) (f64ofUint (1024 ^ k))) := by
    interval_cases k
    · show some b.kilobytes = _
      unfold Bytes.kilobytes; rw [c1]
    · show some b.megabytes = _
      unfold Bytes.megabytes; rw [c2]
    · show some b.gigabytes = _
      unfold Bytes.gigabytes; rw [c3]
    · show some b.terabytes = _
      unfold Bytes.terabytes; rw [c4]
    · show some b.petabytes = _
      unfold Bytes.petabytes; rw [c5]
    · show some b.exabytes = _
      unfold Bytes.exabytes; rw [c6]
  have hexact : b.scaleAccessor k = some (f64ofUint b.Value / (1024 : ℚ) ^ k) := by
    rw [hcode, f64div_tier _ _ h6]
  have hk : ∀ (v : Nat), v < 2 ^ 53 → ∀ j : Nat, j ≤ 6 →
      f64div (f64ofUint v) (f64ofUint (1024 ^ j)) = (v : ℚ) / (1024 : ℚ) ^ j := by
    intro v hv j hj
    rw [f64div_tier _ _ hj, f64ofUint_exact _ hv]
  refine ⟨hcode, hexact, ?_, ?_, ?_, ?_⟩
  · intro hv
    refine ⟨_, hexact, ?_⟩
    rw [f64ofUint_exact _ hv]
    have : (1024 : ℚ) ^ k ≠ 0 := pow_ne_zero _ (by norm_num)
    field_simp
  · show some (Bytes.kilobytes ⟨42, []⟩) = _
    unfold Bytes.kilobytes
    rw [c1, hk 42 (by norm_num) 1 (by norm_num)]
    norm_num
  · show some (Bytes.kilobytes ⟨1024, []⟩) = _
    unfold Bytes.kilobytes
    rw [c1, hk 1024 (by norm_num) 1 (by norm_num)]
    norm_num
  · show some (Bytes.megabytes ⟨1048576, []⟩) = _
    unfold Bytes.megabytes
    rw [c2, hk 1048576 (by norm_num) 2 (by norm_num)]
    norm_num

/-- C9, at the count 100500 and `k = 1`: `Kilobytes` is 98.14453125. -/
theorem C9_scale_accessors_witness :
    (1 ≤ 1 ∧ 1 ≤ 6) ∧ (⟨100500, []⟩ : Bytes).scaleAccessor 1 = some 98.14453125 := by
  have h := (C9_scale_accessors ⟨100500, []⟩ 1 (le_refl 1) (by norm_num)).2.1
  refine ⟨⟨le_refl 1, by norm_num⟩, ?_⟩
  rw [h, f64ofUint_exact _ (by norm_num)]
  norm_num

/-- C10: for every raw count `v < 1024` and every `Bytes` built by `New`, the
tier is 0: `float64` returns the converted count, which is `v` exactly, and
`name` returns entry 0 of the receiver's table. -/
theorem C10_below_kilobyte (v : Nat) (n : List String) (hv : v < 1024) :
    tierOf v = 0 ∧
    (New v n).float64 = f64ofUint v ∧
    (New v n).float64 = (v : ℚ) ∧
    (New v n).name = (New v n).names[0]? ∧
    (∃ u, (New v n).name = some u) := by
  have ht : tierOf v = 0 :=
    tierOf_eq_of_bounds _ 0 (by norm_num) (Or.inl rfl) (Or.inr (by simpa using hv))
  have h53 : v < 2 ^ 53 := lt_trans hv (by norm_num)
  have hf : (New v n).float64 = (v : ℚ) := by
    rw [float64_of_lt _ (by rw [New_Value]; exact h53), New_Value, ht]
    simp
  have hn : (New v n).name = (New v n).names[0]? := by
    rw [name_eq_tier, New_Value, ht]
  have h7 := New_names_length v n
  refine ⟨ht, ?_, hf, hn, ?_⟩
  · rw [hf, f64ofUint_exact _ h53]
  · have h0 : 0 < (New v n).names.length := by omega
    exact ⟨(New v n).names[0], by rw [hn, List.getElem?_eq_getElem h0]⟩

/-- C10, at the count 42 with the names Byte and Kilobyte: the scaled value is
42 and the unit name is Byte. -/
theorem C10_below_kilobyte_witness :
    42 < 1024 ∧ (New 42 ["Byte", "Kilobyte"]).float64 = 42 ∧
    (New 42 ["Byte", "Kilobyte"]).name = some "Byte" := by
  have h := C10_below_kilobyte 42 ["Byte", "Kilobyte"] (by norm_num)
  refine ⟨by norm_num, ?_, ?_⟩
  · rw [h.2.2.1]; norm_num
  · rw [h.2.2.2.1]; rfl

/-! ## The scaled value is not negative -/

theorem roundHalfEven_ge (n d : Nat) : n / d ≤ roundHalfEven n d := by
  unfold roundHalfEven
  simp only
  split_ifs <;> omega

theorem f64ofUint_ge (v : Nat) (hv : 0 < v) : (2 : ℚ) ^ Nat.log2 v ≤ f64ofUint v := by
  have hv0 : v ≠ 0 := Nat.pos_iff_ne_zero.mp hv
  have h1 : 2 ^ Nat.log2 v ≤ v := Nat.log2_self_le hv0
  have hS : Nat.log2 v - 52 ≤ Nat.log2 v := Nat.sub_le _ _
  have hdiv : 2 ^ (Nat.log2 v - (Nat.log2 v - 52)) ≤ v / 2 ^ (Nat.log2 v - 52) := by
    rw [Nat.le_div_iff_mul_le (pow_pos (by norm_num) _), ← pow_add]
    have : Nat.log2 v - (Nat.log2 v - 52) + (Nat.log2 v - 52) = Nat.log2 v := by omega
    rw [this]; exact h1
  have hr := roundHalfEven_ge v (2 ^ (Nat.log2 v - 52))
  have hnat : 2 ^ Nat.log2 v ≤ roundHalfEven v (2 ^ (Nat.log2 v - 52)) * 2 ^ (Nat.log2 v - 52) := by
    calc 2 ^ Nat.log2 v
        = 2 ^ (Nat.log2 v - (Nat.log2 v - 52)) * 2 ^ (Nat.log2 v - 52) := by
          rw [← pow_add]; congr 1; omega
      _ ≤ roundHalfEven v (2 ^ (Nat.log2 v - 52)) * 2 ^ (Nat.log2 v - 52) :=
          Nat.mul_le_mul_right _ (le_trans hdiv hr)
  rw [f64ofUint_eq]
  exact_mod_cast hnat

theorem f64ofUint_nonneg (v : Nat) : 0 ≤ f64ofUint v := by
  rw [f64ofUint_eq]
  exact Nat.cast_nonneg _

theorem float64_nonneg (b : Bytes) : 0 ≤ b.float64 := by
  rw [float64_eq_tier, f64div_tier _ _ (tierOf_le _)]
  exact div_nonneg (f64ofUint_nonneg _) (pow_nonneg (by norm_num) _)

theorem float64_zero (b : Bytes) (h : b.Value = 0) : b.float64 = 0 := by
  rw [float64_of_lt b (by rw [h]; norm_num), h]
  simp

theorem float64_ge_one (b : Bytes) (h : 0 < b.Value) : 1 ≤ b.float64 := by
  rw [float64_eq_tier, f64div_tier _ _ (tierOf_le _)]
  have hpos : (0 : ℚ) < (1024 : ℚ) ^ tierOf b.Value := pow_pos (by norm_num) _
  rw [le_div_iff₀ hpos, one_mul]
  have hle : 1024 ^ tierOf b.Value ≤ b.Value := by
    rcases (tierOf_spec b.Value).1 with h0 | h1
    · rw [h0]; simpa using h
    · exact h1
  have hlog : 10 * tierOf b.Value ≤ Nat.log2 b.Value := by
    have e : (1024 : ℕ) ^ tierOf b.Value = 2 ^ (10 * tierOf b.Value) := by
      rw [pow_mul]; norm_num
    rw [e] at hle
    exact (Nat.le_log2 (Nat.pos_iff_ne_zero.mp h)).mpr hle
  have e2 : (1024 : ℚ) ^ tierOf b.Value = 2 ^ (10 * tierOf b.Value) := by
    rw [pow_mul]; norm_num
  rw [e2]
  calc (2 : ℚ) ^ (10 * tierOf b.Value) ≤ 2 ^ Nat.log2 b.Value :=
        pow_le_pow_right₀ (by norm_num) hlog
    _ ≤ f64ofUint b.Value := f64ofUint_ge _ h

/-! ## The method `Format`, branch by branch -/

theorem ratFloor_eq (q : ℚ) : Rat.floor q = ⌊q⌋ := rfl

theorem New_name (v : Nat) (n : List String) : ∃ u, (New v n).name = some u := by
  have h7 := New_names_length v n
  have hi : tierOf (New v n).Value < (New v n).names.length := by
    have := tierOf_le (New v n).Value
    omega
  exact ⟨(New v n).names[tierOf (New v n).Value], by
    rw [name_eq_tier, List.getElem?_eq_getElem hi]⟩

theorem Format_numeric (isPrint : Char → Bool) (b : Bytes) (f : State) (c : Verb) (u : String)
    (hn : b.name = some u) (hs : c ≠ Verb.s) (hq : c ≠ Verb.q) :
    b.Format isPrint f c =
      (b.valueText f c).map
        (fun t => applyPad (padFormat f) (t ++ sprintfS (unitFormat f u.length) u)) := by
  unfold Bytes.Format Bytes.valueText
  rw [hn]
  have hsq : ¬ (c = Verb.s ∨ c = Verb.q) := fun h => h.elim hs hq
  simp only [hsq, if_false]
  cases h : (if c = Verb.d then sprintfInt (valueFormat f c) (toInt64 (mathRound b.float64))
      else sprintfFloat (valueFormat f c) b.float64) <;> rfl

theorem Format_string (isPrint : Char → Bool) (b : Bytes) (f : State) (c : Verb) (u : String)
    (hn : b.name = some u) (hc : c = Verb.s ∨ c = Verb.q) :
    b.Format isPrint f c =
      sprintfString isPrint (valueFormat f c)
        (applyPad (padFormat f) (fmtFloatV b.float64 ++ sprintfS (unitFormat f u.length) u)) := by
  unfold Bytes.Format
  rw [hn]
  simp only [hc, if_true]

theorem toInt64_mathRound (x : ℚ) (hx : 0 ≤ x) :
    toInt64 (mathRound x) = ⌊x + 1 / 2⌋ := by
  have h1 : (0 : ℚ) ≤ x + 1 / 2 := by linarith
  have h2 : (0 : ℤ) ≤ ⌊x + 1 / 2⌋ := Int.floor_nonneg.mpr h1
  unfold toInt64 mathRound
  rw [if_pos hx, ratFloor_eq, if_pos (by exact_mod_cast h2), ratFloor_eq, Int.floor_intCast]


/-! ## Padding -/

theorem sprintfS_none (u : String) : sprintfS ⟨false, false, none⟩ u = u := rfl

theorem sprintfS_gap (u : String) (k : Nat) :
    sprintfS ⟨false, false, some (u.length + k)⟩ u = String.mk (List.replicate k ' ') ++ u := by
  unfold sprintfS
  simp only [Nat.add_sub_cancel_left]
  apply String.ext
  simp

theorem sprintfS_left (s : String) (w : Nat) :
    sprintfS ⟨false, false, some w⟩ s = String.mk (List.replicate (w - s.length) ' ') ++ s := by
  unfold sprintfS
  apply String.ext
  simp

theorem sprintfS_right (s : String) (w : Nat) (z : Bool) :
    sprintfS ⟨true, z, some w⟩ s = s ++ String.mk (List.replicate (w - s.length) ' ') := by
  unfold sprintfS
  apply String.ext
  simp

theorem sprintfS_zero (s : String) (w : Nat) :
    sprintfS ⟨false, true, some w⟩ s = String.mk (List.replicate (w - s.length) '0') ++ s := by
  unfold sprintfS
  apply String.ext
  simp

/-! ## The claims on the scaled value and on `Format` -/

/-- C11: for every raw count `v < 2 ^ 53`, the scaled value returned by
`float64`, the quotient of the binary64 division of `v` by `1024 ^ tierOf v`,
multiplied by `1024 ^ tierOf v` is `v` exactly; the division keeps the fraction
(1128 gives 141/128, not 1). -/
theorem C11_round_trip (b : Bytes) (h : b.Value < 2 ^ 53) :
    b.float64 = f64div (f64ofUint b.Value) (f64ofUint (1024 ^ tierOf b.Value)) ∧
    b.float64 * (1024 : ℚ) ^ tierOf b.Value = (b.Value : ℚ) ∧
    (⟨1128, []⟩ : Bytes).float64 = 141 / 128 := by
  refine ⟨float64_eq_tier b, ?_, ?_⟩
  · rw [float64_of_lt b h]
    have : (1024 : ℚ) ^ tierOf b.Value ≠ 0 := pow_ne_zero _ (by norm_num)
    field_simp
  · rw [float64_of_lt _ (by norm_num)]
    norm_num [show tierOf 1128 = 1 by decide]

/-- C11, at the count 1536: the scaled value 3/2 times 1024 is 1536. -/
theorem C11_round_trip_witness :
    (1536 : Nat) < 2 ^ 53 ∧ (New 1536 []).float64 * (1024 : ℚ) ^ tierOf 1536 = 1536 := by
  have h : (New 1536 []).Value < 2 ^ 53 := by rw [New_Value]; norm_num
  have h2 := (C11_round_trip (New 1536 []) h).2.1
  rw [New_Value] at h2
  exact ⟨by norm_num, by exact_mod_cast h2⟩

/-- C12: tier selection is monotone: for raw counts `a ≤ b` the index chosen for
`a` is at most the index chosen for `b`, where the index chosen for a count `v`
by `name` and by `float64` is `tierOf v`. -/
theorem C12_tier_monotone (a b : Nat) (h : a ≤ b) :
    tierOf a ≤ tierOf b ∧
    (∀ (v : Nat) (tbl : List String),
      (⟨v, tbl⟩ : Bytes).name = tbl[tierOf v]? ∧
      (⟨v, tbl⟩ : Bytes).float64 = f64div (f64ofUint v) (f64ofUint (1024 ^ tierOf v))) := by
  constructor
  · rcases (tierOf_spec a).1 with h0 | h1
    · rw [h0]; exact Nat.zero_le _
    · exact (tierOf_spec b).2 (tierOf a) (tierOf_le a) (le_trans h1 h)
  · intro v tbl
    exact ⟨name_eq_tier ⟨v, tbl⟩, float64_eq_tier ⟨v, tbl⟩⟩

/-- C12, at the counts 1023 and 1024: the tiers are 0 and 1. -/
theorem C12_tier_monotone_witness :
    (1023 : Nat) ≤ 1024 ∧ tierOf 1023 = 0 ∧ tierOf 1024 = 1 ∧ tierOf 1023 ≤ tierOf 1024 :=
  ⟨by norm_num, by decide, by decide, (C12_tier_monotone 1023 1024 (by norm_num)).1⟩


theorem Format_numeric_at (isPrint : Char → Bool) (b : Bytes) (f : State) (c : Verb)
    (u : String) (q : ℚ) (hn : b.name = some u) (hq : b.float64 = q)
    (hs : c ≠ Verb.s) (hv : c ≠ Verb.q) :
    b.Format isPrint f c =
      (if c = Verb.d then sprintfInt (valueFormat f c) (toInt64 (mathRound q))
        else sprintfFloat (valueFormat f c) q).map
        (fun t => applyPad (padFormat f) (t ++ sprintfS (unitFormat f u.length) u)) := by
  rw [Format_numeric isPrint b f c u hn hs hv]
  unfold Bytes.valueText
  have hsq : ¬ (c = Verb.s ∨ c = Verb.q) := fun h => h.elim hs hv
  rw [if_neg hsq, hq]

theorem Format_s_at (isPrint : Char → Bool) (b : Bytes) (f : State) (u : String) (q : ℚ)
    (hn : b.name = some u) (hq : b.float64 = q) :
    b.Format isPrint f Verb.s =
      some (truncateString f.prec
        (applyPad (padFormat f) (fmtFloatV q ++ sprintfS (unitFormat f u.length) u))) := by
  rw [Format_string isPrint b f Verb.s u hn (Or.inl rfl), hq]
  rfl

theorem float64_at (v : Nat) (n : List String) (q : ℚ) (t : Nat) (h : v < 2 ^ 53)
    (ht : tierOf v = t) (hq : (v : ℚ) / (1024 : ℚ) ^ t = q) : (New v n).float64 = q := by
  rw [float64_of_lt _ (by rw [New_Value]; exact h), New_Value, ht, hq]

theorem valueText_d (b : Bytes) (p : Option Nat) (f : State)
    (hp : f.prec = p) (hplus : f.plus = false) :
    b.valueText f Verb.d =
      some (String.mk (integerDigits p ⌊b.float64 + 1 / 2⌋.toNat)) := by
  have hx := float64_nonneg b
  have h2 : (0 : ℤ) ≤ ⌊b.float64 + 1 / 2⌋ := Int.floor_nonneg.mpr (by linarith)
  obtain ⟨r, hr⟩ := Int.eq_ofNat_of_zero_le h2
  unfold Bytes.valueText
  rw [if_neg (by decide), if_pos rfl, toInt64_mathRound _ hx, hr]
  unfold sprintfInt valueFormat
  simp only [hp, hplus, Int.toNat_ofNat, Int.natAbs_ofNat]
  by_cases h0 : p = some 0 ∧ r = 0
  · obtain ⟨hp0, hz⟩ := h0
    subst hp0
    subst hz
    rfl
  · have h0' : ¬ (p = some 0 ∧ (r : ℤ) = 0) := by
      intro h; exact h0 ⟨h.1, by exact_mod_cast h.2⟩
    rw [if_neg h0']
    have hneg : ¬ ((r : ℤ) < 0) := not_lt.mpr (Int.natCast_nonneg r)
    simp [signChars, hneg]


theorem padFormat_plain_width (pl sh mi ze : Bool) (p : Option Nat) :
    padFormat ⟨pl, sh, false, mi, ze, none, p⟩ = none := rfl

/-- C13: for every raw count and every `Bytes` built by `New`, `Format` with the
verb `d` and no flag, width or precision writes the decimal digits of the
integer `r` nearest to the scaled value `x`, a tie going away from zero
(`r ≤ x + 1/2 < r + 1`), immediately followed by the unit name; 1128 gives 1K,
1124 with the names B, Kilobyte gives 1Kilobyte, 1536 gives 2K (and 2560, the
scaled value 2.5, gives 3K). -/
theorem C13_format_d (isPrint : Char → Bool) (v : Nat) (n : List String) :
    (∃ (u : String) (r : Nat), (New v n).name = some u ∧
      (r : ℚ) ≤ (New v n).float64 + 1 / 2 ∧ (New v n).float64 + 1 / 2 < (r : ℚ) + 1 ∧
      (New v n).Format isPrint State.plain Verb.d = some (Nat.repr r ++ u)) ∧
    (New 1128 []).Format isPrint State.plain Verb.d = some "1K" ∧
    (New 1124 ["B", "Kilobyte"]).Format isPrint State.plain Verb.d = some "1Kilobyte" ∧
    (New 1536 []).Format isPrint State.plain Verb.d = some "2K" ∧
    (New 2560 []).Format isPrint State.plain Verb.d = some "3K" := by
  refine ⟨?_, ?_, ?_, ?_, ?_⟩
  · obtain ⟨u, hu⟩ := New_name v n
    have hx := float64_nonneg (New v n)
    have h2 : (0 : ℤ) ≤ ⌊(New v n).float64 + 1 / 2⌋ := Int.floor_nonneg.mpr (by linarith)
    obtain ⟨r, hr⟩ := Int.eq_ofNat_of_zero_le h2
    refine ⟨u, r, hu, ?_, ?_, ?_⟩
    · have := Int.floor_le ((New v n).float64 + 1 / 2)
      rw [hr] at this
      exact_mod_cast this
    · have := Int.lt_floor_add_one ((New v n).float64 + 1 / 2)
      rw [hr] at this
      exact_mod_cast this
    · rw [Format_numeric isPrint _ _ _ u hu (by decide) (by decide),
        valueText_d _ none State.plain rfl rfl, hr]
      rfl
  · rw [Format_numeric_at isPrint _ _ _ "K" (141 / 128) (by decide)
      (float64_at 1128 [] _ 1 (by norm_num) (by decide) (by norm_num)) (by decide) (by decide)]
    decide!
  · rw [Format_numeric_at isPrint _ _ _ "Kilobyte" (281 / 256) (by decide)
      (float64_at 1124 _ _ 1 (by norm_num) (by decide) (by norm_num)) (by decide) (by decide)]
    decide!
  · rw [Format_numeric_at isPrint _ _ _ "K" (3 / 2) (by decide)
      (float64_at 1536 [] _ 1 (by norm_num) (by decide) (by norm_num)) (by decide) (by decide)]
    decide!
  · rw [Format_numeric_at isPrint _ _ _ "K" (5 / 2) (by decide)
      (float64_at 2560 [] _ 1 (by norm_num) (by decide) (by norm_num)) (by decide) (by decide)]
    decide!


/-! ## Fixed-point notation -/

theorem roundHalfEven_near (n d : Nat) (hd : 0 < d) :
    |((roundHalfEven n d : ℕ) : ℚ) - (n : ℚ) / d| ≤ 1 / 2 := by
  have hdq : (0 : ℚ) < d := by exact_mod_cast hd
  have hdiv : (n : ℚ) = ((n / d : ℕ) : ℚ) * d + ((n % d : ℕ) : ℚ) := by
    have := Nat.div_add_mod n d
    have h2 : ((d * (n / d) + n % d : ℕ) : ℚ) = (n : ℚ) := by rw [this]
    push_cast at h2
    linarith
  have hmod : n % d < d := Nat.mod_lt _ hd
  have hmodq : ((n % d : ℕ) : ℚ) < d := by exact_mod_cast hmod
  have hmod0 : (0 : ℚ) ≤ ((n % d : ℕ) : ℚ) := Nat.cast_nonneg _
  have key : (n : ℚ) / d = ((n / d : ℕ) : ℚ) + ((n % d : ℕ) : ℚ) / d := by
    rw [hdiv]; field_simp
  have hfrac : ((n % d : ℕ) : ℚ) / d < 1 := by rw [div_lt_one hdq]; exact hmodq
  have hfrac0 : (0 : ℚ) ≤ ((n % d : ℕ) : ℚ) / d := div_nonneg hmod0 (le_of_lt hdq)
  unfold roundHalfEven
  simp only
  rw [key, abs_le]
  split_ifs with h1 h2 h3
  · have : (2 : ℚ) * ((n % d : ℕ) : ℚ) < d := by exact_mod_cast h1
    have h4 : ((n % d : ℕ) : ℚ) / d < 1 / 2 := by
      rw [div_lt_iff₀ hdq]; linarith
    constructor <;> linarith
  · have : (d : ℚ) < 2 * ((n % d : ℕ) : ℚ) := by exact_mod_cast h2
    have h4 : 1 / 2 < ((n % d : ℕ) : ℚ) / d := by
      rw [lt_div_iff₀ hdq]; linarith
    push_cast
    constructor <;> linarith
  · have he : 2 * (n % d) = d := by omega
    have heq : (2 : ℚ) * ((n % d : ℕ) : ℚ) = d := by exact_mod_cast he
    have h4 : ((n % d : ℕ) : ℚ) / d = 1 / 2 := by
      rw [div_eq_iff (ne_of_gt hdq)]; linarith
    constructor <;> linarith
  · have he : 2 * (n % d) = d := by omega
    have heq : (2 : ℚ) * ((n % d : ℕ) : ℚ) = d := by exact_mod_cast he
    have h4 : ((n % d : ℕ) : ℚ) / d = 1 / 2 := by
      rw [div_eq_iff (ne_of_gt hdq)]; linarith
    push_cast
    constructor <;> linarith

theorem bind_pure_cast (l : List Nat) :
    (bind l (fun (a : Nat) => (pure (a : Int) : List Int)))
      = l.map (fun (a : Nat) => (a : Int)) := by
  induction l with
  | nil => rfl
  | cons a t ih => simp_all

theorem fmtF_frac (ds : List Char) (p : Nat) :
    (List.range p).map (fun i =>
        let j : Int := ((ds.length : Int) - p) + i
        if 0 ≤ j ∧ j < ds.length then ds.getD j.toNat '0' else '0')
      = List.replicate (p - ds.length) '0' ++ ds.drop (ds.length - p) := by
  rw [bind_pure_cast, List.map_map]
  apply List.ext_getElem
  · simp only [List.length_map, List.length_range, List.length_append, List.length_replicate,
      List.length_drop]
    omega
  · intro i h1 h2
    simp only [List.length_map, List.length_range] at h1
    simp only [List.getElem_map, List.getElem_range, Function.comp_apply]
    by_cases hlt : i < p - ds.length
    · rw [List.getElem_append_left (by simpa using hlt)]
      simp only [List.getElem_replicate]
      have : ¬ (0 ≤ ((ds.length : Int) - p) + i ∧ ((ds.length : Int) - p) + i < ds.length) := by
        omega
      rw [if_neg this]
    · have hge : p - ds.length ≤ i := Nat.le_of_not_lt hlt
      rw [List.getElem_append_right (by simpa using hge)]
      simp only [List.length_replicate, List.getElem_drop]
      have hc : (0 ≤ ((ds.length : Int) - p) + i ∧ ((ds.length : Int) - p) + i < ds.length) := by
        omega
      rw [if_pos hc]
      have hidx : (((ds.length : Int) - p) + i).toNat = ds.length - p + (i - (p - ds.length)) := by
        omega
      rw [hidx, List.getD_eq_getElem?_getD, List.getElem?_eq_getElem, Option.getD_some]


theorem decDigits_length_pos (n : Nat) : 0 < (decDigits n).length := by
  unfold decDigits Nat.toDigits
  rw [Nat.toDigitsCore]
  split_ifs
  · simp
  · rw [Nat.toDigitsCore_lens_eq]
    exact Nat.succ_pos _

theorem fmtF_zero (p : Nat) :
    fmtF [] 0 p = '0' :: (if p = 0 then [] else '.' :: List.replicate p '0') := by
  unfold fmtF
  rw [bind_pure_cast, List.map_map]
  have hmap : List.map ((fun (i : Int) =>
      let j : Int := (0 : Int) + i
      if 0 ≤ j ∧ j < ((([] : List Char).length : Nat) : Int)
        then ([] : List Char).getD j.toNat '0' else '0') ∘ fun (a : Nat) => (a : Int))
      (List.range p) = List.replicate p '0' := by
    apply List.ext_getElem
    · simp
    · intro i h1 h2
      simp
  rw [hmap]
  rcases Nat.eq_zero_or_pos p with h0 | hpos
  · subst h0; simp
  · have hne : p ≠ 0 := Nat.pos_iff_ne_zero.mp hpos
    simp [hpos, hne]

theorem fmtF_digits (ds : List Char) (p : Nat) :
    fmtF ds ((ds.length : Int) - p) p =
      (if p < ds.length then ds.take (ds.length - p) else ['0'])
        ++ (if p = 0 then [] else
          '.' :: (List.replicate (p - ds.length) '0' ++ ds.drop (ds.length - p))) := by
  unfold fmtF
  simp only
  rw [fmtF_frac ds p]
  congr 1
  · by_cases h : p < ds.length
    · have h1 : (0 : Int) < (ds.length : Int) - p := by omega
      have h2 : ((ds.length : Int) - p).toNat = ds.length - p := by omega
      rw [if_pos h1, if_pos h, h2]
      have h3 : ds.length - p - ds.length = 0 := by omega
      rw [h3]; simp
    · have h1 : ¬ ((0 : Int) < (ds.length : Int) - p) := by omega
      rw [if_neg h1, if_neg h]
  · rcases Nat.eq_zero_or_pos p with h0 | hpos
    · subst h0; simp
    · have hne : p ≠ 0 := Nat.pos_iff_ne_zero.mp hpos
      simp [hpos, hne]

theorem formatF_shape (x : ℚ) (hx : 0 ≤ x) (p : Nat) :
    ∃ (ip fp : List Char) (N : Nat),
      |(N : ℚ) - x * (10 : ℚ) ^ p| ≤ 1 / 2 ∧
      ip ++ fp = List.replicate (p + 1 - (decDigits N).length) '0' ++ decDigits N ∧
      fp.length = p ∧
      formatF x p = ip ++ (if p = 0 then [] else '.' :: fp) := by
  have hy : (0 : ℚ) ≤ x * (10 : ℚ) ^ p := mul_nonneg hx (pow_nonneg (by norm_num) _)
  set y : ℚ := x * (10 : ℚ) ^ p with hydef
  have hnum : (0 : ℤ) ≤ y.num := Rat.num_nonneg.mpr hy
  have hfrac : ((y.num.natAbs : ℕ) : ℚ) / (y.den : ℚ) = y := by
    have h3 : ((y.num.natAbs : ℕ) : ℚ) = (y.num : ℚ) := by
      rw [← Int.cast_natCast, Int.natAbs_of_nonneg hnum]
    rw [h3]
    exact Rat.num_div_den y
  have hnear := roundHalfEven_near y.num.natAbs y.den y.den_pos
  rw [hfrac] at hnear
  set N : Nat := roundHalfEven y.num.natAbs y.den with hN
  have hform : formatF x p = fmtF (fixedDecimal x p).1 (fixedDecimal x p).2 p := rfl
  have hfix : fixedDecimal x p =
      if N = 0 then ([], 0) else (decDigits N, ((decDigits N).length : Int) - p) := rfl
  have hlen := decDigits_length_pos N
  by_cases h0 : N = 0
  · refine ⟨['0'], List.replicate p '0', N, hnear, ?_, by simp, ?_⟩
    · rw [h0]
      have : decDigits 0 = ['0'] := rfl
      rw [this]
      simp only [List.length_singleton, Nat.add_sub_cancel]
      rw [List.singleton_append, ← List.replicate_succ, List.replicate_succ']
    · rw [hform, hfix, if_pos h0]
      simp only
      rw [fmtF_zero]
      rfl
  · rw [hform, hfix, if_neg h0]
    simp only
    rw [fmtF_digits _ p]
    refine ⟨_, _, N, hnear, ?_, ?_, rfl⟩
    · by_cases h : p < (decDigits N).length
      · rw [if_pos h]
        have h1 : p - (decDigits N).length = 0 := by omega
        have h2 : p + 1 - (decDigits N).length = 0 := by omega
        rw [h1, h2]
        simp
      · rw [if_neg h]
        have h1 : (decDigits N).length - p = 0 := by omega
        have h2 : p + 1 - (decDigits N).length = (p - (decDigits N).length) + 1 := by omega
        rw [h1, h2, List.drop_zero, List.singleton_append, ← List.cons_append,
          ← List.replicate_succ]
    · simp only [List.length_append, List.length_replicate, List.length_drop]
      omega


/-! ## The value part and the token -/

theorem valueText_f (b : Bytes) (f : State) (hplus : f.plus = false)
    (hsharp : f.sharp = false) :
    b.valueText f Verb.f = some (String.mk (formatF b.float64 (f.prec.getD 6))) := by
  have hx := float64_nonneg b
  unfold Bytes.valueText
  rw [if_neg (by decide), if_neg (by decide)]
  unfold sprintfFloat valueFormat
  simp only [hplus, hsharp, abs_of_nonneg hx]
  have hneg : ¬ (b.float64 < 0) := not_lt.mpr hx
  simp [signChars, hneg]

theorem valueText_some (b : Bytes) (f : State) (c : Verb) :
    ∃ val, b.valueText f c = some val := by
  unfold Bytes.valueText
  cases c
  · rw [if_neg (by decide), if_neg (by decide)]
    unfold sprintfFloat valueFormat
    simp only
    cases f.prec <;> exact ⟨_, rfl⟩
  · exact ⟨_, rfl⟩
  · exact ⟨_, rfl⟩
  · rw [if_neg (by decide), if_neg (by decide)]
    exact ⟨_, rfl⟩
  · rw [if_neg (by decide), if_pos rfl]
    unfold sprintfInt valueFormat
    simp only
    split_ifs <;> exact ⟨_, rfl⟩
  · rw [if_neg (by decide), if_neg (by decide)]
    exact ⟨_, rfl⟩

theorem valueText_flags (b : Bytes) (f g : State) (c : Verb)
    (h1 : f.plus = g.plus) (h2 : f.sharp = g.sharp) (h3 : f.prec = g.prec) :
    b.valueText f c = b.valueText g c := by
  unfold Bytes.valueText valueFormat
  rw [h1, h2, h3]

/-- The output of `Format` for every verb but `q`, and for `s` without a
precision: the value part, then the unit name under `uf`, the whole under
`pf`. -/
theorem Format_token (isPrint : Char → Bool) (b : Bytes) (f : State) (c : Verb) (u : String)
    (hn : b.name = some u) (hq : c ≠ Verb.q) (hs : c = Verb.s → f.prec = none) :
    b.Format isPrint f c =
      (b.valueText f c).map
        (fun t => applyPad (padFormat f) (t ++ sprintfS (unitFormat f u.length) u)) := by
  by_cases hc : c = Verb.s
  · subst hc
    rw [Format_string isPrint b f Verb.s u hn (Or.inl rfl)]
    unfold Bytes.valueText sprintfString valueFormat
    simp only [hs rfl]
    rfl
  · exact Format_numeric isPrint b f c u hn hc hq

theorem Format_congr (isPrint : Char → Bool) (b : Bytes) (f g : State) (c : Verb)
    (h1 : valueFormat f c = valueFormat g c) (h2 : unitFormat f = unitFormat g)
    (h3 : padFormat f = padFormat g) :
    b.Format isPrint f c = b.Format isPrint g c := by
  unfold Bytes.Format
  rw [h1, h2, h3]

theorem space_one : String.mk (List.replicate 1 ' ') = " " := rfl

/-- C14: for every raw count, `Format` with the verb `f` and no flag or width
writes the scaled value `x` in fixed-point notation followed by the unit name:
with `k` the requested precision, or 6 when there is none, and `N` an integer
nearest to `x * 10 ^ k`, the digits of `N`, with zeros in front up to `k + 1`
digits, and a point before the last `k` of them (no point when `k = 0`).  1128
gives 1.101562K, and 1.1K with the precision 1. -/
theorem C14_format_f (isPrint : Char → Bool) (v : Nat) (n : List String) (p : Option Nat) :
    (∃ (u : String) (ip fp : List Char) (N : Nat), (New v n).name = some u ∧
      |(N : ℚ) - (New v n).float64 * (10 : ℚ) ^ (p.getD 6)| ≤ 1 / 2 ∧
      ip ++ fp = List.replicate (p.getD 6 + 1 - (decDigits N).length) '0' ++ decDigits N ∧
      fp.length = p.getD 6 ∧
      (New v n).Format isPrint ⟨false, false, false, false, false, none, p⟩ Verb.f
        = some (String.mk (ip ++ (if p.getD 6 = 0 then [] else '.' :: fp)) ++ u)) ∧
    (New 1128 []).Format isPrint ⟨false, false, false, false, false, none, none⟩ Verb.f
      = some "1.101562K" ∧
    (New 1128 []).Format isPrint ⟨false, false, false, false, false, none, some 1⟩ Verb.f
      = some "1.1K" := by
  refine ⟨?_, ?_, ?_⟩
  · obtain ⟨u, hu⟩ := New_name v n
    obtain ⟨ip, fp, N, h1, h2, h3, h4⟩ :=
      formatF_shape (New v n).float64 (float64_nonneg _) (p.getD 6)
    refine ⟨u, ip, fp, N, hu, h1, h2, h3, ?_⟩
    rw [Format_numeric isPrint _ _ _ u hu (by decide) (by decide),
      valueText_f _ _ rfl rfl]
    simp only [h4]
    rfl
  · rw [Format_numeric_at isPrint _ _ _ "K" (141 / 128) (by decide)
      (float64_at 1128 [] _ 1 (by norm_num) (by decide) (by norm_num)) (by decide) (by decide)]
    decide!
  · rw [Format_numeric_at isPrint _ _ _ "K" (141 / 128) (by decide)
      (float64_at 1128 [] _ 1 (by norm_num) (by decide) (by norm_num)) (by decide) (by decide)]
    decide!

/-- C15 (the claim fails): with the verb `d` and the precision 0 the count 0 is
written as the unit name alone, B, and not as 0B: `fmt` prints no digit for the
integer 0 under the precision 0. -/
theorem C15_zero_precision_zero :
    (New 0 []).Format (fun _ => true) ⟨false, false, false, false, false, none, some 0⟩ Verb.d
      = some "B" ∧
    (New 0 []).Format (fun _ => true) ⟨false, false, false, false, false, none, some 0⟩ Verb.d
      ≠ some (Nat.repr 0 ++ "B") := by
  have h : (New 0 []).Format (fun _ => true)
      ⟨false, false, false, false, false, none, some 0⟩ Verb.d = some "B" := by
    rw [Format_numeric_at _ _ _ _ "B" 0 (by decide)
      (float64_at 0 [] _ 0 (by norm_num) (by decide) (by norm_num)) (by decide) (by decide)]
    decide!
  refine ⟨h, ?_⟩
  rw [h]
  decide

/-- C15, amended: for every raw count and every precision `p`, `Format` with the
verb `d` and the precision `p` writes the digits of the rounded integer `r` with
zeros in front up to at least `p` digits, followed by the unit name, except that
for the count 0 with the precision 0 it writes no digit at all; `r` is 0 only
for the count 0.  The precision 2 gives 00B for 0 and 01K for 1128. -/
theorem C15_format_d_precision (isPrint : Char → Bool) (v : Nat) (n : List String) (p : Nat) :
    (∃ (u : String) (r : Nat), (New v n).name = some u ∧
      (r : ℚ) ≤ (New v n).float64 + 1 / 2 ∧ (New v n).float64 + 1 / 2 < (r : ℚ) + 1 ∧
      (r = 0 ↔ v = 0) ∧
      (New v n).Format isPrint ⟨false, false, false, false, false, none, some p⟩ Verb.d
        = some (String.mk (if p = 0 ∧ v = 0 then []
            else List.replicate (p - (decDigits r).length) '0' ++ decDigits r) ++ u)) ∧
    (New 0 []).Format isPrint ⟨false, false, false, false, false, none, some 2⟩ Verb.d
      = some "00B" ∧
    (New 1128 []).Format isPrint ⟨false, false, false, false, false, none, some 2⟩ Verb.d
      = some "01K" := by
  refine ⟨?_, ?_, ?_⟩
  · obtain ⟨u, hu⟩ := New_name v n
    have hx := float64_nonneg (New v n)
    have h2 : (0 : ℤ) ≤ ⌊(New v n).float64 + 1 / 2⌋ := Int.floor_nonneg.mpr (by linarith)
    obtain ⟨r, hr⟩ := Int.eq_ofNat_of_zero_le h2
    have hle : (r : ℚ) ≤ (New v n).float64 + 1 / 2 := by
      have := Int.floor_le ((New v n).float64 + 1 / 2)
      rw [hr] at this
      exact_mod_cast this
    have hlt : (New v n).float64 + 1 / 2 < (r : ℚ) + 1 := by
      have := Int.lt_floor_add_one ((New v n).float64 + 1 / 2)
      rw [hr] at this
      exact_mod_cast this
    have hzero : r = 0 ↔ v = 0 := by
      constructor
      · intro h0
        by_contra hv
        have hpos : 0 < (New v n).Value := by
          rw [New_Value]; exact Nat.pos_of_ne_zero hv
        have h1 := float64_ge_one _ hpos
        rw [h0] at hlt
        norm_num at hlt
        linarith
      · intro hv
        have hf : (New v n).float64 = 0 := float64_zero _ (by rw [New_Value]; exact hv)
        rw [hf] at hle
        have : (r : ℚ) < 1 := by linarith
        have : r < 1 := by exact_mod_cast this
        omega
    refine ⟨u, r, hu, hle, hlt, hzero, ?_⟩
    rw [Format_numeric isPrint _ _ _ u hu (by decide) (by decide),
      valueText_d _ (some p) _ rfl rfl, hr]
    simp only [Int.toNat_ofNat, integerDigits, hzero]
    rfl
  · rw [Format_numeric_at isPrint _ _ _ "B" 0 (by decide)
      (float64_at 0 [] _ 0 (by norm_num) (by decide) (by norm_num)) (by decide) (by decide)]
    decide!
  · rw [Format_numeric_at isPrint _ _ _ "K" (141 / 128) (by decide)
      (float64_at 1128 [] _ 1 (by norm_num) (by decide) (by norm_num)) (by decide) (by decide)]
    decide!


/-- C16: for every raw count, every name table from `New` and every verb of `v`,
`s`, `f`, `d` (with any precision, none for `s`): with the flag space alone and
no width, `Format` writes the value part of the rendering without a flag, then
exactly one space, then the unit name. -/
theorem C16_space_flag (isPrint : Char → Bool) (v : Nat) (n : List String) (c : Verb)
    (p : Option Nat) (hc : c = Verb.v ∨ c = Verb.s ∨ c = Verb.f ∨ c = Verb.d)
    (hp : c = Verb.s → p = none) :
    ∃ (u val : String), (New v n).name = some u ∧
      (New v n).valueText ⟨false, false, false, false, false, none, p⟩ c = some val ∧
      (New v n).Format isPrint ⟨false, false, false, false, false, none, p⟩ c
        = some (val ++ u) ∧
      (New v n).Format isPrint ⟨false, false, true, false, false, none, p⟩ c
        = some (val ++ " " ++ u) := by
  obtain ⟨u, hu⟩ := New_name v n
  obtain ⟨val, hval⟩ := valueText_some (New v n) ⟨false, false, false, false, false, none, p⟩ c
  have hq : c ≠ Verb.q := by
    rcases hc with h | h | h | h <;> rw [h] <;> decide
  refine ⟨u, val, hu, hval, ?_, ?_⟩
  · rw [Format_token isPrint _ _ c u hu hq hp, hval]
    rfl
  · rw [Format_token isPrint _ _ c u hu hq hp,
      valueText_flags _ ⟨false, false, true, false, false, none, p⟩
        ⟨false, false, false, false, false, none, p⟩ c rfl rfl rfl, hval]
    show some (val ++ sprintfS ⟨false, false, some (u.length + 1)⟩ u) = _
    rw [sprintfS_gap, space_one, String.append_assoc]

/-- C16, at the count 1124 with the names B, Kilobyte and the verb `d`: the
output is 1, a space and Kilobyte. -/
theorem C16_space_flag_witness :
    (New 1124 ["B", "Kilobyte"]).Format (fun _ => true)
      ⟨false, false, true, false, false, none, none⟩ Verb.d = some "1 Kilobyte" := by
  obtain ⟨u, val, hu, hval, -, h⟩ :=
    C16_space_flag (fun _ => true) 1124 ["B", "Kilobyte"] Verb.d none
      (Or.inr (Or.inr (Or.inr rfl))) (by decide)
  have hu2 : (New 1124 ["B", "Kilobyte"]).name = some "Kilobyte" := by decide
  have hv2 : (New 1124 ["B", "Kilobyte"]).valueText
      ⟨false, false, false, false, false, none, none⟩ Verb.d = some "1" := by
    unfold Bytes.valueText
    rw [float64_at 1124 _ (281 / 256) 1 (by norm_num) (by decide) (by norm_num)]
    decide!
  rw [hu2] at hu
  rw [hv2] at hval
  cases hu
  cases hval
  rw [h]
  decide

/-- C17: for every raw count, every name table from `New`, every verb of `v`,
`s`, `f`, `d` (with any precision, none for `s`) and every width `w`: with the
flag space and the width `w`, `Format` writes the value part, then exactly `w`
spaces, then the unit name; the unit name is printed in a field of its length
in characters plus `w`. -/
theorem C17_space_width (isPrint : Char → Bool) (v : Nat) (n : List String) (c : Verb)
    (p : Option Nat) (w : Nat) (hc : c = Verb.v ∨ c = Verb.s ∨ c = Verb.f ∨ c = Verb.d)
    (hp : c = Verb.s → p = none) :
    ∃ (u val : String), (New v n).name = some u ∧
      (New v n).valueText ⟨false, false, false, false, false, none, p⟩ c = some val ∧
      unitFormat ⟨false, false, true, false, false, some w, p⟩ u.length
        = ⟨false, false, some (u.length + w)⟩ ∧
      (New v n).Format isPrint ⟨false, false, true, false, false, some w, p⟩ c
        = some (val ++ String.mk (List.replicate w ' ') ++ u) := by
  obtain ⟨u, hu⟩ := New_name v n
  obtain ⟨val, hval⟩ := valueText_some (New v n) ⟨false, false, false, false, false, none, p⟩ c
  have hq : c ≠ Verb.q := by
    rcases hc with h | h | h | h <;> rw [h] <;> decide
  refine ⟨u, val, hu, hval, rfl, ?_⟩
  rw [Format_token isPrint _ _ c u hu hq hp,
    valueText_flags _ ⟨false, false, true, false, false, some w, p⟩
      ⟨false, false, false, false, false, none, p⟩ c rfl rfl rfl, hval]
  show some (val ++ sprintfS ⟨false, false, some (u.length + w)⟩ u) = _
  rw [sprintfS_gap, String.append_assoc]

/-- C17, at the count 1124 with the names B, Kilobyte, the verb `d` and the
width 2, and at the count 0: the outputs are 1, two spaces and Kilobyte, and 0,
two spaces and B. -/
theorem C17_space_width_witness :
    (New 1124 ["B", "Kilobyte"]).Format (fun _ => true)
      ⟨false, false, true, false, false, some 2, none⟩ Verb.d = some "1  Kilobyte" ∧
    (New 0 []).Format (fun _ => true)
      ⟨false, false, true, false, false, some 2, none⟩ Verb.d = some "0  B" := by
  constructor
  · obtain ⟨u, val, hu, hval, -, h⟩ :=
      C17_space_width (fun _ => true) 1124 ["B", "Kilobyte"] Verb.d none 2
        (Or.inr (Or.inr (Or.inr rfl))) (by decide)
    have hu2 : (New 1124 ["B", "Kilobyte"]).name = some "Kilobyte" := by decide
    have hv2 : (New 1124 ["B", "Kilobyte"]).valueText
        ⟨false, false, false, false, false, none, none⟩ Verb.d = some "1" := by
      unfold Bytes.valueText
      rw [float64_at 1124 _ (281 / 256) 1 (by norm_num) (by decide) (by norm_num)]
      decide!
    rw [hu2] at hu
    rw [hv2] at hval
    cases hu
    cases hval
    rw [h]
    decide
  · rw [Format_numeric_at _ _ _ _ "B" 0 (by decide)
      (float64_at 0 [] _ 0 (by norm_num) (by decide) (by norm_num)) (by decide) (by decide)]
    decide!


/-- The number of spaces `Format` puts between the value and the unit name under
the flag space: one without a width, `w` with the width `w`. -/
theorem unitFormat_space (pl sh mi ze : Bool) (w p : Option Nat) (uw : Nat) :
    unitFormat ⟨pl, sh, true, mi, ze, w, p⟩ uw
      = ⟨false, false, some (uw + (match w with | none => 1 | some k => k))⟩ := by
  cases w <;> rfl

/-- C18 (the claim fails): with the flag space and the width 0, `Format` writes
the count 1024 under the verb `d` as 1K, with no space between the value and
the unit name. -/
theorem C18_width_zero_no_space :
    (New 1024 []).Format (fun _ => true)
      ⟨false, false, true, false, false, some 0, none⟩ Verb.d = some "1K" := by
  rw [Format_numeric_at _ _ _ _ "K" 1 (by decide)
    (float64_at 1024 [] _ 1 (by norm_num) (by decide) (by norm_num)) (by decide) (by decide)]
  decide!

/-- C18, amended: with the flag space and no precision, for every raw count,
every name table from `New`, every verb and every width, absent or present,
the value part and the unit name are separated by exactly `k` spaces, where `k`
is 1 without a width and `w` with the width `w`: so by exactly one space when no
width is given and by at least one when the width is not 0.  For the verb `q`
this is the string that is then quoted. -/
theorem C18_space_gap (isPrint : Char → Bool) (v : Nat) (n : List String) (c : Verb)
    (w : Option Nat) :
    ∃ (u val : String) (k : Nat), (New v n).name = some u ∧
      (New v n).valueText ⟨false, false, true, false, false, w, none⟩ c = some val ∧
      k = (match w with | none => 1 | some j => j) ∧
      (w = none → k = 1) ∧ (w ≠ some 0 → 1 ≤ k) ∧
      (c ≠ Verb.q → (New v n).Format isPrint ⟨false, false, true, false, false, w, none⟩ c
        = some (val ++ String.mk (List.replicate k ' ') ++ u)) ∧
      (c = Verb.q → (New v n).Format isPrint ⟨false, false, true, false, false, w, none⟩ c
        = some (quote isPrint false (val ++ String.mk (List.replicate k ' ') ++ u))) := by
  obtain ⟨u, hu⟩ := New_name v n
  obtain ⟨val, hval⟩ := valueText_some (New v n) ⟨false, false, true, false, false, w, none⟩ c
  refine ⟨u, val, _, hu, hval, rfl, ?_, ?_, ?_, ?_⟩
  · intro hw; subst hw; rfl
  · intro hw
    cases w with
    | none => exact le_refl 1
    | some j =>
      have : j ≠ 0 := fun h => hw (by rw [h])
      exact Nat.pos_of_ne_zero this
  · intro hq
    rw [Format_token isPrint _ _ c u hu hq (fun _ => rfl), hval, unitFormat_space]
    show some (val ++ sprintfS ⟨false, false, some (u.length + _)⟩ u) = _
    rw [sprintfS_gap, String.append_assoc]
  · intro hq
    subst hq
    rw [Format_string isPrint _ _ Verb.q u hu (Or.inr rfl), unitFormat_space]
    have hv : val = fmtFloatV (New v n).float64 := by
      have : (New v n).valueText ⟨false, false, true, false, false, w, none⟩ Verb.q
          = some (fmtFloatV (New v n).float64) := rfl
      rw [this] at hval
      exact (Option.some.inj hval).symm
    rw [sprintfS_gap, ← hv, String.append_assoc]
    rfl

/-- C19: under the flag space the flags `-` and `0` have no effect and the width
is used only for the gap: for every receiver, verb, width, precision and flags
`+` and `#`, the output of `Format` is the same for all four combinations of `-`
and `0`, the padding format `pf` stays empty, and the output is the value part,
the gap and the unit name with nothing added around them (for the verb `s`
with a precision and the verb `q`, this string under the format `vf`). -/
theorem C19_space_ignores_minus_zero (isPrint : Char → Bool) (b : Bytes) (c : Verb)
    (pl sh mi ze : Bool) (w p : Option Nat) :
    b.Format isPrint ⟨pl, sh, true, mi, ze, w, p⟩ c
      = b.Format isPrint ⟨pl, sh, true, false, false, w, p⟩ c ∧
    padFormat ⟨pl, sh, true, mi, ze, w, p⟩ = none ∧
    (∀ u : String, b.name = some u → c ≠ Verb.q → (c = Verb.s → p = none) →
      b.Format isPrint ⟨pl, sh, true, mi, ze, w, p⟩ c
        = (b.valueText ⟨pl, sh, true, mi, ze, w, p⟩ c).map (fun val =>
            val ++ String.mk (List.replicate (match w with | none => 1 | some k => k) ' ')
              ++ u)) ∧
    (∀ u : String, b.name = some u → (c = Verb.s ∨ c = Verb.q) →
      b.Format isPrint ⟨pl, sh, true, mi, ze, w, p⟩ c
        = sprintfString isPrint ⟨pl, sh, p, c⟩
            (fmtFloatV b.float64
              ++ String.mk (List.replicate (match w with | none => 1 | some k => k) ' ')
              ++ u)) := by
  refine ⟨?_, rfl, ?_, ?_⟩
  · apply Format_congr
    · rfl
    · funext uw
      rw [unitFormat_space, unitFormat_space]
    · rfl
  · intro u hu hq hs
    rw [Format_token isPrint _ _ c u hu hq hs, unitFormat_space]
    congr 1
    funext val
    show val ++ sprintfS ⟨false, false, some (u.length + _)⟩ u = _
    rw [sprintfS_gap, String.append_assoc]
  · intro u hu hc
    rw [Format_string isPrint _ _ c u hu hc, unitFormat_space]
    show sprintfString isPrint ⟨pl, sh, p, c⟩
      (fmtFloatV b.float64 ++ sprintfS ⟨false, false, some (u.length + _)⟩ u) = _
    rw [sprintfS_gap, String.append_assoc]

/-- C19, at the count 1128 with the verb `f`, the width 3 and the precision 1:
with both `-` and `0` set the output is 1.1, three spaces and K, as without
them. -/
theorem C19_space_ignores_minus_zero_witness :
    (New 1128 []).Format (fun _ => true) ⟨false, false, true, true, true, some 3, some 1⟩
      Verb.f = some "1.1   K" := by
  rw [(C19_space_ignores_minus_zero (fun _ => true) (New 1128 []) Verb.f false false true true
    (some 3) (some 1)).1]
  rw [Format_numeric_at _ _ _ _ "K" (141 / 128) (by decide)
    (float64_at 1128 [] _ 1 (by norm_num) (by decide) (by norm_num)) (by decide) (by decide)]
  decide!

/-- C20 (the claim fails): with the verb `s`, the precision 1 and the width 4,
`Format` writes the count 0 as one space, the padded token cut to one
character, while the same directive without a width writes the token 0, of one
character: the output is not three spaces and the token. -/
theorem C20_s_precision_cuts_padding :
    (New 0 []).Format (fun _ => true) ⟨false, false, false, false, false, none, some 1⟩ Verb.s
      = some "0" ∧
    (New 0 []).Format (fun _ => true) ⟨false, false, false, false, false, some 4, some 1⟩ Verb.s
      = some " " := by
  constructor
  · rw [Format_s_at _ _ _ "B" 0 (by decide)
      (float64_at 0 [] _ 0 (by norm_num) (by decide) (by norm_num))]
    decide!
  · rw [Format_s_at _ _ _ "B" 0 (by decide)
      (float64_at 0 [] _ 0 (by norm_num) (by decide) (by norm_num))]
    decide!

/-- C20, amended: for every raw count, name table from `New`, verb of `v`, `f`,
`d` with any precision or `s` without a precision, flags `+` and `#` and width
`w`, with none of the flags space, `-`, `0` set: `Format` writes `w - n` spaces
(none when `w ≤ n`) and then the token, where the token is the output of the
same directive without a width and `n` its length in characters; the token is
never cut. -/
theorem C20_width_pads_left (isPrint : Char → Bool) (v : Nat) (n : List String) (c : Verb)
    (pl sh : Bool) (p : Option Nat) (w : Nat)
    (hc : c = Verb.v ∨ c = Verb.s ∨ c = Verb.f ∨ c = Verb.d) (hp : c = Verb.s → p = none) :
    ∃ token : String,
      (New v n).Format isPrint ⟨pl, sh, false, false, false, none, p⟩ c = some token ∧
      (New v n).Format isPrint ⟨pl, sh, false, false, false, some w, p⟩ c
        = some (String.mk (List.replicate (w - token.length) ' ') ++ token) ∧
      (w ≤ token.length →
        (New v n).Format isPrint ⟨pl, sh, false, false, false, some w, p⟩ c = some token) := by
  obtain ⟨u, hu⟩ := New_name v n
  obtain ⟨val, hval⟩ := valueText_some (New v n) ⟨pl, sh, false, false, false, none, p⟩ c
  have hq : c ≠ Verb.q := by
    rcases hc with h | h | h | h <;> rw [h] <;> decide
  have h1 : (New v n).Format isPrint ⟨pl, sh, false, false, false, none, p⟩ c
      = some (val ++ u) := by
    rw [Format_token isPrint _ _ c u hu hq hp, hval]
    rfl
  have h2 : (New v n).Format isPrint ⟨pl, sh, false, false, false, some w, p⟩ c
      = some (String.mk (List.replicate (w - (val ++ u).length) ' ') ++ (val ++ u)) := by
    rw [Format_token isPrint _ _ c u hu hq hp,
      valueText_flags _ ⟨pl, sh, false, false, false, some w, p⟩
        ⟨pl, sh, false, false, false, none, p⟩ c rfl rfl rfl, hval]
    show some (sprintfS ⟨false, false, some w⟩ (val ++ sprintfS ⟨false, false, none⟩ u)) = _
    rw [sprintfS_none, sprintfS_left]
  refine ⟨val ++ u, h1, h2, ?_⟩
  intro hw
  rw [h2, Nat.sub_eq_zero_of_le hw]
  rfl

/-- C20, at the count 0: the verb `v` with the width 3 gives a space and 0B, the
verb `f` with the width 4 and the precision 1 gives 0.0B. -/
theorem C20_width_pads_left_witness :
    (New 0 []).Format (fun _ => true) ⟨false, false, false, false, false, some 3, none⟩ Verb.v
      = some " 0B" ∧
    (New 0 []).Format (fun _ => true) ⟨false, false, false, false, false, some 4, some 1⟩
      Verb.f = some "0.0B" := by
  have hv : (New 0 []).Format (fun _ => true)
      ⟨false, false, false, false, false, none, none⟩ Verb.v = some "0B" := by
    rw [Format_numeric_at _ _ _ _ "B" 0 (by decide)
      (float64_at 0 [] _ 0 (by norm_num) (by decide) (by norm_num)) (by decide) (by decide)]
    decide!
  have hf : (New 0 []).Format (fun _ => true)
      ⟨false, false, false, false, false, none, some 1⟩ Verb.f = some "0.0B" := by
    rw [Format_numeric_at _ _ _ _ "B" 0 (by decide)
      (float64_at 0 [] _ 0 (by norm_num) (by decide) (by norm_num)) (by decide) (by decide)]
    decide!
  constructor
  · obtain ⟨token, h1, h2, -⟩ := C20_width_pads_left (fun _ => true) 0 [] Verb.v false false
      none 3 (Or.inl rfl) (by decide)
    rw [hv] at h1
    cases h1
    rw [h2]
    decide
  · obtain ⟨token, h1, h2, -⟩ := C20_width_pads_left (fun _ => true) 0 [] Verb.f false false
      (some 1) 4 (Or.inr (Or.inr (Or.inl rfl))) (by decide)
    rw [hf] at h1
    cases h1
    rw [h2]
    decide

/-! ## The flags `-` and `0` -/

/-- C21 (the claim fails): with the verb `s`, the flag `-`, the precision 1 and
the width 4, `Format` writes the count 0 as the one character 0, the padded
token cut to one character, as it does without a width: no space follows the
token. -/
theorem C21_s_precision_cuts_padding :
    (New 0 []).Format (fun _ => true) ⟨false, false, false, true, false, none, some 1⟩ Verb.s
      = some "0" ∧
    (New 0 []).Format (fun _ => true) ⟨false, false, false, true, false, some 4, some 1⟩ Verb.s
      = some "0" := by
  constructor
  · rw [Format_s_at _ _ _ "B" 0 (by decide)
      (float64_at 0 [] _ 0 (by norm_num) (by decide) (by norm_num))]
    decide!
  · rw [Format_s_at _ _ _ "B" 0 (by decide)
      (float64_at 0 [] _ 0 (by norm_num) (by decide) (by norm_num))]
    decide!

/-- C21, amended: for every raw count, name table from `New`, verb of `v`, `f`,
`d` with any precision or `s` without a precision, flags `+` and `#` and width
`w`, with the flag `-` set and the flag space unset, whether or not `0` is set:
`Format` writes the token and then `w - n` spaces (none when `w ≤ n`), where the
token is the output of the same directive without a width and `n` its length
in characters. -/
theorem C21_minus_pads_right (isPrint : Char → Bool) (v : Nat) (n : List String) (c : Verb)
    (pl sh ze : Bool) (p : Option Nat) (w : Nat)
    (hc : c = Verb.v ∨ c = Verb.s ∨ c = Verb.f ∨ c = Verb.d) (hp : c = Verb.s → p = none) :
    ∃ token : String,
      (New v n).Format isPrint ⟨pl, sh, false, true, ze, none, p⟩ c = some token ∧
      (New v n).Format isPrint ⟨pl, sh, false, true, ze, some w, p⟩ c
        = some (token ++ String.mk (List.replicate (w - token.length) ' ')) ∧
      (w ≤ token.length →
        (New v n).Format isPrint ⟨pl, sh, false, true, ze, some w, p⟩ c = some token) := by
  obtain ⟨u, hu⟩ := New_name v n
  obtain ⟨val, hval⟩ := valueText_some (New v n) ⟨pl, sh, false, true, ze, none, p⟩ c
  have hq : c ≠ Verb.q := by
    rcases hc with h | h | h | h <;> rw [h] <;> decide
  have h1 : (New v n).Format isPrint ⟨pl, sh, false, true, ze, none, p⟩ c
      = some (val ++ u) := by
    rw [Format_token isPrint _ _ c u hu hq hp, hval]
    rfl
  have h2 : (New v n).Format isPrint ⟨pl, sh, false, true, ze, some w, p⟩ c
      = some ((val ++ u) ++ String.mk (List.replicate (w - (val ++ u).length) ' ')) := by
    rw [Format_token isPrint _ _ c u hu hq hp,
      valueText_flags _ ⟨pl, sh, false, true, ze, some w, p⟩
        ⟨pl, sh, false, true, ze, none, p⟩ c rfl rfl rfl, hval]
    show some (sprintfS ⟨true, false, some w⟩ (val ++ sprintfS ⟨false, false, none⟩ u)) = _
    rw [sprintfS_none, sprintfS_right]
  refine ⟨val ++ u, h1, h2, ?_⟩
  intro hw
  rw [h2, Nat.sub_eq_zero_of_le hw]
  congr 1
  apply String.ext
  simp

/-- C21, at the count 0 with the verb `v` and the width 3: with the flag `-`,
and with the flags `-` and `0`, the output is 0B and a space. -/
theorem C21_minus_pads_right_witness :
    (New 0 []).Format (fun _ => true) ⟨false, false, false, true, false, some 3, none⟩ Verb.v
      = some "0B " ∧
    (New 0 []).Format (fun _ => true) ⟨false, false, false, true, true, some 3, none⟩ Verb.v
      = some "0B " := by
  have hv : ∀ ze : Bool, (New 0 []).Format (fun _ => true)
      ⟨false, false, false, true, ze, none, none⟩ Verb.v = some "0B" := by
    intro ze
    rw [Format_numeric_at _ _ _ _ "B" 0 (by decide)
      (float64_at 0 [] _ 0 (by norm_num) (by decide) (by norm_num)) (by decide) (by decide)]
    cases ze <;> decide!
  constructor
  · obtain ⟨token, h1, h2, -⟩ := C21_minus_pads_right (fun _ => true) 0 [] Verb.v false false
      false none 3 (Or.inl rfl) (by decide)
    rw [hv false] at h1
    cases h1
    rw [h2]
    decide
  · obtain ⟨token, h1, h2, -⟩ := C21_minus_pads_right (fun _ => true) 0 [] Verb.v false false
      true none 3 (Or.inl rfl) (by decide)
    rw [hv true] at h1
    cases h1
    rw [h2]
    decide

/-- C22 (the claim fails): with the verb `s`, the flag `0`, the precision 1 and
the width 4, `Format` writes the count 0 as the one character 0, the padded
token 000B cut to one character, as it does without a width: no zero precedes
the token. -/
theorem C22_s_precision_cuts_padding :
    (New 0 []).Format (fun _ => true) ⟨false, false, false, false, true, none, some 1⟩ Verb.s
      = some "0" ∧
    (New 0 []).Format (fun _ => true) ⟨false, false, false, false, true, some 4, some 1⟩ Verb.s
      = some "0" ∧
    (New 0 []).Format (fun _ => true) ⟨false, false, false, false, true, some 4, some 1⟩ Verb.s
      ≠ some "0000" := by
  have h2 : (New 0 []).Format (fun _ => true)
      ⟨false, false, false, false, true, some 4, some 1⟩ Verb.s = some "0" := by
    rw [Format_s_at _ _ _ "B" 0 (by decide)
      (float64_at 0 [] _ 0 (by norm_num) (by decide) (by norm_num))]
    decide!
  refine ⟨?_, h2, ?_⟩
  · rw [Format_s_at _ _ _ "B" 0 (by decide)
      (float64_at 0 [] _ 0 (by norm_num) (by decide) (by norm_num))]
    decide!
  · rw [h2]
    decide

/-- C22, amended: for every raw count, name table from `New`, verb of `v`, `f`,
`d` with any precision or `s` without a precision, flags `+` and `#` and width
`w`, with the flag `0` set and neither `-` nor space set: `Format` writes
`w - n` characters 0 (none when `w ≤ n`) and then the whole token, sign
included, where the token is the output of the same directive without a width
and `n` its length in characters. -/
theorem C22_zero_pads_left (isPrint : Char → Bool) (v : Nat) (n : List String) (c : Verb)
    (pl sh : Bool) (p : Option Nat) (w : Nat)
    (hc : c = Verb.v ∨ c = Verb.s ∨ c = Verb.f ∨ c = Verb.d) (hp : c = Verb.s → p = none) :
    ∃ token : String,
      (New v n).Format isPrint ⟨pl, sh, false, false, true, none, p⟩ c = some token ∧
      (New v n).Format isPrint ⟨pl, sh, false, false, true, some w, p⟩ c
        = some (String.mk (List.replicate (w - token.length) '0') ++ token) ∧
      (w ≤ token.length →
        (New v n).Format isPrint ⟨pl, sh, false, false, true, some w, p⟩ c = some token) := by
  obtain ⟨u, hu⟩ := New_name v n
  obtain ⟨val, hval⟩ := valueText_some (New v n) ⟨pl, sh, false, false, true, none, p⟩ c
  have hq : c ≠ Verb.q := by
    rcases hc with h | h | h | h <;> rw [h] <;> decide
  have h1 : (New v n).Format isPrint ⟨pl, sh, false, false, true, none, p⟩ c
      = some (val ++ u) := by
    rw [Format_token isPrint _ _ c u hu hq hp, hval]
    rfl
  have h2 : (New v n).Format isPrint ⟨pl, sh, false, false, true, some w, p⟩ c
      = some (String.mk (List.replicate (w - (val ++ u).length) '0') ++ (val ++ u)) := by
    rw [Format_token isPrint _ _ c u hu hq hp,
      valueText_flags _ ⟨pl, sh, false, false, true, some w, p⟩
        ⟨pl, sh, false, false, true, none, p⟩ c rfl rfl rfl, hval]
    show some (sprintfS ⟨false, true, some w⟩ (val ++ sprintfS ⟨false, false, none⟩ u)) = _
    rw [sprintfS_none, sprintfS_zero]
  refine ⟨val ++ u, h1, h2, ?_⟩
  intro hw
  rw [h2, Nat.sub_eq_zero_of_le hw]
  rfl

/-- C22, at the examples of the claim: `%03v` of 0 gives 00B, `%011v` of 1128
gives 01.1015625K, `%04.2d` of 1 gives 001B; and `%+05d` of 1024 gives 00+1K,
the zeros before the sign. -/
theorem C22_zero_pads_left_witness :
    (New 0 []).Format (fun _ => true) ⟨false, false, false, false, true, some 3, none⟩ Verb.v
      = some "00B" ∧
    (New 1128 []).Format (fun _ => true) ⟨false, false, false, false, true, some 11, none⟩ Verb.v
      = some "01.1015625K" ∧
    (New 1 []).Format (fun _ => true) ⟨false, false, false, false, true, some 4, some 2⟩ Verb.d
      = some "001B" ∧
    (New 1024 []).Format (fun _ => true) ⟨true, false, false, false, true, some 5, none⟩ Verb.d
      = some "00+1K" := by
  refine ⟨?_, ?_, ?_, ?_⟩
  · obtain ⟨token, h1, h2, -⟩ := C22_zero_pads_left (fun _ => true) 0 [] Verb.v false false
      none 3 (Or.inl rfl) (by decide)
    rw [Format_numeric_at _ _ _ _ "B" 0 (by decide)
      (float64_at 0 [] _ 0 (by norm_num) (by decide) (by norm_num)) (by decide) (by decide)] at h1
    have h3 : some "0B" = some token := by
      rw [← h1]
      decide!
    cases h3
    rw [h2]
    decide
  · obtain ⟨token, h1, h2, -⟩ := C22_zero_pads_left (fun _ => true) 1128 [] Verb.v false false
      none 11 (Or.inl rfl) (by decide)
    rw [Format_numeric_at _ _ _ _ "K" (141 / 128) (by decide)
      (float64_at 1128 [] _ 1 (by norm_num) (by decide) (by norm_num)) (by decide)
      (by decide)] at h1
    have h3 : some "1.1015625K" = some token := by
      rw [← h1]
      decide!
    cases h3
    rw [h2]
    decide
  · obtain ⟨token, h1, h2, -⟩ := C22_zero_pads_left (fun _ => true) 1 [] Verb.d false false
      (some 2) 4 (Or.inr (Or.inr (Or.inr rfl))) (by decide)
    rw [Format_numeric_at _ _ _ _ "B" 1 (by decide)
      (float64_at 1 [] _ 0 (by norm_num) (by decide) (by norm_num)) (by decide) (by decide)] at h1
    have h3 : some "01B" = some token := by
      rw [← h1]
      decide!
    cases h3
    rw [h2]
    decide
  · obtain ⟨token, h1, h2, -⟩ := C22_zero_pads_left (fun _ => true) 1024 [] Verb.d true false
      none 5 (Or.inr (Or.inr (Or.inr rfl))) (by decide)
    rw [Format_numeric_at _ _ _ _ "K" 1 (by decide)
      (float64_at 1024 [] _ 1 (by norm_num) (by decide) (by norm_num)) (by decide)
      (by decide)] at h1
    have h3 : some "+1K" = some token := by
      rw [← h1]
      decide!
    cases h3
    rw [h2]
    decide

/-! ## The flags `+` and `#` on the value part -/

theorem rounded_eq_zero (b : Bytes) :
    toInt64 (mathRound b.float64) = 0 ↔ b.Value = 0 := by
  have hx := float64_nonneg b
  rw [toInt64_mathRound _ hx]
  constructor
  · intro h0
    by_contra hv
    have h1 := float64_ge_one b (Nat.pos_of_ne_zero hv)
    have h2 : (1 : ℤ) ≤ ⌊b.float64 + 1 / 2⌋ := Int.le_floor.mpr (by push_cast; linarith)
    omega
  · intro hv
    rw [float64_zero b hv]
    norm_num

theorem rounded_nonneg (b : Bytes) : ¬ (toInt64 (mathRound b.float64) < 0) := by
  have hx := float64_nonneg b
  rw [toInt64_mathRound _ hx]
  exact not_lt.mpr (Int.floor_nonneg.mpr (by linarith))

theorem valueText_plus (b : Bytes) (sh sp mi ze : Bool) (w p : Option Nat) (c : Verb)
    (hc : c = Verb.d ∨ c = Verb.f) (h0 : ¬ (c = Verb.d ∧ p = some 0 ∧ b.Value = 0)) :
    ∃ val : String, b.valueText ⟨false, sh, sp, mi, ze, w, p⟩ c = some val ∧
      b.valueText ⟨true, sh, sp, mi, ze, w, p⟩ c = some ("+" ++ val) := by
  have hx := float64_nonneg b
  have hneg : ¬ (b.float64 < 0) := not_lt.mpr hx
  rcases hc with h | h
  · subst h
    have hz : ¬ (p = some 0 ∧ toInt64 (mathRound b.float64) = 0) := by
      rw [rounded_eq_zero]
      intro h
      exact h0 ⟨rfl, h⟩
    unfold Bytes.valueText
    rw [if_neg (by decide), if_pos rfl, if_neg (by decide), if_pos rfl]
    unfold sprintfInt valueFormat
    simp only [if_neg hz]
    refine ⟨_, rfl, ?_⟩
    congr 1
    apply String.ext
    simp [signChars, rounded_nonneg b]
  · subst h
    unfold Bytes.valueText
    rw [if_neg (by decide), if_neg (by decide), if_neg (by decide), if_neg (by decide)]
    unfold sprintfFloat valueFormat
    simp only
    refine ⟨_, rfl, ?_⟩
    congr 1
    apply String.ext
    simp [signChars, hneg]

/-- C23: for every raw count, every name table from `New` and the verbs `d` and
`f`, with no width and any setting of the flags `#`, space, `-`, `0` and of the
precision: `Format` with the flag `+` writes the character `+` followed by the
output of the same directive without the flag `+`.  The one directive left
out is the verb `d` with the precision 0 at the count 0, where no digit and no
sign are written. -/
theorem C23_plus_sign (isPrint : Char → Bool) (v : Nat) (n : List String) (c : Verb)
    (sh sp mi ze : Bool) (p : Option Nat) (hc : c = Verb.d ∨ c = Verb.f)
    (h0 : ¬ (c = Verb.d ∧ p = some 0 ∧ v = 0)) :
    ∃ out : String,
      (New v n).Format isPrint ⟨false, sh, sp, mi, ze, none, p⟩ c = some out ∧
      (New v n).Format isPrint ⟨true, sh, sp, mi, ze, none, p⟩ c = some ("+" ++ out) := by
  obtain ⟨u, hu⟩ := New_name v n
  obtain ⟨val, h1, h2⟩ := valueText_plus (New v n) sh sp mi ze none p c hc
    (by rw [New_Value]; exact h0)
  have hs : c ≠ Verb.s := by rcases hc with h | h <;> rw [h] <;> decide
  have hq : c ≠ Verb.q := by rcases hc with h | h <;> rw [h] <;> decide
  rw [Format_numeric isPrint _ _ c u hu hs hq, Format_numeric isPrint _ _ c u hu hs hq, h1, h2]
  refine ⟨_, rfl, ?_⟩
  cases sp
  · show some (("+" ++ val) ++ u) = some ("+" ++ (val ++ u))
    rw [String.append_assoc]
  · show some (("+" ++ val) ++ sprintfS ⟨false, false, some (u.length + 1)⟩ u)
      = some ("+" ++ (val ++ sprintfS ⟨false, false, some (u.length + 1)⟩ u))
    rw [String.append_assoc]

/-- C23, at the examples of the claim: `%+d` gives +0B for 0 and +1K for 1024,
`%+f` of 0 gives +0.000000B. -/
theorem C23_plus_sign_witness :
    (New 0 []).Format (fun _ => true) ⟨true, false, false, false, false, none, none⟩ Verb.d
      = some "+0B" ∧
    (New 1024 []).Format (fun _ => true) ⟨true, false, false, false, false, none, none⟩ Verb.d
      = some "+1K" ∧
    (New 0 []).Format (fun _ => true) ⟨true, false, false, false, false, none, none⟩ Verb.f
      = some "+0.000000B" := by
  refine ⟨?_, ?_, ?_⟩
  · obtain ⟨out, h1, h2⟩ := C23_plus_sign (fun _ => true) 0 [] Verb.d false false false false
      none (Or.inl rfl) (by decide)
    rw [Format_numeric_at _ _ _ _ "B" 0 (by decide)
      (float64_at 0 [] _ 0 (by norm_num) (by decide) (by norm_num)) (by decide) (by decide)] at h1
    have h3 : some "0B" = some out := by
      rw [← h1]
      decide!
    cases h3
    rw [h2]
    decide
  · obtain ⟨out, h1, h2⟩ := C23_plus_sign (fun _ => true) 1024 [] Verb.d false false false false
      none (Or.inl rfl) (by decide)
    rw [Format_numeric_at _ _ _ _ "K" 1 (by decide)
      (float64_at 1024 [] _ 1 (by norm_num) (by decide) (by norm_num)) (by decide)
      (by decide)] at h1
    have h3 : some "1K" = some out := by
      rw [← h1]
      decide!
    cases h3
    rw [h2]
    decide
  · obtain ⟨out, h1, h2⟩ := C23_plus_sign (fun _ => true) 0 [] Verb.f false false false false
      none (Or.inr rfl) (by decide)
    rw [Format_numeric_at _ _ _ _ "B" 0 (by decide)
      (float64_at 0 [] _ 0 (by norm_num) (by decide) (by norm_num)) (by decide) (by decide)] at h1
    have h3 : some "0.000000B" = some out := by
      rw [← h1]
      decide!
    cases h3
    rw [h2]
    decide

/-! ## The characters of a rendering -/

theorem digitChar_number (d : Nat) (h : d < 10) : numberChar (Nat.digitChar d) := by
  unfold numberChar
  interval_cases d <;> decide

theorem toDigitsCore_number (fuel : Nat) :
    ∀ (n : Nat) (acc : List Char), (∀ r ∈ acc, numberChar r) →
      ∀ r ∈ Nat.toDigitsCore 10 fuel n acc, numberChar r := by
  induction fuel with
  | zero =>
    intro n acc hacc r hr
    exact hacc r hr
  | succ k ih =>
    intro n acc hacc r hr
    have hcons : ∀ r ∈ Nat.digitChar (n % 10) :: acc, numberChar r := by
      intro r hr
      rcases List.mem_cons.mp hr with h | h
      · rw [h]
        exact digitChar_number _ (Nat.mod_lt _ (by norm_num))
      · exact hacc r h
    unfold Nat.toDigitsCore at hr
    simp only at hr
    split_ifs at hr
    · exact hcons r hr
    · exact ih _ _ hcons r hr

theorem toDigits_number (n : Nat) : ∀ r ∈ Nat.toDigits 10 n, numberChar r := by
  unfold Nat.toDigits
  exact toDigitsCore_number _ _ _ (by simp)

theorem zero_number : numberChar '0' := by
  unfold numberChar
  decide

theorem getD_number (ds : List Char) (h : ∀ r ∈ ds, numberChar r) (i : Nat) :
    numberChar (ds.getD i '0') := by
  rw [List.getD_eq_getElem?_getD]
  cases hi : ds[i]? with
  | none => exact zero_number
  | some a => exact h a (List.getElem?_mem hi)

theorem fmtF_number (ds : List Char) (dp : Int) (prec : Nat) (h : ∀ r ∈ ds, numberChar r) :
    ∀ r ∈ fmtF ds dp prec, numberChar r := by
  intro r hr
  unfold fmtF at hr
  simp only [List.mem_append] at hr
  rcases hr with hr | hr
  · split_ifs at hr
    · rcases List.mem_append.mp hr with h1 | h1
      · exact h r (List.mem_of_mem_take h1)
      · rw [(List.mem_replicate.mp h1).2]
        exact zero_number
    · rw [List.mem_singleton.mp hr]
      exact zero_number
  · split_ifs at hr
    · rcases List.mem_cons.mp hr with h1 | h1
      · rw [h1]
        unfold numberChar
        decide
      · obtain ⟨i, -, hi⟩ := List.mem_map.mp h1
        rw [← hi]
        split_ifs
        · exact getD_number ds h _
        · exact zero_number
    · simp at hr

theorem fmtE_number (ds : List Char) (dp : Int) (prec : Nat) (h : ∀ r ∈ ds, numberChar r) :
    ∀ r ∈ fmtE ds dp prec, numberChar r := by
  intro r hr
  unfold fmtE at hr
  simp only [List.cons_append, List.mem_cons, List.mem_append] at hr
  rcases hr with hr | hr | hr | hr | hr
  · rw [hr]
    exact getD_number ds h 0
  · split_ifs at hr
    · rcases List.mem_cons.mp hr with h1 | h1
      · rw [h1]
        unfold numberChar
        decide
      · rcases List.mem_append.mp h1 with h2 | h2
        · exact h r (List.mem_of_mem_drop (List.mem_of_mem_take h2))
        · rw [(List.mem_replicate.mp h2).2]
          exact zero_number
    · simp at hr
  · rw [hr]
    unfold numberChar
    decide
  · rw [hr]
    split_ifs <;> unfold numberChar <;> decide
  · have hcons : ∀ k : Nat, r ∈ '0' :: Nat.toDigits 10 k → numberChar r := by
      intro k hk
      rcases List.mem_cons.mp hk with h1 | h1
      · rw [h1]
        exact zero_number
      · exact toDigits_number _ r h1
    split_ifs at hr
    all_goals first | exact toDigits_number _ r hr | exact hcons _ hr

theorem shortestDecimal_number (x : ℚ) : ∀ r ∈ (shortestDecimal x).1, numberChar r := by
  unfold shortestDecimal
  split_ifs
  · simp
  · exact toDigits_number _

theorem fmtFloatV_number (x : ℚ) : ∀ r ∈ (fmtFloatV x).data, numberChar r := by
  intro r hr
  unfold fmtFloatV at hr
  simp only [List.mem_append] at hr
  rcases hr with hr | hr
  · split_ifs at hr
    · rw [List.mem_singleton.mp hr]
      unfold numberChar
      decide
    · simp at hr
  · split_ifs at hr
    · exact fmtE_number _ _ _ (shortestDecimal_number _) r hr
    · exact fmtF_number _ _ _ (shortestDecimal_number _) r hr

theorem sprintfS_chars (sf : StringFormat) (s : String) :
    ∀ r ∈ (sprintfS sf s).data, r ∈ s.data ∨ r = ' ' ∨ r = '0' := by
  intro r hr
  obtain ⟨mi, ze, w⟩ := sf
  cases w with
  | none => exact Or.inl hr
  | some w =>
    cases mi <;> cases ze <;> simp [sprintfS, List.mem_replicate] at hr <;> tauto

/-- Every character of the string that `Format` hands to the last `Sprintf` under
the verbs `s` and `q` is a character of a number, a character of the unit name,
a space or a zero. -/
theorem token_chars (P : Char → Prop) (hs : P ' ') (hz : P '0')
    (hnum : ∀ r, numberChar r → P r) (q : ℚ) (u : String) (hu : ∀ r ∈ u.data, P r)
    (pf : Option StringFormat) (uf : StringFormat) (p : Option Nat) :
    ∀ r ∈ (truncateString p (applyPad pf (fmtFloatV q ++ sprintfS uf u))).data, P r := by
  have h1 : ∀ r ∈ (sprintfS uf u).data, P r := by
    intro r hr
    rcases sprintfS_chars uf u r hr with h | h | h
    · exact hu r h
    · rw [h]; exact hs
    · rw [h]; exact hz
  have h2 : ∀ r ∈ (fmtFloatV q ++ sprintfS uf u).data, P r := by
    intro r hr
    rw [String.data_append] at hr
    rcases List.mem_append.mp hr with h | h
    · exact hnum r (fmtFloatV_number q r h)
    · exact h1 r h
  have h3 : ∀ r ∈ (applyPad pf (fmtFloatV q ++ sprintfS uf u)).data, P r := by
    intro r hr
    cases pf with
    | none => exact h2 r hr
    | some sf =>
      rcases sprintfS_chars sf _ r hr with h | h | h
      · exact h2 r h
      · rw [h]; exact hs
      · rw [h]; exact hz
  intro r hr
  cases p with
  | none => exact h3 r hr
  | some k => exact h3 r (List.mem_of_mem_take hr)

/-! ## Quoting -/

theorem escapeRune_self (isPrint : Char → Bool) (a : Bool) (r : Char)
    (h1 : 0x20 ≤ r.toNat) (h2 : r.toNat ≤ 0x7E) (h3 : r.toNat ≠ 34) (h4 : r.toNat ≠ 92) :
    escapeRune isPrint a r = [r] := by
  have hp : isPrintRune isPrint r = true := by
    unfold isPrintRune
    rw [if_pos (by omega)]
    exact decide_eq_true (Or.inl ⟨h1, h2⟩)
  have hlt : decide (r.toNat < 0x80) = true := decide_eq_true (by omega)
  unfold escapeRune
  simp only
  rw [if_neg (by omega)]
  cases a
  · simp only [Bool.false_eq_true, if_false]
    rw [if_pos hp]
  · simp only [if_true]
    rw [if_pos (by rw [hp, hlt]; rfl)]

theorem escapeRune_ascii (isPrint : Char → Bool) (r : Char) (h : r.toNat < 128) :
    escapeRune isPrint true r = escapeRune isPrint false r := by
  have hlt : decide (r.toNat < 0x80) = true := decide_eq_true h
  unfold escapeRune
  simp only [hlt, Bool.true_and, if_true, Bool.false_eq_true, if_false]

theorem flatMap_congr_mem (l : List Char) (f g : Char → List Char)
    (h : ∀ r ∈ l, f r = g r) : l.flatMap f = l.flatMap g := by
  induction l with
  | nil => rfl
  | cons a t ih =>
    rw [List.flatMap_cons, List.flatMap_cons, h a (List.mem_cons_self a t),
      ih (fun r hr => h r (List.mem_cons_of_mem a hr))]

theorem flatMap_self (l : List Char) (f : Char → List Char)
    (h : ∀ r ∈ l, f r = [r]) : l.flatMap f = l := by
  induction l with
  | nil => rfl
  | cons a t ih =>
    rw [List.flatMap_cons, h a (List.mem_cons_self a t),
      ih (fun r hr => h r (List.mem_cons_of_mem a hr))]
    rfl

theorem quote_ascii (isPrint : Char → Bool) (t : String) (h : ∀ r ∈ t.data, r.toNat < 128) :
    quote isPrint true t = quote isPrint false t := by
  unfold quote
  rw [flatMap_congr_mem t.data _ _ (fun r hr => escapeRune_ascii isPrint r (h r hr))]

theorem quote_self (isPrint : Char → Bool) (a : Bool) (t : String)
    (h : ∀ r ∈ t.data, escapeRune isPrint a r = [r]) :
    quote isPrint a t = String.mk (Char.ofNat 34 :: t.data ++ [Char.ofNat 34]) := by
  unfold quote
  rw [flatMap_self t.data _ h]

theorem canBackquote_iff (t : String) :
    canBackquote t = true ↔ ∀ r ∈ t.data,
      ¬ (r.toNat < 0x20 ∧ r.toNat ≠ 9) ∧ r.toNat ≠ 96 ∧ r.toNat ≠ 0x7F ∧ r.toNat ≠ 0xFEFF := by
  unfold canBackquote
  rw [List.all_eq_true]
  constructor
  · intro h r hr
    have := h r hr
    simp only [Bool.not_eq_true', Bool.or_eq_false_iff, decide_eq_false_iff_not] at this
    tauto
  · intro h r hr
    have := h r hr
    simp only [Bool.not_eq_true', Bool.or_eq_false_iff, decide_eq_false_iff_not]
    tauto

theorem number_escape (isPrint : Char → Bool) (a : Bool) (r : Char) (h : numberChar r) :
    escapeRune isPrint a r = [r] := by
  unfold numberChar at h
  exact escapeRune_self isPrint a r (by omega) (by omega) (by omega) (by omega)

/-! ## The flag `+` under the verbs `v`, `s` and `q` -/

theorem Format_q_at (isPrint : Char → Bool) (b : Bytes) (f : State) (u : String) (q : ℚ)
    (hn : b.name = some u) (hq : b.float64 = q) :
    b.Format isPrint f Verb.q =
      sprintfString isPrint (valueFormat f Verb.q)
        (applyPad (padFormat f) (fmtFloatV q ++ sprintfS (unitFormat f u.length) u)) := by
  rw [Format_string isPrint b f Verb.q u hn (Or.inr rfl), hq]

theorem sprintfString_q (isPrint : Char → Bool) (pl sh : Bool) (p : Option Nat) (s : String) :
    sprintfString isPrint ⟨pl, sh, p, Verb.q⟩ s =
      some (if sh = true ∧ canBackquote (truncateString p s) = true
        then String.mk (Char.ofNat 96 :: (truncateString p s).data ++ [Char.ofNat 96])
        else quote isPrint pl (truncateString p s)) := by
  unfold sprintfString
  simp only
  split_ifs <;> rfl

/-- The outputs of `Format` for the verbs `s` and `q` under one width, one
precision and one setting of the flags space, `-`, `0`: the verb `s` writes a
string `X` whatever the flags `+` and `#` are, made of characters of a number,
characters of the unit name, spaces and zeros, and the verb `q` writes `X`
between backquotes under the flag `#` when `X` can be backquoted, and
otherwise `X` quoted, in ASCII under the flag `+`. -/
theorem Format_sq (isPrint : Char → Bool) (b : Bytes) (sp mi ze : Bool) (w p : Option Nat)
    (u : String) (hn : b.name = some u) :
    ∃ X : String,
      (∀ P : Char → Prop, P ' ' → P '0' → (∀ r, numberChar r → P r) → (∀ r ∈ u.data, P r) →
        ∀ r ∈ X.data, P r) ∧
      (∀ pl sh : Bool, b.Format isPrint ⟨pl, sh, sp, mi, ze, w, p⟩ Verb.s = some X) ∧
      (∀ pl sh : Bool, b.Format isPrint ⟨pl, sh, sp, mi, ze, w, p⟩ Verb.q =
        some (if sh = true ∧ canBackquote X = true
          then String.mk (Char.ofNat 96 :: X.data ++ [Char.ofNat 96])
          else quote isPrint pl X)) := by
  refine ⟨truncateString p (applyPad (padFormat ⟨false, false, sp, mi, ze, w, p⟩)
    (fmtFloatV b.float64
      ++ sprintfS (unitFormat ⟨false, false, sp, mi, ze, w, p⟩ u.length) u)), ?_, ?_, ?_⟩
  · intro P hs hz hnum hu
    exact token_chars P hs hz hnum _ u hu _ _ p
  · intro pl sh
    rw [Format_s_at isPrint b _ u _ hn rfl]
    rfl
  · intro pl sh
    rw [Format_q_at isPrint b _ u _ hn rfl]
    exact sprintfString_q isPrint pl sh p _

/-- C24 (the claim fails): with the unit name é (U+00E9) for the tier 0, the verb
`q` writes the count 0 as 0é between double quotes, and with the flag `+` as
the escape sequence of é, a backslash and u00e9, after the 0 between double
quotes: under `+` the package `fmt` quotes with `strconv.QuoteToASCII`. -/
theorem C24_plus_q_escapes :
    (New 0 [String.mk [Char.ofNat 233]]).Format (fun _ => true)
        ⟨false, false, false, false, false, none, none⟩ Verb.q
      = some (String.mk [Char.ofNat 34, '0', Char.ofNat 233, Char.ofNat 34]) ∧
    (New 0 [String.mk [Char.ofNat 233]]).Format (fun _ => true)
        ⟨true, false, false, false, false, none, none⟩ Verb.q
      = some "\"0\\u00e9\"" := by
  constructor
  · rw [Format_q_at _ _ _ (String.mk [Char.ofNat 233]) 0 (by decide)
      (float64_at 0 _ _ 0 (by norm_num) (by decide) (by norm_num))]
    decide!
  · rw [Format_q_at _ _ _ (String.mk [Char.ofNat 233]) 0 (by decide)
      (float64_at 0 _ _ 0 (by norm_num) (by decide) (by norm_num))]
    decide!

/-- C24, amended: for every raw count, name table from `New`, width, precision
and setting of the flags `#`, space, `-`, `0`, the flag `+` changes nothing in
the output of `Format` for the verbs `v` and `s`, and for the verb `q` when
every character of the unit name of the count is an ASCII character. -/
theorem C24_plus_noop (isPrint : Char → Bool) (v : Nat) (n : List String) (c : Verb)
    (sh sp mi ze : Bool) (w p : Option Nat)
    (hc : c = Verb.v ∨ c = Verb.s ∨ (c = Verb.q ∧
      ∀ u, (New v n).name = some u → ∀ r ∈ u.data, r.toNat < 128)) :
    ∃ out : String,
      (New v n).Format isPrint ⟨false, sh, sp, mi, ze, w, p⟩ c = some out ∧
      (New v n).Format isPrint ⟨true, sh, sp, mi, ze, w, p⟩ c = some out := by
  obtain ⟨u, hu⟩ := New_name v n
  rcases hc with h | h | ⟨h, hascii⟩
  · subst h
    obtain ⟨val, hval⟩ := valueText_some (New v n) ⟨false, sh, sp, mi, ze, w, p⟩ Verb.v
    have hval2 : (New v n).valueText ⟨true, sh, sp, mi, ze, w, p⟩ Verb.v = some val := by
      rw [← hval]
      rfl
    rw [Format_numeric isPrint _ _ _ u hu (by decide) (by decide),
      Format_numeric isPrint _ _ _ u hu (by decide) (by decide), hval, hval2]
    exact ⟨_, rfl, rfl⟩
  · subst h
    rw [Format_s_at isPrint _ _ u _ hu rfl, Format_s_at isPrint _ _ u _ hu rfl]
    exact ⟨_, rfl, rfl⟩
  · subst h
    obtain ⟨X, hchars, -, hq⟩ := Format_sq isPrint (New v n) sp mi ze w p u hu
    have hX : ∀ r ∈ X.data, r.toNat < 128 := by
      refine hchars (fun r => r.toNat < 128) (by decide) (by decide) ?_ (hascii u hu)
      intro r hr
      unfold numberChar at hr
      omega
    rw [hq false sh, hq true sh, quote_ascii isPrint X hX]
    exact ⟨_, rfl, rfl⟩

/-- C24, at the count 0 with the default names: `%q` and `%+q` both give 0B
between double quotes. -/
theorem C24_plus_noop_witness :
    (New 0 []).Format (fun _ => true) ⟨false, false, false, false, false, none, none⟩ Verb.q
      = some "\"0B\"" ∧
    (New 0 []).Format (fun _ => true) ⟨true, false, false, false, false, none, none⟩ Verb.q
      = some "\"0B\"" := by
  have hn : (New 0 []).name = some "B" := by decide
  obtain ⟨out, h1, h2⟩ := C24_plus_noop (fun _ => true) 0 [] Verb.q false false false false
    none none (Or.inr (Or.inr ⟨rfl, by
      intro u hu
      rw [hn] at hu
      cases hu
      decide⟩))
  have h0 : (New 0 []).Format (fun _ => true)
      ⟨false, false, false, false, false, none, none⟩ Verb.q = some "\"0B\"" := by
    rw [Format_q_at _ _ _ "B" 0 (by decide)
      (float64_at 0 [] _ 0 (by norm_num) (by decide) (by norm_num))]
    decide!
  rw [h0] at h1
  cases h1
  exact ⟨h0, h2⟩

/-! ## The flag `#` -/

theorem valueText_sharp (b : Bytes) (pl sp mi ze : Bool) (w p : Option Nat) (c : Verb)
    (hc : c = Verb.v ∨ c = Verb.s ∨ c = Verb.d ∨ (c = Verb.f ∧ p ≠ some 0)) :
    b.valueText ⟨pl, true, sp, mi, ze, w, p⟩ c = b.valueText ⟨pl, false, sp, mi, ze, w, p⟩ c := by
  rcases hc with h | h | h | ⟨h, hp⟩
  · subst h
    rfl
  · subst h
    rfl
  · subst h
    rfl
  · subst h
    have hp6 : ¬ (p.getD 6 = 0) := by
      cases p with
      | none => decide
      | some k =>
        intro hk
        exact hp (by rw [show k = 0 from hk])
    unfold Bytes.valueText
    rw [if_neg (by decide), if_neg (by decide), if_neg (by decide), if_neg (by decide)]
    unfold sprintfFloat valueFormat
    simp only [hp6, and_false, if_false]

/-- C25 (the claim fails): with the verb `f` and the precision 0, the count
1024 is written 1K without the flag `#` and 1.K with it: under `#` the package
`fmt` prints the decimal point also when no digit follows. -/
theorem C25_sharp_point :
    (New 1024 []).Format (fun _ => true) ⟨false, false, false, false, false, none, some 0⟩ Verb.f
      = some "1K" ∧
    (New 1024 []).Format (fun _ => true) ⟨false, true, false, false, false, none, some 0⟩ Verb.f
      = some "1.K" := by
  constructor
  · rw [Format_numeric_at _ _ _ _ "K" 1 (by decide)
      (float64_at 1024 [] _ 1 (by norm_num) (by decide) (by norm_num)) (by decide) (by decide)]
    decide!
  · rw [Format_numeric_at _ _ _ _ "K" 1 (by decide)
      (float64_at 1024 [] _ 1 (by norm_num) (by decide) (by norm_num)) (by decide) (by decide)]
    decide!

/-- C25, amended: for every raw count, name table from `New`, width, precision
and setting of the flags `+`, space, `-`, `0`, the flag `#` changes nothing in
the output of `Format` for the verbs `v`, `s` and `d`, and for the verb `f`
unless the precision is 0. -/
theorem C25_sharp_noop (isPrint : Char → Bool) (v : Nat) (n : List String) (c : Verb)
    (pl sp mi ze : Bool) (w p : Option Nat)
    (hc : c = Verb.v ∨ c = Verb.s ∨ c = Verb.d ∨ (c = Verb.f ∧ p ≠ some 0)) :
    ∃ out : String,
      (New v n).Format isPrint ⟨pl, false, sp, mi, ze, w, p⟩ c = some out ∧
      (New v n).Format isPrint ⟨pl, true, sp, mi, ze, w, p⟩ c = some out := by
  obtain ⟨u, hu⟩ := New_name v n
  by_cases hs : c = Verb.s
  · subst hs
    rw [Format_s_at isPrint _ _ u _ hu rfl, Format_s_at isPrint _ _ u _ hu rfl]
    exact ⟨_, rfl, rfl⟩
  · have hq : c ≠ Verb.q := by
      rcases hc with h | h | h | ⟨h, -⟩ <;> rw [h] <;> decide
    obtain ⟨val, hval⟩ := valueText_some (New v n) ⟨pl, false, sp, mi, ze, w, p⟩ c
    rw [Format_numeric isPrint _ _ c u hu hs hq, Format_numeric isPrint _ _ c u hu hs hq,
      valueText_sharp _ pl sp mi ze w p c hc, hval]
    exact ⟨_, rfl, rfl⟩

/-- C25, at the count 1128 with the verb `f`: `%#f` and `%f` both give
1.101562K. -/
theorem C25_sharp_noop_witness :
    (New 1128 []).Format (fun _ => true) ⟨false, false, false, false, false, none, none⟩ Verb.f
      = some "1.101562K" ∧
    (New 1128 []).Format (fun _ => true) ⟨false, true, false, false, false, none, none⟩ Verb.f
      = some "1.101562K" := by
  obtain ⟨out, h1, h2⟩ := C25_sharp_noop (fun _ => true) 1128 [] Verb.f false false false false
    none none (Or.inr (Or.inr (Or.inr ⟨rfl, by decide⟩)))
  have h0 : (New 1128 []).Format (fun _ => true)
      ⟨false, false, false, false, false, none, none⟩ Verb.f = some "1.101562K" := by
    rw [Format_numeric_at _ _ _ _ "K" (141 / 128) (by decide)
      (float64_at 1128 [] _ 1 (by norm_num) (by decide) (by norm_num)) (by decide) (by decide)]
    decide!
  rw [h0] at h1
  cases h1
  exact ⟨h0, h2⟩

/-! ## The verb `q` -/

/-- C26 (the claim fails): with a double quote as the unit name for the tier 0,
the verb `s` writes the count 0 as 0 and a double quote, and the verb `q`
writes, between double quotes, 0, a backslash and a double quote: five
characters, not the output of `s` between double quotes. -/
theorem C26_quote_in_name :
    (New 0 [String.mk [Char.ofNat 34]]).Format (fun _ => true)
        ⟨false, false, false, false, false, none, none⟩ Verb.s
      = some (String.mk ['0', Char.ofNat 34]) ∧
    (New 0 [String.mk [Char.ofNat 34]]).Format (fun _ => true)
        ⟨false, false, false, false, false, none, none⟩ Verb.q
      = some (String.mk [Char.ofNat 34, '0', Char.ofNat 92, Char.ofNat 34, Char.ofNat 34]) ∧
    (New 0 [String.mk [Char.ofNat 34]]).Format (fun _ => true)
        ⟨false, false, false, false, false, none, none⟩ Verb.q
      ≠ some (String.mk (Char.ofNat 34 :: ['0', Char.ofNat 34] ++ [Char.ofNat 34])) := by
  have hq : (New 0 [String.mk [Char.ofNat 34]]).Format (fun _ => true)
      ⟨false, false, false, false, false, none, none⟩ Verb.q
      = some (String.mk [Char.ofNat 34, '0', Char.ofNat 92, Char.ofNat 34, Char.ofNat 34]) := by
    rw [Format_q_at _ _ _ (String.mk [Char.ofNat 34]) 0 (by decide)
      (float64_at 0 _ _ 0 (by norm_num) (by decide) (by norm_num))]
    decide!
  refine ⟨?_, hq, ?_⟩
  · rw [Format_s_at _ _ _ (String.mk [Char.ofNat 34]) 0 (by decide)
      (float64_at 0 _ _ 0 (by norm_num) (by decide) (by norm_num))]
    decide!
  · rw [hq]
    decide

/-- C26, amended: for every raw count, name table from `New`, width, precision
and setting of the flags `+`, space, `-`, `0`, with the flag `#` unset: when
every character of the unit name of the count is one that quoting writes as
itself (a printable character other than the double quote and the backslash,
and an ASCII one under the flag `+`), the output of `Format` for the verb `q`
is a double quote, then the output for the verb `s` under the same flags,
width and precision, then a double quote. -/
theorem C26_q_quotes_s (isPrint : Char → Bool) (v : Nat) (n : List String)
    (pl sp mi ze : Bool) (w p : Option Nat) (u : String) (hn : (New v n).name = some u)
    (hu : ∀ r ∈ u.data, escapeRune isPrint pl r = [r]) :
    ∃ sOut : String,
      (New v n).Format isPrint ⟨pl, false, sp, mi, ze, w, p⟩ Verb.s = some sOut ∧
      (New v n).Format isPrint ⟨pl, false, sp, mi, ze, w, p⟩ Verb.q
        = some (String.mk (Char.ofNat 34 :: sOut.data ++ [Char.ofNat 34])) := by
  obtain ⟨X, hchars, hs, hq⟩ := Format_sq isPrint (New v n) sp mi ze w p u hn
  have hX : ∀ r ∈ X.data, escapeRune isPrint pl r = [r] :=
    hchars (fun r => escapeRune isPrint pl r = [r])
      (escapeRune_self isPrint pl ' ' (by decide) (by decide) (by decide) (by decide))
      (escapeRune_self isPrint pl '0' (by decide) (by decide) (by decide) (by decide))
      (number_escape isPrint pl) hu
  refine ⟨X, hs pl false, ?_⟩
  rw [hq pl false, ← quote_self isPrint pl X hX]
  rfl

/-- C26, at the example of the claim: `%3q` of 0 gives, between double quotes,
a space and 0B. -/
theorem C26_q_quotes_s_witness :
    (New 0 []).Format (fun _ => true) ⟨false, false, false, false, false, some 3, none⟩ Verb.s
      = some " 0B" ∧
    (New 0 []).Format (fun _ => true) ⟨false, false, false, false, false, some 3, none⟩ Verb.q
      = some "\" 0B\"" := by
  obtain ⟨sOut, h1, h2⟩ := C26_q_quotes_s (fun _ => true) 0 [] false false false false
    (some 3) none "B" (by decide) (by
      intro r hr
      have hB : r = 'B' := by simpa using hr
      rw [hB]
      decide)
  have h0 : (New 0 []).Format (fun _ => true)
      ⟨false, false, false, false, false, some 3, none⟩ Verb.s = some " 0B" := by
    rw [Format_s_at _ _ _ "B" 0 (by decide)
      (float64_at 0 [] _ 0 (by norm_num) (by decide) (by norm_num))]
    decide!
  rw [h0] at h1
  cases h1
  refine ⟨h0, ?_⟩
  rw [h2]
  decide

/-- C27 (the claim fails): with a backquote as the unit name for the tier 0,
the verb `s` writes the count 0 as 0 and a backquote, and the verb `q` with the
flag `#` writes these two characters between double quotes, not between
backquotes: a string that holds a backquote cannot be backquoted. -/
theorem C27_backquote_in_name :
    (New 0 [String.mk [Char.ofNat 96]]).Format (fun _ => true)
        ⟨false, true, false, false, false, none, none⟩ Verb.s
      = some (String.mk ['0', Char.ofNat 96]) ∧
    (New 0 [String.mk [Char.ofNat 96]]).Format (fun _ => true)
        ⟨false, true, false, false, false, none, none⟩ Verb.q
      = some (String.mk [Char.ofNat 34, '0', Char.ofNat 96, Char.ofNat 34]) ∧
    (New 0 [String.mk [Char.ofNat 96]]).Format (fun _ => true)
        ⟨false, true, false, false, false, none, none⟩ Verb.q
      ≠ some (String.mk (Char.ofNat 96 :: ['0', Char.ofNat 96] ++ [Char.ofNat 96])) := by
  have hq : (New 0 [String.mk [Char.ofNat 96]]).Format (fun _ => true)
      ⟨false, true, false, false, false, none, none⟩ Verb.q
      = some (String.mk [Char.ofNat 34, '0', Char.ofNat 96, Char.ofNat 34]) := by
    rw [Format_q_at _ _ _ (String.mk [Char.ofNat 96]) 0 (by decide)
      (float64_at 0 _ _ 0 (by norm_num) (by decide) (by norm_num))]
    decide!
  refine ⟨?_, hq, ?_⟩
  · rw [Format_s_at _ _ _ (String.mk [Char.ofNat 96]) 0 (by decide)
      (float64_at 0 _ _ 0 (by norm_num) (by decide) (by norm_num))]
    decide!
  · rw [hq]
    decide

/-- C27, amended: for every raw count, name table from `New`, width, precision
and setting of the flags `+`, space, `-`, `0`: when the unit name of the count
can be backquoted (it holds no backquote, no control character other than the
tab and no byte order mark), the output of `Format` for the verb `q` with the
flag `#` is a backquote, then the output for the verb `s` under the same
flags, width and precision, then a backquote, and it is the same with and
without the flag `+`. -/
theorem C27_sharp_q_backquotes (isPrint : Char → Bool) (v : Nat) (n : List String)
    (pl sp mi ze : Bool) (w p : Option Nat) (u : String) (hn : (New v n).name = some u)
    (hu : canBackquote u = true) :
    ∃ sOut : String,
      (New v n).Format isPrint ⟨pl, true, sp, mi, ze, w, p⟩ Verb.s = some sOut ∧
      (New v n).Format isPrint ⟨false, true, sp, mi, ze, w, p⟩ Verb.q
        = some (String.mk (Char.ofNat 96 :: sOut.data ++ [Char.ofNat 96])) ∧
      (New v n).Format isPrint ⟨true, true, sp, mi, ze, w, p⟩ Verb.q
        = some (String.mk (Char.ofNat 96 :: sOut.data ++ [Char.ofNat 96])) := by
  obtain ⟨X, hchars, hs, hq⟩ := Format_sq isPrint (New v n) sp mi ze w p u hn
  have hX : canBackquote X = true := by
    rw [canBackquote_iff]
    refine hchars _ (by decide) (by decide) ?_ ((canBackquote_iff u).mp hu)
    intro r hr
    unfold numberChar at hr
    omega
  refine ⟨X, hs pl true, ?_, ?_⟩
  · rw [hq false true, if_pos ⟨rfl, hX⟩]
  · rw [hq true true, if_pos ⟨rfl, hX⟩]

/-- C27, at the example of the claim: `%#q` of 1128 gives 1.1015625K between
backquotes, and so does `%+#q`. -/
theorem C27_sharp_q_backquotes_witness :
    (New 1128 []).Format (fun _ => true) ⟨false, true, false, false, false, none, none⟩ Verb.q
      = some (String.mk (Char.ofNat 96 :: "1.1015625K".data ++ [Char.ofNat 96])) ∧
    (New 1128 []).Format (fun _ => true) ⟨true, true, false, false, false, none, none⟩ Verb.q
      = some (String.mk (Char.ofNat 96 :: "1.1015625K".data ++ [Char.ofNat 96])) := by
  obtain ⟨sOut, h1, h2, h3⟩ := C27_sharp_q_backquotes (fun _ => true) 1128 [] false false
    false false none none "K" (by decide) (by decide)
  have h0 : (New 1128 []).Format (fun _ => true)
      ⟨false, true, false, false, false, none, none⟩ Verb.s = some "1.1015625K" := by
    rw [Format_s_at _ _ _ "K" (141 / 128) (by decide)
      (float64_at 1128 [] _ 1 (by norm_num) (by decide) (by norm_num))]
    decide!
  rw [h0] at h1
  cases h1
  exact ⟨h2, h3⟩

/-! ## The precision under the verbs `s` and `q` -/

/-- C28 (the claim fails): with the verb `s` the count 1128 is written
1.1015625K without a precision and as the one character 1 with the precision
1; with the verb `q` the same precision leaves the one character 1 between
the quotes. -/
theorem C28_precision_cuts :
    (New 1128 []).Format (fun _ => true) ⟨false, false, false, false, false, none, none⟩ Verb.s
      = some "1.1015625K" ∧
    (New 1128 []).Format (fun _ => true) ⟨false, false, false, false, false, none, some 1⟩
      Verb.s = some "1" ∧
    (New 1128 []).Format (fun _ => true) ⟨false, false, false, false, false, none, none⟩ Verb.q
      = some "\"1.1015625K\"" ∧
    (New 1128 []).Format (fun _ => true) ⟨false, false, false, false, false, none, some 1⟩
      Verb.q = some "\"1\"" := by
  refine ⟨?_, ?_, ?_, ?_⟩
  · rw [Format_s_at _ _ _ "K" (141 / 128) (by decide)
      (float64_at 1128 [] _ 1 (by norm_num) (by decide) (by norm_num))]
    decide!
  · rw [Format_s_at _ _ _ "K" (141 / 128) (by decide)
      (float64_at 1128 [] _ 1 (by norm_num) (by decide) (by norm_num))]
    decide!
  · rw [Format_q_at _ _ _ "K" (141 / 128) (by decide)
      (float64_at 1128 [] _ 1 (by norm_num) (by decide) (by norm_num))]
    decide!
  · rw [Format_q_at _ _ _ "K" (141 / 128) (by decide)
      (float64_at 1128 [] _ 1 (by norm_num) (by decide) (by norm_num))]
    decide!

/-- C28, amended: for every raw count, name table from `New`, flags, width and
precision `p`, the output of `Format` for the verb `s` with the precision `p`
is the first `p` characters of its output without a precision, and the
output for the verb `q` is what `%q` prints, under the same flags `+` and `#`
and without a precision, for those first `p` characters; when `p` is at least
the length of the output of `s` without a precision, the precision changes
nothing for either verb. -/
theorem C28_precision_truncates (isPrint : Char → Bool) (v : Nat) (n : List String)
    (pl sh sp mi ze : Bool) (w : Option Nat) (p : Nat) :
    ∃ full : String,
      (New v n).Format isPrint ⟨pl, sh, sp, mi, ze, w, none⟩ Verb.s = some full ∧
      (New v n).Format isPrint ⟨pl, sh, sp, mi, ze, w, some p⟩ Verb.s
        = some (String.mk (full.data.take p)) ∧
      (New v n).Format isPrint ⟨pl, sh, sp, mi, ze, w, none⟩ Verb.q
        = sprintfString isPrint ⟨pl, sh, none, Verb.q⟩ full ∧
      (New v n).Format isPrint ⟨pl, sh, sp, mi, ze, w, some p⟩ Verb.q
        = sprintfString isPrint ⟨pl, sh, none, Verb.q⟩ (String.mk (full.data.take p)) ∧
      (full.length ≤ p →
        (New v n).Format isPrint ⟨pl, sh, sp, mi, ze, w, some p⟩ Verb.s = some full ∧
        (New v n).Format isPrint ⟨pl, sh, sp, mi, ze, w, some p⟩ Verb.q
          = (New v n).Format isPrint ⟨pl, sh, sp, mi, ze, w, none⟩ Verb.q) := by
  obtain ⟨u, hu⟩ := New_name v n
  obtain ⟨X, hX⟩ : ∃ X : String, X = applyPad (padFormat ⟨pl, sh, sp, mi, ze, w, none⟩)
      (fmtFloatV (New v n).float64
        ++ sprintfS (unitFormat ⟨pl, sh, sp, mi, ze, w, none⟩ u.length) u) := ⟨_, rfl⟩
  have hs0 : (New v n).Format isPrint ⟨pl, sh, sp, mi, ze, w, none⟩ Verb.s = some X := by
    rw [Format_s_at isPrint (New v n) _ u _ hu rfl, hX]
    rfl
  have hs1 : (New v n).Format isPrint ⟨pl, sh, sp, mi, ze, w, some p⟩ Verb.s
      = some (String.mk (X.data.take p)) := by
    rw [Format_s_at isPrint (New v n) _ u _ hu rfl, hX]
    rfl
  have hq0 : (New v n).Format isPrint ⟨pl, sh, sp, mi, ze, w, none⟩ Verb.q
      = sprintfString isPrint ⟨pl, sh, none, Verb.q⟩ X := by
    rw [Format_q_at isPrint (New v n) _ u _ hu rfl, hX]
    rfl
  have hq1 : (New v n).Format isPrint ⟨pl, sh, sp, mi, ze, w, some p⟩ Verb.q
      = sprintfString isPrint ⟨pl, sh, none, Verb.q⟩ (String.mk (X.data.take p)) := by
    rw [Format_q_at isPrint (New v n) _ u _ hu rfl, hX]
    rfl
  refine ⟨X, hs0, hs1, hq0, hq1, ?_⟩
  intro hle
  have hcut : String.mk (X.data.take p) = X := by
    apply String.ext
    exact List.take_of_length_le hle
  rw [hs1, hq1, hq0, hcut]
  exact ⟨rfl, rfl⟩

/-! ## The name table of the receiver -/

/-- C29 (the code at the failing input): a `Bytes` literal that sets only
`Value` is a value a client can hold, its name table is empty, so `name` reads
out of range and `Format` produces no output, for every count and directive;
`String`, which reads the package-level table, writes 0B for the literal of
the count 0, and `Format` writes 0B for the value `New` makes. -/
theorem C29_literal_has_no_name (isPrint : Char → Bool) (v : Nat) (f : State) (c : Verb) :
    Bytes.Reachable ⟨v, []⟩ ∧
    (⟨v, []⟩ : Bytes).name = none ∧
    (⟨v, []⟩ : Bytes).Format isPrint f c = none ∧
    (⟨0, []⟩ : Bytes).String = "0B" ∧
    (New 0 []).Format isPrint State.plain Verb.v = some "0B" := by
  have hn : (⟨v, []⟩ : Bytes).name = none := by
    rw [name_eq_tier]
    rfl
  refine ⟨Bytes.Reachable.literal v, hn, ?_, ?_, ?_⟩
  · unfold Bytes.Format
    rw [hn]
  · rw [string_eval ⟨0, []⟩ 0 0 (float64_zero _ rfl) (by decide)]
    decide!
  · rw [Format_numeric_at isPrint _ _ _ "B" 0 (by decide)
      (float64_at 0 [] _ 0 (by norm_num) (by decide) (by norm_num)) (by decide) (by decide)]
    decide!

/-- C30: for every raw count, every directive and two name tables with the same
first seven entries, the two values of type `Bytes` have the same unit name,
the same output of `Format` and the same output of `String`, whatever the
entries of the tables from index 7 on are. -/
theorem C30_names_beyond_seventh (isPrint : Char → Bool) (v : Nat) (t1 t2 : List String)
    (f : State) (c : Verb) (h : t1.take 7 = t2.take 7) :
    (⟨v, t1⟩ : Bytes).name = (⟨v, t2⟩ : Bytes).name ∧
    (⟨v, t1⟩ : Bytes).Format isPrint f c = (⟨v, t2⟩ : Bytes).Format isPrint f c ∧
    (⟨v, t1⟩ : Bytes).String = (⟨v, t2⟩ : Bytes).String := by
  have hname : (⟨v, t1⟩ : Bytes).name = (⟨v, t2⟩ : Bytes).name := by
    rw [name_eq_tier, name_eq_tier]
    show t1[tierOf v]? = t2[tierOf v]?
    have hlt : tierOf v < 7 := by
      have := tierOf_le v
      omega
    have e1 : (t1.take 7)[tierOf v]? = t1[tierOf v]? := by
      rw [List.getElem?_take, if_pos hlt]
    have e2 : (t2.take 7)[tierOf v]? = t2[tierOf v]? := by
      rw [List.getElem?_take, if_pos hlt]
    rw [← e1, ← e2, h]
  have hfl : (⟨v, t1⟩ : Bytes).float64 = (⟨v, t2⟩ : Bytes).float64 := rfl
  refine ⟨hname, ?_, ?_⟩
  · unfold Bytes.Format
    rw [hname, hfl]
  · rw [string_eq_tier, string_eq_tier, hfl]

/-- C30, at the count 1024: the table B, Kilobyte, M, G, T, P, E and the same
table with the further entries Z and Y both give 1Kilobyte with the verb `v`. -/
theorem C30_names_beyond_seventh_witness :
    (⟨1024, ["B", "Kilobyte", "M", "G", "T", "P", "E"]⟩ : Bytes).Format (fun _ => true)
        State.plain Verb.v
      = (⟨1024, ["B", "Kilobyte", "M", "G", "T", "P", "E", "Z", "Y"]⟩ : Bytes).Format
        (fun _ => true) State.plain Verb.v ∧
    New 1024 ["B", "Kilobyte", "M", "G", "T", "P", "E", "Z", "Y"]
      = ⟨1024, ["B", "Kilobyte", "M", "G", "T", "P", "E", "Z", "Y"]⟩ ∧
    (New 1024 ["B", "Kilobyte", "M", "G", "T", "P", "E", "Z", "Y"]).Format (fun _ => true)
        State.plain Verb.v = some "1Kilobyte" :=
  ⟨(C30_names_beyond_seventh (fun _ => true) 1024 ["B", "Kilobyte", "M", "G", "T", "P", "E"]
      ["B", "Kilobyte", "M", "G", "T", "P", "E", "Z", "Y"] State.plain Verb.v (by decide)).2.1,
    by decide,
    by
      rw [Format_numeric_at _ _ _ _ "Kilobyte" 1 (by decide)
        (float64_at 1024 _ _ 1 (by norm_num) (by decide) (by norm_num)) (by decide) (by decide)]
      decide!⟩

/-! ## The digits of a product with a power of ten -/

theorem toDigitsCore_acc (fuel : Nat) :
    ∀ (n : Nat) (acc : List Char),
      Nat.toDigitsCore 10 fuel n acc = Nat.toDigitsCore 10 fuel n [] ++ acc := by
  induction fuel with
  | zero =>
    intro n acc
    rfl
  | succ f ih =>
    intro n acc
    unfold Nat.toDigitsCore
    simp only
    split_ifs
    · rfl
    · rw [ih (n / 10) (Nat.digitChar (n % 10) :: acc), ih (n / 10) [Nat.digitChar (n % 10)],
        List.append_assoc]
      rfl

theorem toDigitsCore_fuel (fuel : Nat) :
    ∀ (n fuel2 : Nat), n < fuel → n < fuel2 →
      Nat.toDigitsCore 10 fuel n [] = Nat.toDigitsCore 10 fuel2 n [] := by
  induction fuel with
  | zero =>
    intro n fuel2 h
    omega
  | succ f ih =>
    intro n fuel2 h1 h2
    obtain ⟨g, rfl⟩ : ∃ g, fuel2 = g + 1 := ⟨fuel2 - 1, by omega⟩
    unfold Nat.toDigitsCore
    simp only
    split_ifs with h0
    · rfl
    · have hn : n / 10 < n := Nat.div_lt_self (by omega) (by norm_num)
      rw [toDigitsCore_acc f, toDigitsCore_acc g,
        ih (n / 10) g (by omega) (by omega)]

theorem toDigits_step (n : Nat) (h : n / 10 ≠ 0) :
    Nat.toDigits 10 n = Nat.toDigits 10 (n / 10) ++ [Nat.digitChar (n % 10)] := by
  have hn : n / 10 < n := Nat.div_lt_self (by omega) (by norm_num)
  unfold Nat.toDigits
  rw [Nat.toDigitsCore, if_neg h, toDigitsCore_acc n,
    toDigitsCore_fuel n (n / 10) (n / 10 + 1) hn (Nat.lt_succ_self _)]

theorem toDigits_mul_pow (D : Nat) (hD : 0 < D) (m : Nat) :
    Nat.toDigits 10 (D * 10 ^ m) = Nat.toDigits 10 D ++ List.replicate m '0' := by
  induction m with
  | zero => simp
  | succ j ih =>
    have hpos : 0 < D * 10 ^ j := Nat.mul_pos hD (pow_pos (by norm_num) _)
    have e : D * 10 ^ (j + 1) = D * 10 ^ j * 10 := by ring
    rw [e, toDigits_step _ (by rw [Nat.mul_div_cancel _ (by norm_num)]; omega),
      Nat.mul_div_cancel _ (by norm_num), Nat.mul_mod_left, ih, List.append_assoc,
      List.replicate_succ']
    rfl

theorem toDigits_length_le (n e : Nat) (h : n < 10 ^ e) (he : 0 < e) :
    (Nat.toDigits 10 n).length ≤ e :=
  Nat.toDigitsCore_length 10 (by norm_num) (n + 1) n e h he

/-! ## The shortest digits of an integer value -/

theorem ulpExp_nat (v : Nat) (hv : 0 < v) : ulpExp v 1 = (Nat.log2 v : ℤ) - 52 := by
  have hv0 : v ≠ 0 := Nat.pos_iff_ne_zero.mp hv
  have hbin : binExp v 1 = (Nat.log2 v : ℤ) := by
    apply binExp_unique _ _ hv Nat.one_pos
    · rw [Nat.cast_one, div_one, zpow_natCast]
      exact_mod_cast Nat.log2_self_le hv0
    · rw [Nat.cast_one, div_one,
        show (Nat.log2 v : ℤ) + 1 = ((Nat.log2 v + 1 : ℕ) : ℤ) by push_cast; ring, zpow_natCast]
      exact_mod_cast (Nat.lt_log2_self : v < 2 ^ (Nat.log2 v + 1))
  unfold ulpExp
  rw [hbin, max_eq_left (by omega)]

theorem admissible_near (k n : Nat) (lo up : ℚ) (e : Bool) (h1 : (k : ℚ) - 1 < lo)
    (h2 : lo < k) (h3 : (k : ℚ) < up) (h4 : up < k + 1) :
    admissible (lo, up, e) (n : ℚ) = decide (n = k) := by
  have hiff : ∀ a b : ℚ, (k : ℚ) - 1 < a → b < k + 1 → a ≤ n → (n : ℚ) ≤ b → n = k := by
    intro a b ha hb han hnb
    have c1 : (k : ℚ) < (n : ℚ) + 1 := by linarith
    have c2 : (n : ℚ) < (k : ℚ) + 1 := by linarith
    have c1' : k < n + 1 := by exact_mod_cast c1
    have c2' : n < k + 1 := by exact_mod_cast c2
    omega
  unfold admissible
  cases e
  · simp only [Bool.false_eq_true, if_false]
    rw [decide_eq_decide]
    constructor
    · rintro ⟨a, b⟩
      exact hiff lo up h1 h4 (le_of_lt a) (le_of_lt b)
    · intro h
      rw [h]
      exact ⟨h2, h3⟩
  · simp only [if_true]
    rw [decide_eq_decide]
    constructor
    · rintro ⟨a, b⟩
      exact hiff lo up h1 h4 a b
    · intro h
      rw [h]
      exact ⟨le_of_lt h2, le_of_lt h3⟩

theorem admissible_int (k n : Nat) (hk : 0 < k) (h53 : k < 2 ^ 53) :
    admissible (f64interval (k : ℚ)) (n : ℚ) = decide (n = k) := by
  have hk0 : k ≠ 0 := Nat.pos_iff_ne_zero.mp hk
  have hlog : Nat.log2 k < 53 := (Nat.log2_lt hk0).mpr h53
  obtain ⟨t, ht⟩ : ∃ t : Nat, (Nat.log2 k : ℤ) - 52 = -(t : ℤ) := ⟨52 - Nat.log2 k, by omega⟩
  have hs : ulpExp k 1 = -(t : ℤ) := by rw [ulpExp_nat k hk, ht]
  have hpos : (0 : ℚ) < (2 : ℚ) ^ ulpExp k 1 := zpow_pos (by norm_num) _
  have hle : (2 : ℚ) ^ ulpExp k 1 ≤ 1 := by
    rw [hs, zpow_neg, zpow_natCast]
    exact inv_le_one_of_one_le₀ (one_le_pow₀ (by norm_num))
  unfold f64interval
  simp only [Rat.num_natCast, Int.natAbs_ofNat, Rat.den_natCast]
  apply admissible_near
  · split_ifs <;> linarith
  · split_ifs <;> linarith
  · linarith
  · linarith

theorem shortestAt_int (k j : Nat) (hk : 0 < k) (h53 : k < 2 ^ 53) :
    shortestAt (k : ℚ) (f64interval (k : ℚ)) (j : ℤ)
      = if 10 ^ j ∣ k then some (k / 10 ^ j) else none := by
  have hstep : (10 : ℚ) ^ (j : ℤ) = ((10 ^ j : ℕ) : ℚ) := by
    rw [zpow_natCast]
    push_cast
    rfl
  have hlo : (Rat.floor ((k : ℚ) / ((10 ^ j : ℕ) : ℚ))).toNat = k / 10 ^ j := by
    rw [ratFloor_eq, Rat.floor_natCast_div_natCast]
    rfl
  have hP : 0 < 10 ^ j := pow_pos (by norm_num) _
  have hhi : ¬ ((k / 10 ^ j + 1) * 10 ^ j = k) := by
    have := Nat.lt_mul_div_succ k hP
    rw [Nat.mul_comm] at this
    omega
  have hdvd : (k / 10 ^ j * 10 ^ j = k) ↔ 10 ^ j ∣ k :=
    ⟨fun h => ⟨k / 10 ^ j, by rw [Nat.mul_comm]; exact h.symm⟩, fun h => Nat.div_mul_cancel h⟩
  unfold shortestAt
  simp only
  rw [hstep, hlo, ← Nat.cast_mul, ← Nat.cast_mul, admissible_int k _ hk h53,
    admissible_int k _ hk h53, decide_eq_false hhi]
  by_cases hd : 10 ^ j ∣ k
  · rw [if_pos hd, decide_eq_true (hdvd.mpr hd)]
    split_ifs <;> simp_all
  · rw [if_neg hd, decide_eq_false (fun h => hd (hdvd.mp h))]
    split_ifs <;> simp_all

theorem shortestLoop_int (k : Nat) (hk : 0 < k) (h53 : k < 2 ^ 53) (j : Nat) :
    ∀ fuel : Nat, j < fuel → ∃ m : Nat,
      (shortestLoop (k : ℚ) (f64interval (k : ℚ)) fuel (j : ℤ)).2 = (m : ℤ) ∧
      (shortestLoop (k : ℚ) (f64interval (k : ℚ)) fuel (j : ℤ)).1 * 10 ^ m = k := by
  induction j with
  | zero =>
    intro fuel hf
    obtain ⟨g, rfl⟩ : ∃ g, fuel = g + 1 := ⟨fuel - 1, by omega⟩
    unfold shortestLoop
    rw [shortestAt_int k 0 hk h53, if_pos (by simp)]
    exact ⟨0, rfl, by simp⟩
  | succ i ih =>
    intro fuel hf
    obtain ⟨g, rfl⟩ : ∃ g, fuel = g + 1 := ⟨fuel - 1, by omega⟩
    unfold shortestLoop
    rw [shortestAt_int k (i + 1) hk h53]
    by_cases hd : 10 ^ (i + 1) ∣ k
    · rw [if_pos hd]
      exact ⟨i + 1, rfl, Nat.div_mul_cancel hd⟩
    · rw [if_neg hd]
      have e : ((i + 1 : ℕ) : ℤ) - 1 = (i : ℤ) := by push_cast; ring
      simp only
      rw [e]
      exact ih g (by omega)

theorem shortestDecimal_int (k : Nat) (hk : 0 < k) (h53 : k < 2 ^ 53) :
    ∃ D m : Nat, D * 10 ^ m = k ∧
      shortestDecimal (k : ℚ)
        = (Nat.toDigits 10 D, ((Nat.toDigits 10 D).length : ℤ) + (m : ℤ)) := by
  have hk0 : (k : ℚ) ≠ 0 := by exact_mod_cast Nat.pos_iff_ne_zero.mp hk
  unfold shortestDecimal
  rw [if_neg hk0]
  simp only
  obtain ⟨m, h1, h2⟩ := shortestLoop_int k hk h53
    (Nat.toDigits 10 (Rat.floor (f64interval (k : ℚ)).2.1).toNat).length
    ((Nat.toDigits 10 (Rat.floor (f64interval (k : ℚ)).2.1).toNat).length + 400) (by omega)
  exact ⟨_, m, h2, by rw [h1]⟩

/-- The rendering `%v` of an integer value from 1 to 999999 is its decimal
digits: no decimal point, no exponent. -/
theorem fmtFloatV_int (k : Nat) (hk : 0 < k) (h6 : k < 10 ^ 6) :
    fmtFloatV (k : ℚ) = String.mk (Nat.toDigits 10 k) := by
  have h53 : k < 2 ^ 53 := lt_trans h6 (by norm_num)
  obtain ⟨D, m, hDm, hsd⟩ := shortestDecimal_int k hk h53
  have hD : 0 < D := by
    rcases Nat.eq_zero_or_pos D with h | h
    · rw [h] at hDm
      omega
    · exact h
  have hdig : Nat.toDigits 10 k = Nat.toDigits 10 D ++ List.replicate m '0' := by
    rw [← hDm]
    exact toDigits_mul_pow D hD m
  have hlen : (Nat.toDigits 10 D).length + m ≤ 6 := by
    have := toDigits_length_le k 6 h6 (by norm_num)
    rw [hdig, List.length_append, List.length_replicate] at this
    exact this
  have hpos : 0 < (Nat.toDigits 10 D).length := decDigits_length_pos D
  have habs : |(k : ℚ)| = (k : ℚ) := abs_of_nonneg (Nat.cast_nonneg k)
  have hneg : ¬ ((k : ℚ) < 0) := not_lt.mpr (Nat.cast_nonneg k)
  unfold fmtFloatV
  rw [habs, hsd]
  simp only
  rw [if_neg hneg, if_neg (by omega)]
  unfold fmtF
  have e1 : ((Nat.toDigits 10 D).length : ℤ)
      - (((Nat.toDigits 10 D).length : ℤ) + (m : ℤ)) = -(m : ℤ) := by ring
  have e2 : (-(m : ℤ)).toNat = 0 := by omega
  have e3 : (((Nat.toDigits 10 D).length : ℤ) + (m : ℤ)).toNat
      = (Nat.toDigits 10 D).length + m := by omega
  simp only [e1, e2, e3, lt_irrefl, if_false, List.append_nil, List.nil_append]
  rw [if_pos (by omega), List.take_of_length_le (by omega), Nat.add_sub_cancel_left, hdig]

/-! ## The default rendering of a whole number of units -/

theorem tierOf_lt_next (v : Nat) (h : tierOf v < 6) : v < 1024 ^ (tierOf v + 1) := by
  by_contra hc
  have := (tierOf_spec v).2 (tierOf v + 1) (by omega) (not_lt.mp hc)
  omega

theorem multiple_lt (v k : Nat) (h64 : v < 2 ^ 64) (hk : v = k * 1024 ^ tierOf v) :
    k < 1024 := by
  have hle := tierOf_le v
  have hpos : 0 < 1024 ^ tierOf v := pow_pos (by norm_num) _
  rcases Nat.lt_or_ge (tierOf v) 6 with h | h
  · have hlt := tierOf_lt_next v h
    rw [pow_succ, Nat.mul_comm] at hlt
    nth_rewrite 1 [hk] at hlt
    exact Nat.lt_of_mul_lt_mul_right hlt
  · have h6 : tierOf v = 6 := by omega
    rw [h6] at hk
    by_contra hc
    have : 1024 * 1024 ^ 6 ≤ k * 1024 ^ 6 := Nat.mul_le_mul_right _ (not_lt.mp hc)
    norm_num at this
    omega

theorem float64_multiple (b : Bytes) (k : Nat) (h64 : b.Value < 2 ^ 64)
    (hk : b.Value = k * 1024 ^ tierOf b.Value) : b.float64 = (k : ℚ) := by
  have hlt := multiple_lt b.Value k h64 hk
  have e2 : (1024 : ℚ) ^ tierOf b.Value = (2 : ℚ) ^ ((10 * tierOf b.Value : ℕ) : ℤ) := by
    rw [zpow_natCast, pow_mul]
    norm_num
  have hexact : f64ofUint b.Value = (k : ℚ) * (1024 : ℚ) ^ tierOf b.Value := by
    unfold f64ofUint
    rw [hk]
    push_cast
    rw [← hk, e2]
    exact f64round_dyadic k _ (by omega) (by omega)
  rw [float64_eq_tier, f64div_tier _ _ (tierOf_le _), hexact]
  field_simp

theorem fmtFloatV_nat (k : Nat) (h6 : k < 10 ^ 6) : fmtFloatV (k : ℚ) = Nat.repr k := by
  rcases Nat.eq_zero_or_pos k with h | h
  · rw [h, Nat.cast_zero]
    decide!
  · rw [fmtFloatV_int k h h6]
    rfl

/-- C31: for every raw count `v` of 64 bits that is `k` times the threshold
`1024 ^ tierOf v` of its tier, the scaled value is the integer `k` and
`New(v).String()` is the decimal digits of `k` followed by the default unit
name of the tier, with no decimal point; this holds for every `v < 1024`, with
`k = v` and the name B. -/
theorem C31_string_of_multiple (v k : Nat) (h64 : v < 2 ^ 64)
    (hk : v = k * 1024 ^ tierOf v) :
    (New v []).float64 = (k : ℚ) ∧
    (∃ u, Bytefmt.names[tierOf v]? = some u ∧ (New v []).String = Nat.repr k ++ u) ∧
    (v < 1024 → k = v ∧ (New v []).String = Nat.repr v ++ "B") := by
  have hv : (New v []).Value = v := New_Value v []
  have hfl : (New v []).float64 = (k : ℚ) :=
    float64_multiple (New v []) k (by rw [hv]; exact h64) (by rw [hv]; exact hk)
  have hlt := multiple_lt v k h64 hk
  have hstr : (New v []).String = Nat.repr k ++ Bytefmt.names.getD (tierOf v) "" := by
    rw [string_eq_tier, hfl, hv, fmtFloatV_nat k (lt_trans hlt (by norm_num))]
  have hi : tierOf v < Bytefmt.names.length := by
    have := tierOf_le v
    rw [names_length]
    omega
  refine ⟨hfl, ⟨Bytefmt.names[tierOf v], List.getElem?_eq_getElem hi, ?_⟩, ?_⟩
  · rw [hstr, List.getD_eq_getElem _ _ hi]
  · intro h1024
    have ht : tierOf v = 0 :=
      tierOf_eq_of_bounds _ 0 (by norm_num) (Or.inl rfl) (Or.inr (by simpa using h1024))
    have hkv : k = v := by
      rw [ht] at hk
      omega
    refine ⟨hkv, ?_⟩
    rw [hstr, ht, hkv]
    rfl

/-- C31, at the examples of the claim: 1024 is once the threshold of the tier 1
and gives 1K; 0 gives 0B. -/
theorem C31_string_of_multiple_witness :
    (1024 : Nat) = 1 * 1024 ^ tierOf 1024 ∧
    (New 1024 []).String = "1K" ∧ (New 0 []).String = "0B" := by
  have h1 : (1024 : Nat) = 1 * 1024 ^ tierOf 1024 := by decide
  have h0 : (0 : Nat) = 0 * 1024 ^ tierOf 0 := by decide
  obtain ⟨-, ⟨u, hu, hs⟩, -⟩ := C31_string_of_multiple 1024 1 (by norm_num) h1
  obtain ⟨-, -, hz⟩ := C31_string_of_multiple 0 0 (by norm_num) h0
  refine ⟨h1, ?_, ?_⟩
  · have hK : Bytefmt.names[tierOf 1024]? = some "K" := by decide
    rw [hK] at hu
    cases hu
    rw [hs]
    decide
  · rw [(hz (by norm_num)).2]
    decide

/-! ## The raw count under `Names` -/

/-- C32: for every receiver and every argument list, empty or not, the field
`Value` of the receiver after the call of `Names` is the one before the call;
and the value `New` returns has the count given to `New`. -/
theorem C32_names_keeps_value (b : Bytes) (n : List String) (v : Nat) :
    (b.Names n).1.Value = b.Value ∧ (New v n).Value = v := by
  refine ⟨?_, New_Value v n⟩
  by_cases h : n = []
  · subst h
    rw [Names_empty]
    split_ifs <;> rfl
  · rw [Names_nonempty _ _ h]

/-! ## Verbs outside `v`, `s`, `q`, `f`, `d` -/

/-- C33 (the claim fails): with the verb `e` and no flag, width or precision,
`Format` writes the count 1128 as 1.101562e+00K, the scaled value in
scientific notation followed by the unit name, which is not the default
rendering 1.1015625K. -/
theorem C33_verb_e_renders :
    (New 1128 []).Format (fun _ => true) State.plain Verb.e = some "1.101562e+00K" ∧
    (New 1128 []).String = "1.1015625K" := by
  constructor
  · rw [Format_numeric_at _ _ _ _ "K" (141 / 128) (by decide)
      (float64_at 1128 [] _ 1 (by norm_num) (by decide) (by norm_num)) (by decide) (by decide)]
    decide!
  · rw [string_eval (New 1128 []) (141 / 128) 1
      (float64_at 1128 [] _ 1 (by norm_num) (by decide) (by norm_num)) (by decide)]
    decide!

/-- C33, amended: `Format` makes no check of the verb; for the verb `e`, with no
flag and no width, it writes for every raw count the scaled value as `%e` of
package `fmt` prints it, in scientific notation with as many digits after the
point as the precision, 6 when there is none, immediately followed by the unit
name. -/
theorem C33_verb_e_scientific (isPrint : Char → Bool) (v : Nat) (n : List String)
    (p : Option Nat) :
    ∃ u : String, (New v n).name = some u ∧
      (New v n).Format isPrint ⟨false, false, false, false, false, none, p⟩ Verb.e
        = some (String.mk (formatE (New v n).float64 (p.getD 6) false) ++ u) := by
  obtain ⟨u, hu⟩ := New_name v n
  have hx := float64_nonneg (New v n)
  have hneg : ¬ ((New v n).float64 < 0) := not_lt.mpr hx
  refine ⟨u, hu, ?_⟩
  rw [Format_numeric isPrint _ _ _ u hu (by decide) (by decide)]
  unfold Bytes.valueText
  rw [if_neg (by decide), if_neg (by decide)]
  unfold sprintfFloat valueFormat
  simp only [abs_of_nonneg hx]
  simp [signChars, hneg, applyPad, padFormat, unitFormat, sprintfS]

/-! ## The name lookup is in range -/

theorem name_some (b : Bytes) (h : 7 ≤ b.names.length) : ∃ u, b.name = some u := by
  have hi : tierOf b.Value < b.names.length := by
    have := tierOf_le b.Value
    omega
  exact ⟨b.names[tierOf b.Value], by rw [name_eq_tier, List.getElem?_eq_getElem hi]⟩

theorem Format_some (isPrint : Char → Bool) (b : Bytes) (f : State) (c : Verb) (u : String)
    (hn : b.name = some u) : ∃ out, b.Format isPrint f c = some out := by
  by_cases hs : c = Verb.s
  · subst hs
    rw [Format_s_at isPrint b f u _ hn rfl]
    exact ⟨_, rfl⟩
  · by_cases hq : c = Verb.q
    · subst hq
      rw [Format_q_at isPrint b f u _ hn rfl]
      obtain ⟨pl, sh, sp, mi, ze, w, p⟩ := f
      rw [show valueFormat ⟨pl, sh, sp, mi, ze, w, p⟩ Verb.q = ⟨pl, sh, p, Verb.q⟩ from rfl,
        sprintfString_q]
      exact ⟨_, rfl⟩
    · obtain ⟨val, hval⟩ := valueText_some b f c
      rw [Format_numeric isPrint b f c u hn hs hq, hval]
      exact ⟨_, rfl⟩

theorem Names_length (b : Bytes) (hb : b.Reachable) (n : List String) :
    7 ≤ (b.Names n).1.names.length := by
  by_cases hn : n = []
  · subst hn
    rw [Names_empty]
    by_cases hc : b.names = []
    · rw [if_pos hc]
      exact le_of_eq names_length.symm
    · rw [if_neg hc]
      exact (Reachable_names b hb).resolve_left hc
  · rw [Names_nonempty _ _ hn]
    simp only
    rw [backfill_length]
    exact le_max_right _ _

/-- C34: for every value of type `Bytes` a client can hold, after a call of
`Names` on it with any argument list, and so for every value `New` returns: the
name table has an entry at the index of the tier of the count, `name` finds the
unit name, and `Format` produces an output for every directive. -/
theorem C34_name_in_bounds (isPrint : Char → Bool) (b : Bytes) (hb : b.Reachable)
    (n : List String) (f : State) (c : Verb) :
    tierOf (b.Names n).1.Value < (b.Names n).1.names.length ∧
    (∃ u, (b.Names n).1.name = some u) ∧
    (∃ out, (b.Names n).1.Format isPrint f c = some out) ∧
    (∀ v : Nat, tierOf (New v n).Value < (New v n).names.length ∧
      ∃ out, (New v n).Format isPrint f c = some out) := by
  have h7 := Names_length b hb n
  have hle := tierOf_le (b.Names n).1.Value
  obtain ⟨u, hu⟩ := name_some _ h7
  refine ⟨by omega, ⟨u, hu⟩, Format_some isPrint _ f c u hu, ?_⟩
  intro v
  have h7v := New_names_length v n
  have hlev := tierOf_le (New v n).Value
  obtain ⟨w, hw⟩ := New_name v n
  exact ⟨by omega, Format_some isPrint _ f c w hw⟩

/-- C34, at the literal of the count 5 after `Names()` without arguments: the
table is the default one and `Format` writes 5B. -/
theorem C34_name_in_bounds_witness :
    Bytes.Reachable ⟨5, []⟩ ∧
    ((⟨5, []⟩ : Bytes).Names []).1.name = some "B" ∧
    ((⟨5, []⟩ : Bytes).Names []).1.Format (fun _ => true) State.plain Verb.v = some "5B" := by
  have h := C34_name_in_bounds (fun _ => true) ⟨5, []⟩ (Bytes.Reachable.literal 5) []
    State.plain Verb.v
  obtain ⟨-, -, ⟨out, hout⟩, -⟩ := h
  have hname : ((⟨5, []⟩ : Bytes).Names []).1.name = some "B" := by decide
  refine ⟨Bytes.Reachable.literal 5, hname, ?_⟩
  rw [Format_numeric_at _ _ _ _ "B" 5 hname
    (float64_at 5 [] _ 0 (by norm_num) (by decide) (by norm_num)) (by decide) (by decide)]
  decide!

/-! ## Two paths to the same rendering -/

theorem valueText_v (b : Bytes) (pl sh sp mi ze : Bool) (w : Option Nat) :
    b.valueText ⟨pl, sh, sp, mi, ze, w, none⟩ Verb.v = some (fmtFloatV b.float64) := rfl

theorem valueText_s (b : Bytes) (f : State) :
    b.valueText f Verb.s = some (fmtFloatV b.float64) := rfl

/-- C35: for every raw count, with the default name table, the output of `Format`
for the verb `v` with no flag, width or precision is the string `String()`
returns; 1128 gives 1.1015625K on both paths. -/
theorem C35_string_is_format_v (isPrint : Char → Bool) (v : Nat) :
    (New v []).Format isPrint State.plain Verb.v = some (New v []).String ∧
    (New 1128 []).Format isPrint State.plain Verb.v = some "1.1015625K" ∧
    (New 1128 []).String = "1.1015625K" := by
  refine ⟨?_, ?_, ?_⟩
  · have hv : (New v []).Value = v := New_Value v []
    have hnames : (New v []).names = Bytefmt.names := by
      rw [New_names]
      rfl
    have hi : tierOf v < Bytefmt.names.length := by
      have := tierOf_le v
      rw [names_length]
      omega
    have hu : (New v []).name = some (Bytefmt.names[tierOf v]) := by
      rw [name_eq_tier, hv, hnames, List.getElem?_eq_getElem hi]
    have hval : (New v []).valueText State.plain Verb.v
        = some (fmtFloatV (New v []).float64) := rfl
    rw [Format_numeric isPrint _ _ _ _ hu (by decide) (by decide),
      hval, string_eq_tier, hv, List.getD_eq_getElem _ _ hi]
    rfl
  · rw [Format_numeric_at isPrint _ _ _ "K" (141 / 128) (by decide)
      (float64_at 1128 [] _ 1 (by norm_num) (by decide) (by norm_num)) (by decide) (by decide)]
    decide!
  · rw [string_eval (New 1128 []) (141 / 128) 1
      (float64_at 1128 [] _ 1 (by norm_num) (by decide) (by norm_num)) (by decide)]
    decide!

/-- C36: for every raw count, every name table from `New`, every width and every
setting of the flags `+`, `#`, space, `-`, `0`, with no precision, `Format`
writes the same output for the verb `v` and for the verb `s`. -/
theorem C36_v_equals_s (isPrint : Char → Bool) (v : Nat) (n : List String)
    (pl sh sp mi ze : Bool) (w : Option Nat) :
    ∃ out : String,
      (New v n).Format isPrint ⟨pl, sh, sp, mi, ze, w, none⟩ Verb.v = some out ∧
      (New v n).Format isPrint ⟨pl, sh, sp, mi, ze, w, none⟩ Verb.s = some out := by
  obtain ⟨u, hu⟩ := New_name v n
  rw [Format_token isPrint _ _ Verb.v u hu (by decide) (fun h => absurd h (by decide)),
    Format_token isPrint _ _ Verb.s u hu (by decide) (fun _ => rfl),
    valueText_v, valueText_s]
  exact ⟨_, rfl, rfl⟩

/-! ## The range of the scaled value -/

theorem f64ofUint_le (v : Nat) (hv : 0 < v) : f64ofUint v ≤ (2 : ℚ) ^ (Nat.log2 v + 1) := by
  have hlt : v < 2 ^ (Nat.log2 v + 1) := Nat.lt_log2_self
  rcases Nat.lt_or_ge v (2 ^ 53) with h | h
  · rw [f64ofUint_exact v h]
    exact_mod_cast le_of_lt hlt
  · have hv0 : v ≠ 0 := Nat.pos_iff_ne_zero.mp hv
    have hl : 53 ≤ Nat.log2 v := (Nat.le_log2 hv0).mpr h
    have hM : roundHalfEven v (2 ^ (Nat.log2 v - 52)) ≤ 2 ^ 53 := by
      have h1 := roundHalfEven_le v (2 ^ (Nat.log2 v - 52))
      have h3 : v / 2 ^ (Nat.log2 v - 52) < 2 ^ 53 := by
        rw [Nat.div_lt_iff_lt_mul (pow_pos (by norm_num) _), ← pow_add]
        have : 53 + (Nat.log2 v - 52) = Nat.log2 v + 1 := by omega
        rw [this]
        exact hlt
      omega
    have hnat : roundHalfEven v (2 ^ (Nat.log2 v - 52)) * 2 ^ (Nat.log2 v - 52)
        ≤ 2 ^ (Nat.log2 v + 1) := by
      calc roundHalfEven v (2 ^ (Nat.log2 v - 52)) * 2 ^ (Nat.log2 v - 52)
          ≤ 2 ^ 53 * 2 ^ (Nat.log2 v - 52) := Nat.mul_le_mul_right _ hM
        _ = 2 ^ (Nat.log2 v + 1) := by
          rw [← pow_add]
          congr 1
          omega
    rw [f64ofUint_eq]
    exact_mod_cast hnat

theorem float64_le (b : Bytes) (h64 : b.Value < 2 ^ 64) : b.float64 ≤ 1024 := by
  rcases Nat.eq_zero_or_pos b.Value with h0 | hpos
  · rw [float64_zero b h0]
    norm_num
  have hv0 : b.Value ≠ 0 := Nat.pos_iff_ne_zero.mp hpos
  have hle := tierOf_le b.Value
  have hbound : b.Value < 2 ^ (10 * tierOf b.Value + 10) := by
    rcases Nat.lt_or_ge (tierOf b.Value) 6 with h | h
    · have := tierOf_lt_next b.Value h
      have e : (1024 : ℕ) ^ (tierOf b.Value + 1) = 2 ^ (10 * tierOf b.Value + 10) := by
        rw [show 10 * tierOf b.Value + 10 = 10 * (tierOf b.Value + 1) by ring, pow_mul]
        norm_num
      rw [e] at this
      exact this
    · have h6 : tierOf b.Value = 6 := by omega
      rw [h6]
      exact lt_trans h64 (by norm_num)
  have hlog : Nat.log2 b.Value + 1 ≤ 10 * tierOf b.Value + 10 :=
    (Nat.log2_lt hv0).mpr hbound
  have hup : f64ofUint b.Value ≤ (2 : ℚ) ^ (10 * tierOf b.Value + 10) :=
    le_trans (f64ofUint_le _ hpos) (pow_le_pow_right₀ (by norm_num) hlog)
  have e2 : (2 : ℚ) ^ (10 * tierOf b.Value + 10) = 1024 * (1024 : ℚ) ^ tierOf b.Value := by
    rw [pow_add, pow_mul]
    norm_num
    ring
  have hposq : (0 : ℚ) < (1024 : ℚ) ^ tierOf b.Value := pow_pos (by norm_num) _
  rw [float64_eq_tier, f64div_tier _ _ hle, div_le_iff₀ hposq, ← e2]
  exact hup

theorem float64_lt (b : Bytes) (h53 : b.Value < 2 ^ 53) : b.float64 < 1024 := by
  have hle := tierOf_le b.Value
  have h6 : tierOf b.Value < 6 := by
    by_contra hc
    have h6 : tierOf b.Value = 6 := by omega
    rcases (tierOf_spec b.Value).1 with h0 | h1
    · omega
    · rw [h6] at h1
      have : (2 : ℕ) ^ 53 < 1024 ^ 6 := by norm_num
      omega
  have hlt := tierOf_lt_next b.Value h6
  have hposq : (0 : ℚ) < (1024 : ℚ) ^ tierOf b.Value := pow_pos (by norm_num) _
  rw [float64_of_lt b h53, div_lt_iff₀ hposq, ← pow_succ']
  exact_mod_cast hlt

/-- C37 (the claim fails): the count `2 ^ 60 - 1` is at least 1 and has the
tier 5, and its scaled value is 1024, not less than 1024: the conversion to
`float64` rounds the count up to `2 ^ 60`. -/
theorem C37_scaled_value_reaches_1024 :
    tierOf 1152921504606846975 = 5 ∧
    f64ofUint 1152921504606846975 = 1152921504606846976 ∧
    (New 1152921504606846975 []).float64 = 1024 := by
  have ht : tierOf 1152921504606846975 = 5 := by decide
  have hf : f64ofUint 1152921504606846975 = 1152921504606846976 := by
    have hlog : Nat.log2 1152921504606846975 = 59 := by
      have a : 59 ≤ Nat.log2 1152921504606846975 :=
        (Nat.le_log2 (by norm_num)).mpr (by norm_num)
      have b : Nat.log2 1152921504606846975 < 60 :=
        (Nat.log2_lt (by norm_num)).mpr (by norm_num)
      omega
    have hr : roundHalfEven 1152921504606846975 (2 ^ (59 - 52)) * 2 ^ (59 - 52)
        = 1152921504606846976 := by decide!
    rw [f64ofUint_eq, hlog, hr]
    norm_num
  refine ⟨ht, hf, ?_⟩
  rw [float64_eq_tier, f64div_tier _ _ (tierOf_le _), New_Value, ht, hf]
  norm_num

/-- C37, amended: for every raw count `v` of 64 bits with `v ≥ 1`, the scaled value
returned by `float64`, the converted count divided by `1024 ^ tierOf v`, is at
least 1 and at most 1024, and it is less than 1024 when `v < 2 ^ 53` (the
conversion is then exact); for the count 0 it is 0. -/
theorem C37_scaled_value_range (v : Nat) (n : List String) (h1 : 1 ≤ v) (h64 : v < 2 ^ 64) :
    (New v n).float64 = f64ofUint v / (1024 : ℚ) ^ tierOf v ∧
    1 ≤ (New v n).float64 ∧ (New v n).float64 ≤ 1024 ∧
    (v < 2 ^ 53 → (New v n).float64 < 1024) ∧
    (New 0 n).float64 = 0 := by
  have hv : (New v n).Value = v := New_Value v n
  refine ⟨?_, ?_, ?_, ?_, ?_⟩
  · rw [float64_eq_tier, f64div_tier _ _ (tierOf_le _), hv]
  · exact float64_ge_one _ (by rw [hv]; exact h1)
  · exact float64_le _ (by rw [hv]; exact h64)
  · intro h53
    exact float64_lt _ (by rw [hv]; exact h53)
  · exact float64_zero _ (New_Value 0 n)

/-- C37, at the counts 1128 and 1048575: the scaled values are 141 / 128 and
1048575 / 1024, between 1 and 1024. -/
theorem C37_scaled_value_range_witness :
    (New 1128 []).float64 = 141 / 128 ∧ (New 1048575 []).float64 = 1048575 / 1024 ∧
    (1 : ℚ) ≤ (New 1048575 []).float64 ∧ (New 1048575 []).float64 < 1024 := by
  have h := C37_scaled_value_range 1048575 [] (by norm_num) (by norm_num)
  refine ⟨float64_at 1128 [] _ 1 (by norm_num) (by decide) (by norm_num),
    float64_at 1048575 [] _ 1 (by norm_num) (by decide) (by norm_num),
    h.2.1, h.2.2.2.1 (by norm_num)⟩

/-- C38: for every raw count `v` of 64 bits, the integer `Format` writes for the
verb `d`, the scaled value rounded to the nearest integer and converted to
`int64`, is a number `r` from 0 to 1024, so the conversion does not overflow;
`r` is 0 only for the count 0; the output is the digits of `r` followed by the
unit name. -/
theorem C38_rounded_range (isPrint : Char → Bool) (v : Nat) (n : List String)
    (h64 : v < 2 ^ 64) :
    ∃ (u : String) (r : Nat), (New v n).name = some u ∧
      toInt64 (mathRound (New v n).float64) = (r : ℤ) ∧
      r ≤ 1024 ∧ (r = 0 ↔ v = 0) ∧
      (New v n).Format isPrint State.plain Verb.d = some (Nat.repr r ++ u) := by
  obtain ⟨u, hu⟩ := New_name v n
  have hv : (New v n).Value = v := New_Value v n
  have hx := float64_nonneg (New v n)
  have hup := float64_le (New v n) (by rw [hv]; exact h64)
  have h2 : (0 : ℤ) ≤ ⌊(New v n).float64 + 1 / 2⌋ := Int.floor_nonneg.mpr (by linarith)
  obtain ⟨r, hr⟩ := Int.eq_ofNat_of_zero_le h2
  have hround : toInt64 (mathRound (New v n).float64) = (r : ℤ) := by
    rw [toInt64_mathRound _ hx, hr]
  have hle : r ≤ 1024 := by
    have hlt : ⌊(New v n).float64 + 1 / 2⌋ < 1025 := by
      rw [Int.floor_lt]
      push_cast
      linarith
    rw [hr] at hlt
    have : (r : ℤ) < 1025 := hlt
    omega
  have hzero : r = 0 ↔ v = 0 := by
    have := rounded_eq_zero (New v n)
    rw [hround, hv] at this
    constructor
    · intro h
      exact this.mp (by exact_mod_cast h)
    · intro h
      exact_mod_cast this.mpr h
  refine ⟨u, r, hu, hround, hle, hzero, ?_⟩
  rw [Format_numeric isPrint _ _ _ u hu (by decide) (by decide),
    valueText_d _ none State.plain rfl rfl, hr]
  rfl

/-- C38, at the example of the claim: the count 1048575 is written 1024K with
the verb `d`, the bound 1024 being reached; 1048576 is written 1M. -/
theorem C38_rounded_range_witness :
    (New 1048575 []).Format (fun _ => true) State.plain Verb.d = some "1024K" ∧
    (New 1048576 []).Format (fun _ => true) State.plain Verb.d = some "1M" := by
  obtain ⟨u, r, hu, hr, -, -, hf⟩ := C38_rounded_range (fun _ => true) 1048575 []
    (by norm_num)
  have hK : (New 1048575 []).name = some "K" := by decide
  rw [hK] at hu
  cases hu
  rw [float64_at 1048575 [] (1048575 / 1024) 1 (by norm_num) (by decide) (by norm_num)] at hr
  have h1024 : toInt64 (mathRound (1048575 / 1024)) = 1024 := by decide!
  rw [h1024] at hr
  have hr' : r = 1024 := by exact_mod_cast hr.symm
  rw [hr'] at hf
  refine ⟨by rw [hf]; decide, ?_⟩
  rw [Format_numeric_at _ _ _ _ "M" 1 (by decide)
    (float64_at 1048576 [] _ 2 (by norm_num) (by decide) (by norm_num)) (by decide) (by decide)]
  decide!

end Bytefmt
